import Mathlib

set_option maxHeartbeats 1600000

namespace Ingrid

/-!
Shallow embedding of the outline-tree model of react-ingrid-p2
(src/src/App.js and src/src/model/node.js).

JavaScript exceptions (the ow/aproba validators and `checkIndex`) are
modelled by `Option`: `none` means the operation threw.  The in-place
mutation of a node object fetched from `model.byId` is modelled by
writing the updated node back at its id.  The external id/title
generators (nanoid, faker) are inputs of the embedding: `addNewLine`
takes the fresh id and the generated title as arguments.
-/

/-! ### List helpers mirroring the JavaScript array operations -/

/-- `l[i]` -/
def nthId : List String → Nat → Option String
  | [], _ => none
  | x :: _, 0 => some x
  | _ :: t, n + 1 => nthId t n

/-- `Array.prototype.findIndex(R.equals(x))`, with `none` for `-1`. -/
def findIdxOf (x : String) : List String → Option Nat
  | [] => none
  | y :: t => if y = x then some 0 else (findIdxOf x t).map (· + 1)

/-- `Array.prototype.splice(i, 0, x)` (insertion clamps at the end, as splice does). -/
def insertAt : Nat → String → List String → List String
  | 0, x, l => x :: l
  | _ + 1, x, [] => [x]
  | n + 1, x, y :: t => y :: insertAt n x t

/-- `R.without([x])`: drop every occurrence of `x`. -/
def removeAll (x : String) : List String → List String
  | [] => []
  | y :: t => if y = x then removeAll x t else y :: removeAll x t

/-- `R.last` -/
def lastElem : List String → Option String
  | [] => none
  | [x] => some x
  | _ :: y :: t => lastElem (y :: t)

/-- number of occurrences of `x` -/
def countOcc (x : String) : List String → Nat
  | [] => 0
  | y :: t => (if y = x then 1 else 0) + countOcc x t

/-! ### The data model (src/src/model/node.js, src/src/App.js) -/

def rootNodeId : String := "id_root"

structure Node where
  id : String
  title : String
  collapsed : Bool
  childIds : List String
deriving DecidableEq, Repr

/-- node.js `createRootNode` -/
def createRootNode : Node :=
  { id := rootNodeId, title := "Root", collapsed := false, childIds := [] }

/-- node.js `createNewNode`; the nanoid id and faker title are inputs here. -/
def createNewNode (newId newTitle : String) : Node :=
  { id := newId, title := newTitle, collapsed := false, childIds := [] }

/-- The `byId` JavaScript object is an association list with unique keys;
    `currentId` as in App.js. -/
structure Model where
  byId : List (String × Node)
  currentId : String
deriving DecidableEq, Repr

/-- App.js `createInitialModel` -/
def createInitialModel : Model :=
  { byId := [(rootNodeId, createRootNode)], currentId := rootNodeId }

/-! ### Association-list operations for the `byId` object -/

/-- `byId[k]` -/
def alookup (k : String) : List (String × Node) → Option Node
  | [] => none
  | (k1, n) :: t => if k1 = k then some n else alookup k t

/-- `byId[k] = v` (replace if the key is present, append otherwise). -/
def aupdate (k : String) (v : Node) : List (String × Node) → List (String × Node)
  | [] => [(k, v)]
  | (k1, n) :: t => if k1 = k then (k, v) :: t else (k1, n) :: aupdate k v t

def keysOf (l : List (String × Node)) : List String := l.map Prod.fst

/-- the collapse-insensitive part of a `byId` entry: key, node id, title,
    childIds -/
def entryShape (p : String × Node) : String × String × String × List String :=
  (p.1, (p.2.id, p.2.title, p.2.childIds))

/-- two models identical except in the `collapsed` fields of their nodes: same
    currentId, same entries (key, id, title, childIds) in the same order -/
def CollapseEquiv (m1 m2 : Model) : Prop :=
  m1.currentId = m2.currentId ∧
  m1.byId.map entryShape = m2.byId.map entryShape

/-! ### node.js helpers -/

/-- node.js `isRootNode` -/
def isRootNode (n : Node) : Bool := decide (n.id = rootNodeId)

/-- node.js `hasChildren`: `childIds.length > 0` -/
def hasChildren (n : Node) : Bool := decide (0 < n.childIds.length)

/-- node.js `canExpand` -/
def canExpand (n : Node) : Bool := hasChildren n && n.collapsed

/-- node.js `canCollapse` -/
def canCollapse (n : Node) : Bool := hasChildren n && !n.collapsed

/-- node.js `appendNodeIdAfterSiblingId`: splice `nodeId` right after `siblingId`;
    `checkIndex` throws (`none`) when `siblingId` is not among the children. -/
def appendNodeIdAfterSiblingId (nodeId siblingId : String) (parent : Node) : Option Node :=
  match findIdxOf siblingId parent.childIds with
  | none => none
  | some nodeIdx =>
    some { parent with childIds := insertAt (nodeIdx + 1) nodeId parent.childIds }

/-- node.js `maybeNextChildId`: the child after `nodeId`, `some none` when `nodeId`
    is last, `none` (throw) when `nodeId` is not a child at all. -/
def maybeNextChildId (nodeId : String) (parent : Node) : Option (Option String) :=
  match findIdxOf nodeId parent.childIds with
  | none => none
  | some nodeIdx =>
    if nodeIdx + 1 < parent.childIds.length then some (nthId parent.childIds (nodeIdx + 1))
    else some none

/-- node.js `maybePrevChildId` -/
def maybePrevChildId (nodeId : String) (parent : Node) : Option (Option String) :=
  match findIdxOf nodeId parent.childIds with
  | none => none
  | some nodeIdx =>
    if 0 < nodeIdx then some (nthId parent.childIds (nodeIdx - 1))
    else some none

/-- Modelled from the spec: `removeChildId(childId, parent)` is imported by
    src/src/App.js from src/src/model/node.js but its definition is not present
    under src/.  Spec section 4.4: remove the id from the parent's childIds; the
    earlier inline version of the same repository (src/unnamed/part_001) used
    `R.without`, which removes every occurrence. -/
def removeChildId (childId : String) (parent : Node) : Node :=
  { parent with childIds := removeAll childId parent.childIds }

/-- Modelled from the spec: `appendChildIdAndExpand(childId, parent)` is imported by
    src/src/App.js from src/src/model/node.js but its definition is not present
    under src/.  Spec section 4.4 indent: append the id to the parent's childIds and
    force `parent.collapsed = false`; the earlier inline version of the same
    repository (src/unnamed/part_001) does exactly this. -/
def appendChildIdAndExpand (childId : String) (parent : Node) : Node :=
  { parent with childIds := parent.childIds ++ [childId], collapsed := false }

/-! ### App.js: lookups and the derived parent relation -/

/-- App.js `getNodeById` (`none` = the ow validator threw on a missing node). -/
def getNodeById (id : String) (m : Model) : Option Node := alookup id m.byId

/-- App.js `getCurrentNode` -/
def getCurrentNode (m : Model) : Option Node := getNodeById m.currentId m

/-- In-place mutation of a node object held in `byId`: write the updated node back
    at its id (in every well-formed model the store key equals the node id). -/
def setNode (m : Model) (n : Node) : Model := { m with byId := aupdate n.id n m.byId }

/-- the `(childId, parent.id)` pairs recorded by App.js `getIdToPidLookup`,
    in write order -/
def childPairs (n : Node) : List (String × String) := n.childIds.map (fun c => (c, n.id))

def pidPairsOf : List (String × Node) → List (String × String)
  | [] => []
  | (_, n) :: t => childPairs n ++ pidPairsOf t

/-- object-assignment semantics of the accumulator in `getIdToPidLookup`:
    the last write wins -/
def lastLookup (k : String) : List (String × String) → Option String
  | [] => none
  | (k1, v) :: t =>
    match lastLookup k t with
    | some r => some r
    | none => if k1 = k then some v else none

/-- App.js `getIdToPidLookup`, applied to one child id. -/
def getIdToPidLookup (m : Model) (c : String) : Option String := lastLookup c (pidPairsOf m.byId)

/-- App.js `maybeParentIdOf` -/
def maybeParentIdOf (n : Node) (m : Model) : Option String := getIdToPidLookup m n.id

/-- App.js `getParentOfId`: throws (`none`) when there is no parent entry or the
    parent id has no node. -/
def getParentOfId (nodeId : String) (m : Model) : Option Node :=
  (getIdToPidLookup m nodeId).bind (fun pid => getNodeById pid m)

/-- App.js `getParentOf` -/
def getParentOf (n : Node) (m : Model) : Option Node := getParentOfId n.id m

/-! ### App.js: traversal -/

/-- App.js `maybeFirstChildIdOf` -/
def maybeFirstChildIdOf (n : Node) : Option String := n.childIds.head?

/-- App.js `maybeNextSibIdOf` (outer `none` = throw, inner `none` = no next sibling). -/
def maybeNextSibIdOf (n : Node) (m : Model) : Option (Option String) :=
  if isRootNode n then some none
  else (getParentOf n m).bind fun parent => maybeNextChildId n.id parent

/-- App.js `maybePrevSibIdOf` -/
def maybePrevSibIdOf (n : Node) (m : Model) : Option (Option String) :=
  if isRootNode n then some none
  else (getParentOf n m).bind fun parent => maybePrevChildId n.id parent

/-- App.js `maybeNextSibOfFirstAncestor`.  The JavaScript function recurses up the
    parent chain; the embedding spends one unit of fuel per level, `none` meaning
    divergence or a thrown validator error. -/
def maybeNextSibOfFirstAncestor : Nat → Node → Model → Option (Option String)
  | 0, _, _ => none
  | fuel + 1, n, m =>
    match maybeParentIdOf n m with
    | none => some none
    | some pid =>
      (getNodeById pid m).bind fun parent =>
      (maybeNextSibIdOf parent m).bind fun mb =>
      match mb with
      | some i => some (some i)
      | none => maybeNextSibOfFirstAncestor fuel parent m

/-- the `||` chain inside App.js `attemptNext` -/
def nextCandidate (fuel : Nat) (n : Node) (m : Model) : Option (Option String) :=
  match maybeFirstChildIdOf n with
  | some i => some (some i)
  | none =>
    (maybeNextSibIdOf n m).bind fun mb =>
    match mb with
    | some i => some (some i)
    | none => maybeNextSibOfFirstAncestor fuel n m

/-- App.js `attemptNext` -/
def attemptNext (fuel : Nat) (m : Model) : Option Model :=
  (getCurrentNode m).bind fun currentNode =>
  (nextCandidate fuel currentNode m).bind fun maybeId =>
  match maybeId with
  | some i => some { m with currentId := i }
  | none => some m

/-- App.js `getLastDescendentIdOrSelf` (fueled recursion into the last child). -/
def getLastDescendentIdOrSelf : Nat → String → Model → Option String
  | 0, _, _ => none
  | fuel + 1, nodeId, m =>
    (getNodeById nodeId m).bind fun n =>
    match lastElem n.childIds with
    | none => some nodeId
    | some lastChildId => getLastDescendentIdOrSelf fuel lastChildId m

/-- App.js `attemptPrev` -/
def attemptPrev (fuel : Nat) (m : Model) : Option Model :=
  (getCurrentNode m).bind fun currentNode =>
  if isRootNode currentNode then some m
  else
    (maybePrevSibIdOf currentNode m).bind fun mp =>
    match mp with
    | some prevId =>
      (getLastDescendentIdOrSelf fuel prevId m).map fun d => { m with currentId := d }
    | none =>
      match maybeParentIdOf currentNode m with
      | some pid => some { m with currentId := pid }
      | none => some m

/-! ### App.js: mutations -/

/-- App.js `indent` -/
def indent (m : Model) : Option Model :=
  (getCurrentNode m).bind fun currentNode =>
  if isRootNode currentNode then some m
  else
    (maybePrevSibIdOf currentNode m).bind fun mp =>
    match mp with
    | none => some m
    | some maybePrevSibId =>
      (getParentOf currentNode m).bind fun oldParent =>
      let m1 := setNode m (removeChildId currentNode.id oldParent)
      (getNodeById maybePrevSibId m1).map fun newParent =>
      setNode m1 (appendChildIdAndExpand currentNode.id newParent)

/-- App.js `outdent` -/
def outdent (m : Model) : Option Model :=
  (getCurrentNode m).bind fun currentNode =>
  if isRootNode currentNode then some m
  else
    (getParentOf currentNode m).bind fun p0 =>
    if isRootNode p0 then some m
    else
      (getParentOf currentNode m).bind fun oldParent =>
      (getParentOf oldParent m).bind fun grandParent =>
      let m1 := setNode m (removeChildId currentNode.id oldParent)
      (getNodeById grandParent.id m1).bind fun gp1 =>
      match findIdxOf oldParent.id gp1.childIds with
      | none => none
      | some oldParentIndex =>
        some (setNode m1
          { gp1 with childIds := insertAt (oldParentIndex + 1) currentNode.id gp1.childIds })

/-- App.js `expand` -/
def expand (m : Model) : Option Model :=
  (getCurrentNode m).map fun currentNode =>
  if canExpand currentNode then setNode m { currentNode with collapsed := false } else m

/-- App.js `collapse` -/
def collapse (m : Model) : Option Model :=
  (getCurrentNode m).map fun currentNode =>
  if canCollapse currentNode then setNode m { currentNode with collapsed := true } else m

/-- App.js `appendNewChild`: push the new id onto the node's childIds, register the
    node, move the cursor. -/
def appendNewChild (newNode : Node) (node : Node) (m : Model) : Model :=
  let m1 := setNode m { node with childIds := node.childIds ++ [newNode.id] }
  { m1 with byId := aupdate newNode.id newNode m1.byId, currentId := newNode.id }

/-- App.js `appendNewSiblingAfter` -/
def appendNewSiblingAfter (newNode : Node) (node : Node) (m : Model) : Option Model :=
  (getParentOf node m).bind fun parent =>
  (appendNodeIdAfterSiblingId newNode.id node.id parent).map fun parent1 =>
  let m1 := setNode m parent1
  { m1 with byId := aupdate newNode.id newNode m1.byId, currentId := newNode.id }

/-- App.js `addNewLine` effect (the externally generated fresh id and title are
    arguments). -/
def addNewLine (newId newTitle : String) (m : Model) : Option Model :=
  (getCurrentNode m).bind fun current =>
  if isRootNode current then some (appendNewChild (createNewNode newId newTitle) current m)
  else appendNewSiblingAfter (createNewNode newId newTitle) current m

/-! ### The seven commands of the cursor controller -/

inductive Cmd where
  | addLine (newId newTitle : String)
  | moveNext
  | movePrev
  | indentCmd
  | outdentCmd
  | expandCmd
  | collapseCmd
deriving DecidableEq, Repr

/-- One keyboard command.  The recursive traversal helpers get `byId.length`
    fuel, which suffices on every well-formed model (see the fuel lemmas). -/
def applyCmd : Cmd → Model → Option Model
  | .addLine newId newTitle, m => addNewLine newId newTitle m
  | .moveNext, m => attemptNext m.byId.length m
  | .movePrev, m => attemptPrev m.byId.length m
  | .indentCmd, m => indent m
  | .outdentCmd, m => outdent m
  | .expandCmd, m => expand m
  | .collapseCmd, m => collapse m

/-- Side condition of a command: an `addLine` must carry a genuinely fresh,
    non-empty id (nanoid's contract; checkNode rejects an empty id). -/
def validCmd : Cmd → Model → Bool
  | .addLine newId _, m => decide (newId ≠ "" ∧ newId ∉ keysOf m.byId)
  | _, _ => true

/-- Run a command sequence from a model, insisting on the freshness side
    condition at each `addLine`. -/
def goodRun : List Cmd → Model → Option Model
  | [], m => some m
  | c :: cs, m => if validCmd c m then (applyCmd c m).bind (goodRun cs) else none

/-! ### The derived parent relation, counted -/

/-- how many times `c` occurs as a child id anywhere in the store -/
def countParents (c : String) : List (String × Node) → Nat
  | [] => 0
  | (_, n) :: t => countOcc c n.childIds + countParents c t

/-- distance to the root along the derived parent relation (fueled; `none` means
    the fuel ran out or a parentless non-root node was hit) -/
def depthOf (m : Model) : Nat → String → Option Nat
  | 0, _ => none
  | fuel + 1, k =>
    if k = rootNodeId then some 0
    else
      match getIdToPidLookup m k with
      | none => none
      | some p => (depthOf m fuel p).map (· + 1)

/-- the parent chain from `k` up to the root (empty if the fuel runs out or the
    chain breaks) -/
def chainOf (m : Model) : Nat → String → List String
  | 0, _ => []
  | fuel + 1, k =>
    if k = rootNodeId then [k]
    else
      match getIdToPidLookup m k with
      | none => []
      | some p => k :: chainOf m fuel p

/-- number of pairs with key `c` -/
def countPairs (c : String) : List (String × String) → Nat
  | [] => 0
  | (k, _) :: t => (if k = c then 1 else 0) + countPairs c t

/-- `b` is recorded as a child of the node stored at key `a`. -/
def childEdge (m : Model) (a b : String) : Prop :=
  ∃ n, alookup a m.byId = some n ∧ b ∈ n.childIds

/-- `k` is reachable from the root along child edges. -/
def ReachesFromRoot (m : Model) (k : String) : Prop :=
  Relation.ReflTransGen (childEdge m) rootNodeId k

/-- no node is its own proper descendant -/
def AcyclicChildren (m : Model) : Prop :=
  ∀ k, ¬ Relation.TransGen (childEdge m) k k

/-- Well-formedness of a model: unique store keys, key/id agreement, the root and
    the cursor present, child references closed, the root parentless, every other
    node with exactly one parent occurrence, and every node at a finite depth
    below the root.  This is the invariant of spec section 3. -/
structure Wf (m : Model) : Prop where
  nodupKeys : (keysOf m.byId).Nodup
  rootMem : rootNodeId ∈ keysOf m.byId
  currentMem : m.currentId ∈ keysOf m.byId
  idConsist : ∀ p ∈ m.byId, p.2.id = p.1
  childClosed : ∀ p ∈ m.byId, ∀ c ∈ p.2.childIds, c ∈ keysOf m.byId
  rootParents : countParents rootNodeId m.byId = 0
  parentsUnique : ∀ k ∈ keysOf m.byId, k ≠ rootNodeId → countParents k m.byId = 1
  depthCert : ∀ k ∈ keysOf m.byId, (depthOf m m.byId.length k).isSome

/-- concrete model used by witnesses: the result of
    addLine "idA", addLine "idB", indent from the initial model -/
def c1Model : Model :=
  ⟨[(rootNodeId, Node.mk rootNodeId "Root" false ["idA"]),
    ("idA", Node.mk "idA" "ta" false ["idB"]),
    ("idB", Node.mk "idB" "tb" false [])], "idB"⟩

/-- the same store with the cursor on "idA" (which has a child and is expanded) -/
def c7Model : Model := ⟨c1Model.byId, "idA"⟩

/-- root with two children; the first one collapsed; cursor on the second -/
def c8Model : Model :=
  ⟨[(rootNodeId, Node.mk rootNodeId "Root" false ["pA", "pB"]),
    ("pA", Node.mk "pA" "t" true []),
    ("pB", Node.mk "pB" "u" false [])], "pB"⟩

/-- what `indent` turns `c8Model` into -/
def c8Result : Model :=
  ⟨[(rootNodeId, Node.mk rootNodeId "Root" false ["pA"]),
    ("pA", Node.mk "pA" "t" false ["pB"]),
    ("pB", Node.mk "pB" "u" false [])], "pB"⟩

/-- `c8Model` with the collapsed flag of "pA" cleared: identical except in
    collapse state. -/
def c9Model : Model :=
  ⟨[(rootNodeId, Node.mk rootNodeId "Root" false ["pA", "pB"]),
    ("pA", Node.mk "pA" "t" false []),
    ("pB", Node.mk "pB" "u" false [])], "pB"⟩

/-! ### Lemmas: occurrence counts -/

theorem countOcc_nil (x : String) : countOcc x [] = 0 := rfl

theorem countOcc_cons (x y : String) (t : List String) :
    countOcc x (y :: t) = (if y = x then 1 else 0) + countOcc x t := rfl

theorem countOcc_append (x : String) (l1 l2 : List String) :
    countOcc x (l1 ++ l2) = countOcc x l1 + countOcc x l2 := by
  induction l1 with
  | nil => simp [countOcc]
  | cons y t ih => simp [countOcc, ih]; omega

theorem countOcc_eq_zero_iff (x : String) (l : List String) :
    countOcc x l = 0 ↔ x ∉ l := by
  induction l with
  | nil => simp [countOcc]
  | cons y t ih =>
    simp only [countOcc_cons, List.mem_cons]
    by_cases h : y = x
    · subst h
      simp only [if_pos rfl]
      constructor
      · intro h0; exfalso; simp at h0
      · intro h0; exfalso; simp at h0
    · have hxy : ¬ x = y := fun hh => h hh.symm
      simp only [if_neg h, Nat.zero_add, ih]
      constructor
      · rintro h0 (h1 | h1)
        · exact hxy h1
        · exact h0 h1
      · intro h0 h1
        exact h0 (Or.inr h1)

theorem countOcc_pos_of_mem {x : String} {l : List String} (h : x ∈ l) :
    0 < countOcc x l := by
  rcases Nat.eq_zero_or_pos (countOcc x l) with h0 | h0
  · exact absurd h ((countOcc_eq_zero_iff x l).mp h0)
  · exact h0

theorem mem_of_countOcc_pos {x : String} {l : List String} (h : 0 < countOcc x l) :
    x ∈ l := by
  by_contra hx
  rw [← countOcc_eq_zero_iff x l] at hx
  omega

/-! ### Lemmas: nthId / findIdxOf -/

theorem nthId_zero (x : String) (t : List String) : nthId (x :: t) 0 = some x := rfl

theorem nthId_succ (x : String) (t : List String) (n : Nat) :
    nthId (x :: t) (n + 1) = nthId t n := rfl

theorem nthId_mem {l : List String} {i : Nat} {x : String} (h : nthId l i = some x) :
    x ∈ l := by
  induction l generalizing i with
  | nil => simp [nthId] at h
  | cons y t ih =>
    cases i with
    | zero => simp [nthId] at h; simp [h]
    | succ j => exact List.mem_cons_of_mem _ (ih h)

theorem nthId_isSome_of_lt {l : List String} {i : Nat} (h : i < l.length) :
    ∃ x, nthId l i = some x := by
  induction l generalizing i with
  | nil => simp at h
  | cons y t ih =>
    cases i with
    | zero => exact ⟨y, rfl⟩
    | succ j => exact ih (by simpa using h)

theorem nthId_lt_length {l : List String} {i : Nat} {x : String} (h : nthId l i = some x) :
    i < l.length := by
  induction l generalizing i with
  | nil => simp [nthId] at h
  | cons y t ih =>
    cases i with
    | zero => simp
    | succ j => have := ih h; simpa using Nat.succ_lt_succ this

theorem countOcc_two_of_nthId_ne {l : List String} {i j : Nat} {x : String}
    (hi : nthId l i = some x) (hj : nthId l j = some x) (hij : i ≠ j) :
    2 ≤ countOcc x l := by
  induction l generalizing i j with
  | nil => simp [nthId] at hi
  | cons y t ih =>
    cases i with
    | zero =>
      cases j with
      | zero => exact absurd rfl hij
      | succ j1 =>
        simp [nthId] at hi
        have hm : x ∈ t := nthId_mem hj
        have := countOcc_pos_of_mem hm
        simp [countOcc_cons, hi]
        omega
    | succ i1 =>
      cases j with
      | zero =>
        simp [nthId] at hj
        have hm : x ∈ t := nthId_mem hi
        have := countOcc_pos_of_mem hm
        simp [countOcc_cons, hj]
        omega
      | succ j1 =>
        have := ih hi hj (fun h => hij (by omega))
        simp [countOcc_cons]
        omega

theorem findIdxOf_eq_some_of_unique {l : List String} {i : Nat} {x : String}
    (hn : nthId l i = some x) (hc : countOcc x l = 1) :
    findIdxOf x l = some i := by
  induction l generalizing i with
  | nil => simp [nthId] at hn
  | cons y t ih =>
    by_cases h : y = x
    · subst h
      cases i with
      | zero => simp [findIdxOf]
      | succ j =>
        have hm : y ∈ t := nthId_mem hn
        have := countOcc_pos_of_mem hm
        simp [countOcc_cons] at hc
        omega
    · cases i with
      | zero => simp [nthId] at hn; exact absurd hn h
      | succ j =>
        simp [countOcc_cons, h] at hc
        simp [findIdxOf, h, ih hn hc]

theorem findIdxOf_nthId {l : List String} {i : Nat} {x : String}
    (h : findIdxOf x l = some i) : nthId l i = some x := by
  induction l generalizing i with
  | nil => simp [findIdxOf] at h
  | cons y t ih =>
    by_cases hy : y = x
    · simp [findIdxOf, hy] at h
      subst hy; cases h; exact rfl
    · simp [findIdxOf, hy] at h
      rcases h with ⟨j, hj, rfl⟩
      exact ih hj

theorem findIdxOf_isSome_of_mem {l : List String} {x : String} (h : x ∈ l) :
    ∃ i, findIdxOf x l = some i := by
  induction l with
  | nil => simp at h
  | cons y t ih =>
    by_cases hy : y = x
    · exact ⟨0, by simp [findIdxOf, hy]⟩
    · rcases List.mem_cons.mp h with h1 | h1
      · exact absurd h1.symm hy
      · rcases ih h1 with ⟨i, hi⟩
        exact ⟨i + 1, by simp [findIdxOf, hy, hi]⟩

/-! ### Lemmas: insertAt / removeAll / lastElem -/

theorem countOcc_insertAt (i : Nat) (x y : String) (l : List String) :
    countOcc y (insertAt i x l) = countOcc y l + (if x = y then 1 else 0) := by
  induction l generalizing i with
  | nil =>
    cases i <;> simp [insertAt, countOcc]
  | cons z t ih =>
    cases i with
    | zero => simp [insertAt, countOcc_cons]; omega
    | succ j => simp [insertAt, countOcc_cons, ih]; omega

theorem countOcc_removeAll_self (x : String) (l : List String) :
    countOcc x (removeAll x l) = 0 := by
  induction l with
  | nil => rfl
  | cons y t ih =>
    by_cases h : y = x <;> simp [removeAll, h, countOcc_cons, ih]

theorem countOcc_removeAll_ne {x y : String} (h : y ≠ x) (l : List String) :
    countOcc y (removeAll x l) = countOcc y l := by
  induction l with
  | nil => rfl
  | cons z t ih =>
    by_cases hz : z = x
    · have hzy : ¬ z = y := fun hh => h (hh.symm.trans hz)
      have hxy : ¬ x = y := fun hh => h hh.symm
      simp [removeAll, hz, countOcc_cons, ih, hzy, hxy]
    · simp [removeAll, hz, countOcc_cons, ih]

theorem mem_removeAll {x y : String} {l : List String} :
    y ∈ removeAll x l ↔ y ∈ l ∧ y ≠ x := by
  induction l with
  | nil => simp [removeAll]
  | cons z t ih =>
    by_cases hz : z = x
    · subst hz
      simp [removeAll, ih]
      intro h1 h2; exact absurd h2 h1
    · simp [removeAll, hz, ih]
      constructor
      · rintro (rfl | ⟨h1, h2⟩)
        · exact ⟨Or.inl rfl, hz⟩
        · exact ⟨Or.inr h1, h2⟩
      · rintro ⟨rfl | h1, h2⟩
        · exact Or.inl rfl
        · exact Or.inr ⟨h1, h2⟩

theorem mem_insertAt {x y : String} {i : Nat} {l : List String} :
    y ∈ insertAt i x l ↔ y = x ∨ y ∈ l := by
  have h := countOcc_insertAt i x y l
  constructor
  · intro hm
    by_cases hyx : y = x
    · exact Or.inl hyx
    · have := countOcc_pos_of_mem hm
      rw [h] at this
      have hne : ¬ (x = y) := fun hh => hyx (hh ▸ rfl)
      simp [hne] at this
      exact Or.inr (mem_of_countOcc_pos this)
  · intro hm
    rcases hm with rfl | hm
    · apply mem_of_countOcc_pos; rw [h]; simp
    · apply mem_of_countOcc_pos; rw [h]
      have := countOcc_pos_of_mem hm
      omega

theorem lastElem_eq_none_iff (l : List String) : lastElem l = none ↔ l = [] := by
  induction l with
  | nil => simp [lastElem]
  | cons y t ih =>
    cases t with
    | nil => simp [lastElem]
    | cons z t2 => simpa [lastElem] using ih

theorem lastElem_mem {l : List String} {x : String} (h : lastElem l = some x) : x ∈ l := by
  induction l with
  | nil => simp [lastElem] at h
  | cons y t ih =>
    cases t with
    | nil => simp [lastElem] at h; simp [h]
    | cons z t2 =>
      simp only [lastElem] at h
      exact List.mem_cons_of_mem _ (ih h)

theorem lastElem_nthId {l : List String} {x : String} (h : lastElem l = some x) :
    nthId l (l.length - 1) = some x := by
  induction l with
  | nil => simp [lastElem] at h
  | cons y t ih =>
    cases t with
    | nil => simp [lastElem] at h; simp [nthId, h]
    | cons z t2 =>
      simp only [lastElem] at h
      have := ih h
      simpa [nthId] using this

/-! ### Lemmas: the byId association list -/

theorem keysOf_cons1 (k1 : String) (n1 : Node) (t : List (String × Node)) :
    keysOf ((k1, n1) :: t) = k1 :: keysOf t := rfl

theorem alookup_eq_none_iff (k : String) (l : List (String × Node)) :
    alookup k l = none ↔ k ∉ keysOf l := by
  induction l with
  | nil => simp [alookup, keysOf]
  | cons p t ih =>
    obtain ⟨k1, n⟩ := p
    rw [keysOf_cons1]
    by_cases h : k1 = k
    · subst h
      simp [alookup]
    · have hk : ¬ k = k1 := fun hh => h hh.symm
      simp [alookup, h, ih, List.mem_cons, hk]

theorem alookup_isSome_of_mem {k : String} {l : List (String × Node)}
    (h : k ∈ keysOf l) : ∃ n, alookup k l = some n := by
  rcases ho : alookup k l with _ | n
  · exact absurd h ((alookup_eq_none_iff k l).mp ho)
  · exact ⟨n, rfl⟩

theorem alookup_mem {k : String} {n : Node} {l : List (String × Node)}
    (h : alookup k l = some n) : (k, n) ∈ l := by
  induction l with
  | nil => simp [alookup] at h
  | cons p t ih =>
    obtain ⟨k1, n1⟩ := p
    by_cases hk : k1 = k
    · subst hk
      simp [alookup] at h
      simp [h]
    · simp [alookup, hk] at h
      exact List.mem_cons_of_mem _ (ih h)

theorem mem_keysOf_of_mem {k : String} {n : Node} {l : List (String × Node)}
    (h : (k, n) ∈ l) : k ∈ keysOf l :=
  List.mem_map_of_mem Prod.fst h

theorem alookup_eq_some_of_mem {k : String} {n : Node} {l : List (String × Node)}
    (hm : (k, n) ∈ l) (hnd : (keysOf l).Nodup) : alookup k l = some n := by
  induction l with
  | nil => simp at hm
  | cons p t ih =>
    obtain ⟨k1, n1⟩ := p
    rw [keysOf_cons1] at hnd
    obtain ⟨hnd1, hnd2⟩ := List.nodup_cons.mp hnd
    rcases List.mem_cons.mp hm with h1 | h1
    · have hk : k = k1 := congrArg Prod.fst h1
      have hn : n = n1 := congrArg Prod.snd h1
      subst hk; subst hn
      simp [alookup]
    · have hk1 : k1 ≠ k := by
        rintro rfl
        exact hnd1 (mem_keysOf_of_mem h1)
      simp [alookup, hk1]
      exact ih h1 hnd2

/-! ### Lemmas: aupdate -/

theorem keysOf_aupdate_of_mem {k : String} (v : Node) {l : List (String × Node)}
    (h : k ∈ keysOf l) : keysOf (aupdate k v l) = keysOf l := by
  induction l with
  | nil => simp [keysOf] at h
  | cons p t ih =>
    obtain ⟨k1, n1⟩ := p
    by_cases hk : k1 = k
    · subst hk
      simp [aupdate, keysOf_cons1]
    · rw [keysOf_cons1] at h
      rcases List.mem_cons.mp h with h1 | h1
      · exact absurd h1.symm hk
      · simp [aupdate, hk, keysOf_cons1, ih h1]

theorem keysOf_aupdate_of_not_mem {k : String} (v : Node) {l : List (String × Node)}
    (h : k ∉ keysOf l) : keysOf (aupdate k v l) = keysOf l ++ [k] := by
  induction l with
  | nil => simp [aupdate, keysOf]
  | cons p t ih =>
    obtain ⟨k1, n1⟩ := p
    rw [keysOf_cons1] at h
    have hk : k1 ≠ k := fun hh => h (hh ▸ List.mem_cons_self k1 (keysOf t))
    have ht : k ∉ keysOf t := fun hh => h (List.mem_cons_of_mem _ hh)
    simp [aupdate, hk, keysOf_cons1, ih ht]

theorem alookup_aupdate_self (k : String) (v : Node) (l : List (String × Node)) :
    alookup k (aupdate k v l) = some v := by
  induction l with
  | nil => simp [aupdate, alookup]
  | cons p t ih =>
    obtain ⟨k1, n1⟩ := p
    by_cases hk : k1 = k
    · simp [aupdate, hk, alookup]
    · simp [aupdate, hk, alookup, ih]

theorem alookup_aupdate_ne {k k1 : String} (hne : k1 ≠ k) (v : Node)
    (l : List (String × Node)) : alookup k1 (aupdate k v l) = alookup k1 l := by
  induction l with
  | nil =>
    have h1 : ¬ k = k1 := fun hh => hne hh.symm
    simp [aupdate, alookup, h1]
  | cons p t ih =>
    obtain ⟨k2, n2⟩ := p
    by_cases hk : k2 = k
    · subst hk
      have h1 : ¬ k2 = k1 := fun hh => hne hh.symm
      simp [aupdate, alookup, h1]
    · by_cases hk2 : k2 = k1
      · subst hk2
        simp [aupdate, alookup, hk]
      · simp [aupdate, hk, alookup, hk2, ih]

theorem mem_aupdate {p : String × Node} {k : String} {v : Node} {l : List (String × Node)}
    (h : p ∈ aupdate k v l) : p = (k, v) ∨ p ∈ l := by
  induction l with
  | nil => simp [aupdate] at h; exact Or.inl h
  | cons q t ih =>
    obtain ⟨k1, n1⟩ := q
    by_cases hk : k1 = k
    · simp [aupdate, hk] at h
      rcases h with h | h
      · exact Or.inl (by simp [h])
      · exact Or.inr (List.mem_cons_of_mem _ h)
    · simp only [aupdate, if_neg hk] at h
      rcases List.mem_cons.mp h with h | h
      · exact Or.inr (h ▸ List.mem_cons_self _ _)
      · rcases ih h with h1 | h1
        · exact Or.inl h1
        · exact Or.inr (List.mem_cons_of_mem _ h1)

theorem mem_aupdate_self {k : String} {v : Node} (l : List (String × Node)) :
    (k, v) ∈ aupdate k v l := by
  induction l with
  | nil => simp [aupdate]
  | cons q t ih =>
    obtain ⟨k1, n1⟩ := q
    by_cases hk : k1 = k
    · simp [aupdate, hk]
    · simp only [aupdate, if_neg hk]
      exact List.mem_cons_of_mem _ ih

theorem mem_aupdate_of_ne {q : String × Node} {k : String} {v : Node}
    {l : List (String × Node)} (hm : q ∈ l) (hne : q.1 ≠ k) : q ∈ aupdate k v l := by
  induction l with
  | nil => simp at hm
  | cons r t ih =>
    obtain ⟨k1, n1⟩ := r
    rcases List.mem_cons.mp hm with h | h
    · subst h
      simp only [aupdate, if_neg hne]
      exact List.mem_cons_self _ _
    · by_cases hk : k1 = k
      · simp only [aupdate, if_pos hk]
        exact List.mem_cons_of_mem _ h
      · simp only [aupdate, if_neg hk]
        exact List.mem_cons_of_mem _ (ih h)

/-! ### Lemmas: the derived child-to-parent lookup -/

theorem countPairs_append (c : String) (l1 l2 : List (String × String)) :
    countPairs c (l1 ++ l2) = countPairs c l1 + countPairs c l2 := by
  induction l1 with
  | nil => simp [countPairs]
  | cons p t ih =>
    obtain ⟨k, v⟩ := p
    simp [countPairs, ih]
    omega

theorem countPairs_pos_of_mem {c v : String} {l : List (String × String)}
    (h : (c, v) ∈ l) : 0 < countPairs c l := by
  induction l with
  | nil => simp at h
  | cons p t ih =>
    obtain ⟨k, w⟩ := p
    rcases List.mem_cons.mp h with h1 | h1
    · have : k = c := (congrArg Prod.fst h1).symm
      simp [countPairs, this]
    · have := ih h1
      simp [countPairs]
      omega

theorem lastLookup_eq_none_of_count_zero {c : String} {l : List (String × String)}
    (h : countPairs c l = 0) : lastLookup c l = none := by
  induction l with
  | nil => rfl
  | cons p t ih =>
    obtain ⟨k, v⟩ := p
    simp [countPairs] at h
    have hk : k ≠ c := by
      intro hh
      simp [hh] at h
    simp [lastLookup, ih h.2, hk]

theorem lastLookup_some_mem {c v : String} {l : List (String × String)}
    (h : lastLookup c l = some v) : (c, v) ∈ l := by
  induction l with
  | nil => simp [lastLookup] at h
  | cons p t ih =>
    obtain ⟨k, w⟩ := p
    simp only [lastLookup] at h
    rcases ht : lastLookup c t with _ | r
    · rw [ht] at h
      by_cases hk : k = c
      · simp [hk] at h
        subst hk
        simp [h]
      · simp [hk] at h
    · rw [ht] at h
      cases h
      exact List.mem_cons_of_mem _ (ih ht)

theorem lastLookup_of_count_one {c v : String} {l : List (String × String)}
    (hc : countPairs c l = 1) (hm : (c, v) ∈ l) : lastLookup c l = some v := by
  induction l with
  | nil => simp at hm
  | cons p t ih =>
    obtain ⟨k, w⟩ := p
    by_cases hk : k = c
    · subst hk
      simp [countPairs] at hc
      have ht : lastLookup k t = none := lastLookup_eq_none_of_count_zero hc
      rcases List.mem_cons.mp hm with h1 | h1
      · have : v = w := congrArg Prod.snd h1
        subst this
        simp [lastLookup, ht]
      · exact absurd (countPairs_pos_of_mem h1) (by omega)
    · simp [countPairs, hk] at hc
      rcases List.mem_cons.mp hm with h1 | h1
      · exact absurd ((congrArg Prod.fst h1).symm) hk
      · simp [lastLookup, ih hc h1]

/-! ### Lemmas: pidPairsOf and countParents -/

theorem countPairs_childPairs (c : String) (n : Node) :
    countPairs c (childPairs n) = countOcc c n.childIds := by
  unfold childPairs
  induction n.childIds with
  | nil => rfl
  | cons y t ih => simp [countPairs, countOcc_cons, ih]

theorem countPairs_pidPairs (c : String) (l : List (String × Node)) :
    countPairs c (pidPairsOf l) = countParents c l := by
  induction l with
  | nil => rfl
  | cons p t ih =>
    obtain ⟨k, n⟩ := p
    simp [pidPairsOf, countPairs_append, countPairs_childPairs, countParents, ih]

theorem mem_childPairs {c p : String} {n : Node} :
    (c, p) ∈ childPairs n ↔ c ∈ n.childIds ∧ n.id = p := by
  unfold childPairs
  constructor
  · intro h
    rcases List.mem_map.mp h with ⟨a, ha, he⟩
    have h1 : a = c := congrArg Prod.fst he
    have h2 : n.id = p := congrArg Prod.snd he
    exact ⟨h1 ▸ ha, h2⟩
  · rintro ⟨h1, h2⟩
    exact List.mem_map.mpr ⟨c, h1, by rw [h2]⟩

theorem mem_pidPairs {c p : String} {l : List (String × Node)} :
    (c, p) ∈ pidPairsOf l ↔ ∃ q ∈ l, c ∈ q.2.childIds ∧ q.2.id = p := by
  induction l with
  | nil => simp [pidPairsOf]
  | cons r t ih =>
    obtain ⟨k, n⟩ := r
    simp only [pidPairsOf, List.mem_append, ih, mem_childPairs]
    constructor
    · rintro (⟨h1, h2⟩ | ⟨q, hq, h1, h2⟩)
      · exact ⟨(k, n), List.mem_cons_self _ _, h1, h2⟩
      · exact ⟨q, List.mem_cons_of_mem _ hq, h1, h2⟩
    · rintro ⟨q, hq, h1, h2⟩
      rcases List.mem_cons.mp hq with h3 | h3
      · subst h3
        exact Or.inl ⟨h1, h2⟩
      · exact Or.inr ⟨q, h3, h1, h2⟩

/-! ### The parent lookup, characterized through parent counts -/

theorem exists_mem_of_countPairs_pos {c : String} {l : List (String × String)}
    (h : 0 < countPairs c l) : ∃ v, (c, v) ∈ l := by
  induction l with
  | nil => simp [countPairs] at h
  | cons p t ih =>
    obtain ⟨k, u⟩ := p
    by_cases hk : k = c
    · exact ⟨u, by simp [hk]⟩
    · simp [countPairs, hk] at h
      rcases ih h with ⟨v, hv⟩
      exact ⟨v, List.mem_cons_of_mem _ hv⟩

theorem lastLookup_isSome_of_mem {c v : String} {l : List (String × String)}
    (h : (c, v) ∈ l) : ∃ w, lastLookup c l = some w := by
  induction l with
  | nil => simp at h
  | cons p t ih =>
    obtain ⟨k, u⟩ := p
    rcases List.mem_cons.mp h with h1 | h1
    · have hk : k = c := (congrArg Prod.fst h1).symm
      rcases ht : lastLookup c t with _ | r
      · exact ⟨u, by simp [lastLookup, ht, hk]⟩
      · exact ⟨r, by simp [lastLookup, ht]⟩
    · rcases ih h1 with ⟨w, hw⟩
      exact ⟨w, by simp [lastLookup, hw]⟩

theorem parentD_eq_none_iff (m : Model) (c : String) :
    getIdToPidLookup m c = none ↔ countParents c m.byId = 0 := by
  constructor
  · intro h
    by_contra hc
    have hpos : 0 < countPairs c (pidPairsOf m.byId) := by
      rw [countPairs_pidPairs]
      omega
    rcases exists_mem_of_countPairs_pos hpos with ⟨v, hv⟩
    rcases lastLookup_isSome_of_mem hv with ⟨w, hw⟩
    rw [getIdToPidLookup, hw] at h
    cases h
  · intro h
    apply lastLookup_eq_none_of_count_zero
    rw [countPairs_pidPairs]
    exact h

/-- In a model where `c` has exactly one parent occurrence, the derived lookup
    returns the id of the containing node. -/
theorem parentD_eq_of_count_one {m : Model} {c k : String} {n : Node}
    (hc : countParents c m.byId = 1) (hm : (k, n) ∈ m.byId) (hin : c ∈ n.childIds) :
    getIdToPidLookup m c = some n.id := by
  apply lastLookup_of_count_one
  · rw [countPairs_pidPairs]; exact hc
  · exact mem_pidPairs.mpr ⟨(k, n), hm, hin, rfl⟩

/-- Whatever the lookup returns comes from some store entry. -/
theorem parentD_some_mem {m : Model} {c p : String}
    (h : getIdToPidLookup m c = some p) :
    ∃ q ∈ m.byId, c ∈ q.2.childIds ∧ q.2.id = p :=
  mem_pidPairs.mp (lastLookup_some_mem h)

theorem countParents_pos_of_child {c k : String} {n : Node} {l : List (String × Node)}
    (hm : (k, n) ∈ l) (hc : c ∈ n.childIds) : 0 < countParents c l := by
  induction l with
  | nil => simp at hm
  | cons p t ih =>
    obtain ⟨k1, n1⟩ := p
    rcases List.mem_cons.mp hm with h1 | h1
    · have hn : n = n1 := congrArg Prod.snd h1
      subst hn
      have := countOcc_pos_of_mem hc
      simp [countParents]
      omega
    · have := ih h1
      simp [countParents]
      omega

/-! ### Consequences of well-formedness -/

theorem Wf.entry {m : Model} (hw : Wf m) {k : String} (hk : k ∈ keysOf m.byId) :
    ∃ n, alookup k m.byId = some n ∧ n.id = k ∧ (k, n) ∈ m.byId := by
  rcases alookup_isSome_of_mem hk with ⟨n, hn⟩
  have hm := alookup_mem hn
  exact ⟨n, hn, hw.idConsist _ hm, hm⟩

theorem Wf.parentD_root {m : Model} (hw : Wf m) :
    getIdToPidLookup m rootNodeId = none :=
  (parentD_eq_none_iff m rootNodeId).mpr hw.rootParents

/-- In a well-formed model, a child id held by a stored node looks up to exactly
    that node's key. -/
theorem Wf.child_parentD {m : Model} (hw : Wf m) {k c : String} {n : Node}
    (hm : (k, n) ∈ m.byId) (hc : c ∈ n.childIds) :
    getIdToPidLookup m c = some k := by
  have hck : c ∈ keysOf m.byId := hw.childClosed _ hm _ hc
  have hcr : c ≠ rootNodeId := by
    rintro rfl
    have h2 := countParents_pos_of_child hm hc
    have h3 := hw.rootParents
    omega
  have h1 : countParents c m.byId = 1 := hw.parentsUnique c hck hcr
  have := parentD_eq_of_count_one h1 hm hc
  rwa [hw.idConsist _ hm] at this

theorem parentD_mem_keys {m : Model} (hw : Wf m) {c p : String}
    (h : getIdToPidLookup m c = some p) : p ∈ keysOf m.byId := by
  rcases parentD_some_mem h with ⟨q, hq, _, hid⟩
  have := hw.idConsist _ hq
  rw [this] at hid
  exact hid ▸ mem_keysOf_of_mem (show (q.1, q.2) ∈ m.byId from hq)

/-- A non-root key of a well-formed model has a parent node in the store that
    lists it among its children. -/
theorem Wf.parent_entry {m : Model} (hw : Wf m) {k : String}
    (hk : k ∈ keysOf m.byId) (hr : k ≠ rootNodeId) :
    ∃ np, getIdToPidLookup m k = some np.id ∧ (np.id, np) ∈ m.byId ∧
      alookup np.id m.byId = some np ∧ k ∈ np.childIds := by
  have h1 : countParents k m.byId = 1 := hw.parentsUnique k hk hr
  have hpos : 0 < countPairs k (pidPairsOf m.byId) := by
    rw [countPairs_pidPairs]; omega
  rcases exists_mem_of_countPairs_pos hpos with ⟨v, hv⟩
  rcases mem_pidPairs.mp hv with ⟨q, hq, hin, hid⟩
  have hkey := hw.idConsist _ hq
  have hlook := parentD_eq_of_count_one h1 hq hin
  have hmem : (q.2.id, q.2) ∈ m.byId := by
    rw [hkey]; exact hq
  exact ⟨q.2, hlook, hmem, alookup_eq_some_of_mem hmem hw.nodupKeys, hin⟩

/-! ### Depth lemmas -/

theorem depth_mono {m : Model} {f f2 : Nat} {k : String} {d : Nat}
    (hf : f ≤ f2) (h : depthOf m f k = some d) : depthOf m f2 k = some d := by
  induction f generalizing k d f2 with
  | zero => simp [depthOf] at h
  | succ f ih =>
    rcases f2 with _ | f2
    · omega
    by_cases hk : k = rootNodeId
    · simp [depthOf, hk] at h ⊢
      exact h
    · simp only [depthOf, if_neg hk] at h ⊢
      rcases hp : getIdToPidLookup m k with _ | p
      · rw [hp] at h; cases h
      · rw [hp] at h
        simp only [Option.map_eq_some'] at h
        rcases h with ⟨d1, hd1, rfl⟩
        have := @ih f2 p d1 (by omega) hd1
        simp [this]

theorem depth_unique {m : Model} {f f2 : Nat} {k : String} {d d2 : Nat}
    (h : depthOf m f k = some d) (h2 : depthOf m f2 k = some d2) : d = d2 := by
  have ha := depth_mono (Nat.le_max_left f f2) h
  have hb := depth_mono (Nat.le_max_right f f2) h2
  rw [ha] at hb
  exact (Option.some.injEq .. ▸ hb)

theorem depth_root (m : Model) (f : Nat) : depthOf m (f + 1) rootNodeId = some 0 := by
  simp [depthOf]

theorem depth_step {m : Model} {k p : String} (hk : k ≠ rootNodeId)
    (hp : getIdToPidLookup m k = some p) (f : Nat) :
    depthOf m (f + 1) k = (depthOf m f p).map (· + 1) := by
  simp [depthOf, hk, hp]

/-! ### Chain lemmas: the parent chain realizes the depth -/

theorem chain_contains_self {m : Model} {f : Nat} {k : String} {d : Nat}
    (h : depthOf m f k = some d) : k ∈ chainOf m f k := by
  rcases f with _ | f
  · simp [depthOf] at h
  by_cases hk : k = rootNodeId
  · simp [chainOf, hk]
  · simp only [depthOf, if_neg hk] at h
    rcases hp : getIdToPidLookup m k with _ | p
    · rw [hp] at h; cases h
    · simp [chainOf, hk, hp]

theorem chain_length {m : Model} {f : Nat} {k : String} {d : Nat}
    (h : depthOf m f k = some d) : (chainOf m f k).length = d + 1 := by
  induction f generalizing k d with
  | zero => simp [depthOf] at h
  | succ f ih =>
    by_cases hk : k = rootNodeId
    · simp [depthOf, hk] at h
      simp [chainOf, hk, ← h]
    · simp only [depthOf, if_neg hk] at h
      rcases hp : getIdToPidLookup m k with _ | p
      · rw [hp] at h; cases h
      · rw [hp] at h
        simp only [Option.map_eq_some'] at h
        rcases h with ⟨d1, hd1, rfl⟩
        simp [chainOf, hk, hp, ih hd1]

theorem chain_mem_depth {m : Model} {f : Nat} {k : String} {d : Nat}
    (h : depthOf m f k = some d) {x : String} (hx : x ∈ chainOf m f k) :
    ∃ dx, depthOf m f x = some dx ∧ dx ≤ d := by
  induction f generalizing k d with
  | zero => simp [depthOf] at h
  | succ f ih =>
    by_cases hk : k = rootNodeId
    · subst hk
      simp [chainOf] at hx
      subst hx
      exact ⟨d, h, le_refl d⟩
    · simp only [depthOf, if_neg hk] at h
      rcases hp : getIdToPidLookup m k with _ | p
      · rw [hp] at h; cases h
      · rw [hp] at h
        simp only [Option.map_eq_some'] at h
        rcases h with ⟨d1, hd1, rfl⟩
        simp only [chainOf, if_neg hk, hp] at hx
        rcases List.mem_cons.mp hx with h1 | h1
        · subst h1
          refine ⟨d1 + 1, ?_, le_refl _⟩
          rw [depth_step hk hp, hd1]
          rfl
        · rcases ih hd1 h1 with ⟨dx, hdx, hle⟩
          exact ⟨dx, depth_mono (Nat.le_succ f) hdx, by omega⟩

theorem chain_nodup {m : Model} {f : Nat} {k : String} {d : Nat}
    (h : depthOf m f k = some d) : (chainOf m f k).Nodup := by
  induction f generalizing k d with
  | zero => simp [depthOf] at h
  | succ f ih =>
    by_cases hk : k = rootNodeId
    · simp [chainOf, hk]
    · simp only [depthOf, if_neg hk] at h
      rcases hp : getIdToPidLookup m k with _ | p
      · rw [hp] at h; cases h
      · rw [hp] at h
        simp only [Option.map_eq_some'] at h
        rcases h with ⟨d1, hd1, rfl⟩
        simp only [chainOf, if_neg hk, hp]
        refine List.nodup_cons.mpr ⟨?_, ih hd1⟩
        intro hmem
        rcases chain_mem_depth hd1 hmem with ⟨dk, hdk, hle⟩
        have h2 : depthOf m (f + 1) k = some (d1 + 1) := by
          rw [depth_step hk hp, hd1]; rfl
        have := depth_unique (depth_mono (Nat.le_succ f) hdk) h2
        omega

theorem chain_mem_keys {m : Model} (hw : Wf m) {f : Nat} {k : String}
    (hk : k ∈ keysOf m.byId) {x : String} (hx : x ∈ chainOf m f k) :
    x ∈ keysOf m.byId := by
  induction f generalizing k with
  | zero => simp [chainOf] at hx
  | succ f ih =>
    by_cases hr : k = rootNodeId
    · subst hr
      simp [chainOf] at hx
      subst hx
      exact hw.rootMem
    · simp only [chainOf, if_neg hr] at hx
      rcases hp : getIdToPidLookup m k with _ | p
      · rw [hp] at hx; simp at hx
      · rw [hp] at hx
        rcases List.mem_cons.mp hx with h1 | h1
        · exact h1 ▸ hk
        · exact ih (parentD_mem_keys hw hp) h1

/-- In a parent chain, the depth determines the element. -/
theorem chain_mem_inj {m : Model} {f : Nat} {k : String} {d : Nat}
    (h : depthOf m f k = some d) {x y : String} {dx : Nat}
    (hx : x ∈ chainOf m f k) (hy : y ∈ chainOf m f k)
    (hdx : depthOf m f x = some dx) (hdy : depthOf m f y = some dx) : x = y := by
  induction f generalizing k d with
  | zero => simp [depthOf] at h
  | succ f ih =>
    by_cases hk : k = rootNodeId
    · simp [chainOf, hk] at hx hy
      rw [hx, hy]
    · simp only [depthOf, if_neg hk] at h
      rcases hp : getIdToPidLookup m k with _ | p
      · rw [hp] at h; cases h
      · rw [hp] at h
        simp only [Option.map_eq_some'] at h
        rcases h with ⟨d1, hd1, rfl⟩
        have hdk : depthOf m (f + 1) k = some (d1 + 1) := by
          rw [depth_step hk hp, hd1]; rfl
        simp only [chainOf, if_neg hk, hp] at hx hy
        rcases List.mem_cons.mp hx with h1 | h1 <;>
          rcases List.mem_cons.mp hy with h2 | h2
        · rw [h1, h2]
        · subst h1
          rcases chain_mem_depth hd1 h2 with ⟨dy, hdy2, hley⟩
          have e1 := depth_unique hdx hdk
          have e2 := depth_unique hdy (depth_mono (Nat.le_succ f) hdy2)
          omega
        · subst h2
          rcases chain_mem_depth hd1 h1 with ⟨dx2, hdx2, hlex⟩
          have e1 := depth_unique hdy hdk
          have e2 := depth_unique hdx (depth_mono (Nat.le_succ f) hdx2)
          omega
        · rcases chain_mem_depth hd1 h1 with ⟨dx2, hdx2, _⟩
          rcases chain_mem_depth hd1 h2 with ⟨dy2, hdy2, _⟩
          have e1 := depth_unique hdx (depth_mono (Nat.le_succ f) hdx2)
          have e2 := depth_unique hdy (depth_mono (Nat.le_succ f) hdy2)
          subst e1
          rw [← e2] at hdy2
          exact ih hd1 h1 h2 hdx2 hdy2

/-- The depth of any key is at most `byId.length - 1`: the parent chain has
    pairwise distinct elements, all of them keys. -/
theorem depth_le_size {m : Model} (hw : Wf m) {k : String}
    (hk : k ∈ keysOf m.byId) :
    ∃ d, depthOf m m.byId.length k = some d ∧ d + 1 ≤ m.byId.length := by
  have hs := hw.depthCert k hk
  rcases hd : depthOf m m.byId.length k with _ | d
  · rw [hd] at hs; cases hs
  · refine ⟨d, rfl, ?_⟩
    have hlen := chain_length hd
    have hnd := chain_nodup hd
    have hsub : chainOf m m.byId.length k ⊆ keysOf m.byId :=
      fun x hx => chain_mem_keys hw hk hx
    have := (List.subperm_of_subset hnd hsub).length_le
    rw [hlen] at this
    simpa [keysOf] using this

/-- Sharpened bound: an extra key outside the chain forces `d + 2 ≤ size`. -/
theorem depth_le_size_extra {m : Model} (hw : Wf m) {k e : String}
    (hk : k ∈ keysOf m.byId) (he : e ∈ keysOf m.byId)
    {d : Nat} (hd : depthOf m m.byId.length k = some d)
    (hne : e ∉ chainOf m m.byId.length k) : d + 2 ≤ m.byId.length := by
  have hlen := chain_length hd
  have hnd := chain_nodup hd
  have hnd2 : (chainOf m m.byId.length k ++ [e]).Nodup := by
    rw [List.nodup_append]
    refine ⟨hnd, List.nodup_singleton e, ?_⟩
    intro x hx
    simp only [List.mem_singleton]
    rintro rfl
    exact hne hx
  have hsub : chainOf m m.byId.length k ++ [e] ⊆ keysOf m.byId := by
    intro x hx
    rcases List.mem_append.mp hx with h1 | h1
    · exact chain_mem_keys hw hk h1
    · simp at h1
      exact h1 ▸ he
  have := (List.subperm_of_subset hnd2 hsub).length_le
  rw [List.length_append, hlen] at this
  simpa [keysOf] using this

theorem Wf.child_ne_root {m : Model} (hw : Wf m) {k c : String} {n : Node}
    (hm : (k, n) ∈ m.byId) (hc : c ∈ n.childIds) : c ≠ rootNodeId := by
  rintro rfl
  have h2 := countParents_pos_of_child hm hc
  have h3 := hw.rootParents
  omega

theorem depth_parent_of_depth {m : Model} {f : Nat} {c k : String} {dc : Nat}
    (hc : c ≠ rootNodeId) (hp : getIdToPidLookup m c = some k)
    (hdc : depthOf m f c = some dc) :
    ∃ dk, depthOf m f k = some dk ∧ dc = dk + 1 := by
  rcases f with _ | f
  · simp [depthOf] at hdc
  · rw [depth_step hc hp] at hdc
    simp only [Option.map_eq_some'] at hdc
    rcases hdc with ⟨dk, hdk, rfl⟩
    exact ⟨dk, depth_mono (Nat.le_succ f) hdk, rfl⟩

/-- A child sits exactly one level below its parent. -/
theorem Wf.depth_child {m : Model} (hw : Wf m) {k c : String} {n : Node}
    (hm : (k, n) ∈ m.byId) (hc : c ∈ n.childIds) {d : Nat}
    (hd : depthOf m m.byId.length k = some d) :
    depthOf m m.byId.length c = some (d + 1) := by
  have hck : c ∈ keysOf m.byId := hw.childClosed _ hm _ hc
  have hcr : c ≠ rootNodeId := hw.child_ne_root hm hc
  have hpc : getIdToPidLookup m c = some k := hw.child_parentD hm hc
  rcases depth_le_size hw hck with ⟨dc, hdc, _⟩
  rcases depth_parent_of_depth hcr hpc hdc with ⟨dk, hdk, rfl⟩
  have := depth_unique hdk hd
  subst this
  exact hdc

/-- The model is never empty (the root is a key). -/
theorem Wf.size_pos {m : Model} (hw : Wf m) : 0 < m.byId.length := by
  have h : 0 < (keysOf m.byId).length := List.length_pos_of_mem hw.rootMem
  simpa [keysOf] using h

/-! ### Fuel sufficiency for the two recursive traversal helpers -/

/-- `getLastDescendentIdOrSelf` reaches a childless node before the fuel runs out,
    on every well-formed model: each descent step increases the depth, and depths
    are bounded by the store size. -/
theorem lastDesc_total {m : Model} (hw : Wf m) {j : Nat} {k : String}
    (hk : k ∈ keysOf m.byId) {d : Nat} (hd : depthOf m m.byId.length k = some d)
    (hj : m.byId.length - d ≤ j) :
    ∃ r nr, getLastDescendentIdOrSelf j k m = some r ∧ (r, nr) ∈ m.byId ∧
      alookup r m.byId = some nr ∧ nr.childIds = [] := by
  induction j generalizing k d with
  | zero =>
    rcases depth_le_size hw hk with ⟨d2, hd2, hle⟩
    have := depth_unique hd hd2
    omega
  | succ j ih =>
    rcases hw.entry hk with ⟨n, hlook, hid, hmem⟩
    rcases hc : lastElem n.childIds with _ | c
    · refine ⟨k, n, ?_, hmem, hlook, (lastElem_eq_none_iff _).mp hc⟩
      simp [getLastDescendentIdOrSelf, getNodeById, hlook, hc]
    · have hcm := lastElem_mem hc
      have hck : c ∈ keysOf m.byId := hw.childClosed _ hmem _ hcm
      have hdc : depthOf m m.byId.length c = some (d + 1) := hw.depth_child hmem hcm hd
      have hj2 : m.byId.length - (d + 1) ≤ j := by
        rcases depth_le_size hw hck with ⟨d2, hd2, hle⟩
        have := depth_unique hdc hd2
        omega
      rcases ih hck hdc hj2 with ⟨r, nr, hr, hmr, hlr, hcr⟩
      refine ⟨r, nr, ?_, hmr, hlr, hcr⟩
      simp [getLastDescendentIdOrSelf, getNodeById, hlook, hc, hr]

/-- `maybeNextSibIdOf` never throws on a stored node of a well-formed model, and
    any id it yields is a key. -/
theorem nextSib_ok {m : Model} (hw : Wf m) {n : Node} (hm : (n.id, n) ∈ m.byId) :
    ∃ mb, maybeNextSibIdOf n m = some mb ∧ ∀ i, mb = some i → i ∈ keysOf m.byId := by
  by_cases hroot : isRootNode n
  · exact ⟨none, by simp [maybeNextSibIdOf, hroot], by intro i h; cases h⟩
  · have hnk : n.id ∈ keysOf m.byId := mem_keysOf_of_mem hm
    have hnr : n.id ≠ rootNodeId := by
      simpa [isRootNode] using hroot
    rcases hw.parent_entry hnk hnr with ⟨np, hp, hpmem, hplook, hpin⟩
    rcases findIdxOf_isSome_of_mem hpin with ⟨idx, hidx⟩
    by_cases hlt : idx + 1 < np.childIds.length
    · refine ⟨nthId np.childIds (idx + 1),
        by simp [maybeNextSibIdOf, hroot, getParentOf, getParentOfId, hp,
          getNodeById, hplook, maybeNextChildId, hidx, hlt], ?_⟩
      intro i hi
      exact hw.childClosed _ hpmem _ (nthId_mem hi)
    · exact ⟨none,
        by simp [maybeNextSibIdOf, hroot, getParentOf, getParentOfId, hp,
          getNodeById, hplook, maybeNextChildId, hidx, hlt],
        by intro i h; cases h⟩

/-- `maybePrevSibIdOf` never throws on a stored node of a well-formed model, and
    any id it yields is a key. -/
theorem prevSib_ok {m : Model} (hw : Wf m) {n : Node} (hm : (n.id, n) ∈ m.byId) :
    ∃ mb, maybePrevSibIdOf n m = some mb ∧ ∀ i, mb = some i → i ∈ keysOf m.byId := by
  by_cases hroot : isRootNode n
  · exact ⟨none, by simp [maybePrevSibIdOf, hroot], by intro i h; cases h⟩
  · have hnk : n.id ∈ keysOf m.byId := mem_keysOf_of_mem hm
    have hnr : n.id ≠ rootNodeId := by
      simpa [isRootNode] using hroot
    rcases hw.parent_entry hnk hnr with ⟨np, hp, hpmem, hplook, hpin⟩
    rcases findIdxOf_isSome_of_mem hpin with ⟨idx, hidx⟩
    by_cases hlt : 0 < idx
    · refine ⟨nthId np.childIds (idx - 1),
        by simp [maybePrevSibIdOf, hroot, getParentOf, getParentOfId, hp,
          getNodeById, hplook, maybePrevChildId, hidx, hlt], ?_⟩
      intro i hi
      exact hw.childClosed _ hpmem _ (nthId_mem hi)
    · exact ⟨none,
        by simp [maybePrevSibIdOf, hroot, getParentOf, getParentOfId, hp,
          getNodeById, hplook, maybePrevChildId, hidx, hlt],
        by intro i h; cases h⟩

/-- `maybeNextSibOfFirstAncestor` returns (it never throws and never exhausts its
    fuel) on every well-formed model, whenever the fuel exceeds the node's depth;
    any id it yields is a key. -/
theorem nsofa_total {m : Model} (hw : Wf m) {j : Nat} {n : Node}
    (hn : n.id ∈ keysOf m.byId) {d : Nat}
    (hd : depthOf m m.byId.length n.id = some d) (hj : d < j) :
    ∃ r, maybeNextSibOfFirstAncestor j n m = some r ∧
      ∀ i, r = some i → i ∈ keysOf m.byId := by
  induction j generalizing n d with
  | zero => omega
  | succ j ih =>
    rcases hp : getIdToPidLookup m n.id with _ | pid
    · exact ⟨none, by simp [maybeNextSibOfFirstAncestor, maybeParentIdOf, hp],
        by intro i h; cases h⟩
    · have hpk : pid ∈ keysOf m.byId := parentD_mem_keys hw hp
      rcases hw.entry hpk with ⟨np, hplook, hpid, hpmem⟩
      have hnr : n.id ≠ rootNodeId := by
        intro hr
        rw [hr, hw.parentD_root] at hp
        cases hp
      rcases depth_parent_of_depth hnr hp hd with ⟨dp, hdp, rfl⟩
      have hdpn : depthOf m m.byId.length np.id = some dp := by
        rw [hpid]; exact hdp
      have hnpk : np.id ∈ keysOf m.byId := by
        rw [hpid]; exact hpk
      have hpmem2 : (np.id, np) ∈ m.byId := by
        rw [hpid]; exact hpmem
      rcases nextSib_ok hw hpmem2 with ⟨mb, hmb, hmbk⟩
      rcases mb with _ | i
      · rcases ih hnpk hdpn (by omega) with ⟨r, hr, hrk⟩
        exact ⟨r, by simp [maybeNextSibOfFirstAncestor, maybeParentIdOf, hp,
          getNodeById, hplook, hmb, hr], hrk⟩
      · exact ⟨some i, by simp [maybeNextSibOfFirstAncestor, maybeParentIdOf, hp,
          getNodeById, hplook, hmb], by
            intro i2 h2
            cases h2
            exact hmbk i rfl⟩

/-! ### Counting and structure lemmas for store updates -/

theorem length_aupdate_of_mem {k : String} (v : Node) {l : List (String × Node)}
    (h : k ∈ keysOf l) : (aupdate k v l).length = l.length := by
  have := keysOf_aupdate_of_mem v h
  have h1 : (keysOf (aupdate k v l)).length = (keysOf l).length := by rw [this]
  simpa [keysOf] using h1

theorem length_aupdate_of_not_mem {k : String} (v : Node) {l : List (String × Node)}
    (h : k ∉ keysOf l) : (aupdate k v l).length = l.length + 1 := by
  have := keysOf_aupdate_of_not_mem v h
  have h1 : (keysOf (aupdate k v l)).length = (keysOf l ++ [k]).length := by rw [this]
  simp [keysOf] at h1
  simpa [keysOf] using h1

theorem countParents_aupdate {c k : String} {v old : Node} {l : List (String × Node)}
    (hlook : alookup k l = some old) :
    countParents c (aupdate k v l) + countOcc c old.childIds
      = countParents c l + countOcc c v.childIds := by
  induction l with
  | nil => simp [alookup] at hlook
  | cons p t ih =>
    obtain ⟨k1, n1⟩ := p
    by_cases hk : k1 = k
    · rw [alookup, if_pos hk] at hlook
      have : n1 = old := Option.some.inj hlook
      subst this
      simp [aupdate, hk, countParents]
      omega
    · rw [alookup, if_neg hk] at hlook
      simp [aupdate, hk, countParents]
      have := ih hlook
      omega

theorem countOcc_le_countParents {c k : String} {n : Node} {l : List (String × Node)}
    (hm : (k, n) ∈ l) : countOcc c n.childIds ≤ countParents c l := by
  induction l with
  | nil => simp at hm
  | cons p t ih =>
    obtain ⟨k1, n1⟩ := p
    rcases List.mem_cons.mp hm with h1 | h1
    · have he : n = n1 := congrArg Prod.snd h1
      subst he
      show countOcc c n.childIds ≤ countOcc c n.childIds + countParents c t
      omega
    · have := ih h1
      show countOcc c n.childIds ≤ countOcc c n1.childIds + countParents c t
      omega

theorem countParents_eq_zero_of_fresh {m : Model} (hw : Wf m) {e : String}
    (he : e ∉ keysOf m.byId) : countParents e m.byId = 0 := by
  by_contra hc
  have hpos : 0 < countPairs e (pidPairsOf m.byId) := by
    rw [countPairs_pidPairs]; omega
  rcases exists_mem_of_countPairs_pos hpos with ⟨v, hv⟩
  rcases mem_pidPairs.mp hv with ⟨q, hq, hin, _⟩
  exact he (hw.childClosed _ hq _ hin)

theorem pidPairs_aupdate_same {k : String} {v old : Node} {l : List (String × Node)}
    (hlook : alookup k l = some old) (hid : v.id = old.id)
    (hch : v.childIds = old.childIds) :
    pidPairsOf (aupdate k v l) = pidPairsOf l := by
  induction l with
  | nil => simp [alookup] at hlook
  | cons p t ih =>
    obtain ⟨k1, n1⟩ := p
    by_cases hk : k1 = k
    · rw [alookup, if_pos hk] at hlook
      have : n1 = old := Option.some.inj hlook
      subst this
      simp only [aupdate, if_pos hk, pidPairsOf]
      have : childPairs v = childPairs n1 := by
        unfold childPairs
        rw [hch, hid]
      rw [this]
    · rw [alookup, if_neg hk] at hlook
      simp only [aupdate, if_neg hk, pidPairsOf]
      rw [ih hlook]

/-! ### More depth lemmas: fuel-stability of chains, depth-zero, reattachment -/

theorem depth_zero_root {m : Model} {f : Nat} {k : String}
    (h : depthOf m f k = some 0) : k = rootNodeId := by
  rcases f with _ | f
  · simp [depthOf] at h
  · by_cases hk : k = rootNodeId
    · exact hk
    · simp only [depthOf, if_neg hk] at h
      rcases hp : getIdToPidLookup m k with _ | p
      · rw [hp] at h; cases h
      · rw [hp] at h
        simp only [Option.map_eq_some'] at h
        rcases h with ⟨d1, _, h1⟩
        omega

theorem chain_cons {m : Model} {k p : String} (hk : k ≠ rootNodeId)
    (hp : getIdToPidLookup m k = some p) (f : Nat) :
    chainOf m (f + 1) k = k :: chainOf m f p := by
  simp [chainOf, hk, hp]

theorem chain_fuel_stable {m : Model} {f : Nat} {k : String} {d : Nat}
    (h : depthOf m f k = some d) : chainOf m (f + 1) k = chainOf m f k := by
  induction f generalizing k d with
  | zero => simp [depthOf] at h
  | succ f ih =>
    by_cases hk : k = rootNodeId
    · simp [chainOf, hk]
    · simp only [depthOf, if_neg hk] at h
      rcases hp : getIdToPidLookup m k with _ | p
      · rw [hp] at h; cases h
      · rw [hp] at h
        simp only [Option.map_eq_some'] at h
        rcases h with ⟨d1, hd1, rfl⟩
        rw [chain_cons hk hp (f + 1), chain_cons hk hp f, ih hd1]

/-- If the parent relation is unchanged outside `X` and `k`'s chain avoids `X`,
    the depth of `k` is unchanged. -/
theorem depth_reattach_out {m m2 : Model} {X : String}
    (hpar : ∀ c, c ≠ X → getIdToPidLookup m2 c = getIdToPidLookup m c) :
    ∀ f k d, depthOf m f k = some d → X ∉ chainOf m f k → depthOf m2 f k = some d := by
  intro f
  induction f with
  | zero => intro k d h _; simp [depthOf] at h
  | succ f ih =>
    intro k d h hX
    by_cases hk : k = rootNodeId
    · simp [depthOf, hk] at h ⊢
      exact h
    · simp only [depthOf, if_neg hk] at h
      rcases hp : getIdToPidLookup m k with _ | p
      · rw [hp] at h; cases h
      · rw [hp] at h
        simp only [Option.map_eq_some'] at h
        rcases h with ⟨d1, hd1, rfl⟩
        rw [chain_cons hk hp f] at hX
        simp only [List.mem_cons] at hX
        push_neg at hX
        obtain ⟨hXk, hXc⟩ := hX
        have hpar2 : getIdToPidLookup m2 k = some p := by
          rw [hpar k hXk.symm, hp]
        rw [depth_step hk hpar2, ih p d1 hd1 hXc]
        rfl

/-- Reattachment: `X` now hangs below `T` (new depth `dT2`); every node whose old
    chain passes through `X` gets the new depth `d - dX + dT2 + 1`. -/
theorem depth_reattach_in {m m2 : Model} {X T : String} {dX dT2 fT : Nat}
    (hXroot : X ≠ rootNodeId)
    (hpar : ∀ c, c ≠ X → getIdToPidLookup m2 c = getIdToPidLookup m c)
    (hX : getIdToPidLookup m2 X = some T)
    (hdX : depthOf m m.byId.length X = some dX)
    (hT2 : depthOf m2 fT T = some dT2) :
    ∀ d k, depthOf m m.byId.length k = some d → X ∈ chainOf m m.byId.length k →
      ∃ f2, depthOf m2 f2 k = some (d - dX + dT2 + 1) := by
  intro d
  induction d with
  | zero =>
    intro k h hXc
    have hk : k = rootNodeId := depth_zero_root h
    subst hk
    rcases hq : m.byId.length with _ | q
    · rw [hq] at h; simp [depthOf] at h
    · rw [hq] at hXc
      simp [chainOf] at hXc
      exact absurd hXc hXroot
  | succ d ih =>
    intro k h hXc
    by_cases hkX : k = X
    · subst hkX
      have : d + 1 = dX := depth_unique h hdX
      refine ⟨fT + 1, ?_⟩
      rw [depth_step hXroot hX, hT2]
      simp
      omega
    · by_cases hk : k = rootNodeId
      · subst hk
        rcases hq : m.byId.length with _ | q
        · rw [hq] at h; simp [depthOf] at h
        · rw [hq] at hXc
          simp [chainOf] at hXc
          exact absurd hXc hXroot
      · rcases hq : m.byId.length with _ | q
        · rw [hq] at h; simp [depthOf] at h
        · rw [hq] at h
          simp only [depthOf, if_neg hk] at h
          rcases hp : getIdToPidLookup m k with _ | p
          · rw [hp] at h; cases h
          · rw [hp] at h
            simp only [Option.map_eq_some'] at h
            rcases h with ⟨d1, hd1, hd1e⟩
            have hdd : d1 = d := by omega
            rw [hdd] at hd1
            have hdp : depthOf m m.byId.length p = some d := by
              rw [hq]; exact depth_mono (Nat.le_succ q) hd1
            rw [hq, chain_cons hk hp q] at hXc
            rcases List.mem_cons.mp hXc with h1 | h1
            · exact absurd h1.symm hkX
            · have hXp : X ∈ chainOf m m.byId.length p := by
                rw [hq, chain_fuel_stable hd1]
                exact h1
              have hle : dX ≤ d := by
                rcases chain_mem_depth hdp hXp with ⟨dx2, hdx2, hlex⟩
                have := depth_unique hdx2 hdX
                omega
              rcases ih p hdp hXp with ⟨f2, hf2⟩
              refine ⟨f2 + 1, ?_⟩
              have hpark : getIdToPidLookup m2 k = some p := by
                rw [hpar k hkX, hp]
              rw [depth_step hk hpark, hf2]
              simp
              omega

/-! ### Congruence: equal parent relations give equal depths -/

theorem depth_congr_all {m m2 : Model}
    (hp : ∀ c, getIdToPidLookup m2 c = getIdToPidLookup m c) :
    ∀ f k, depthOf m2 f k = depthOf m f k := by
  intro f
  induction f with
  | zero => intro k; rfl
  | succ f ih =>
    intro k
    by_cases hk : k = rootNodeId
    · simp [depthOf, hk]
    · simp only [depthOf, if_neg hk, hp k]
      rcases getIdToPidLookup m k with _ | p
      · rfl
      · show Option.map (· + 1) (depthOf m2 f p) = Option.map (· + 1) (depthOf m f p)
        rw [ih p]

theorem parentD_byId_congr {m m2 : Model} (h : m2.byId = m.byId) (c : String) :
    getIdToPidLookup m2 c = getIdToPidLookup m c := by
  unfold getIdToPidLookup
  rw [h]

/-- A model that shares the store of a well-formed model and has its cursor on a
    key is well-formed. -/
theorem wf_of_same_byId {m m2 : Model} (hw : Wf m) (hb : m2.byId = m.byId)
    (hc : m2.currentId ∈ keysOf m.byId) : Wf m2 := by
  have hdep : ∀ f k, depthOf m2 f k = depthOf m f k :=
    depth_congr_all (parentD_byId_congr hb)
  refine ⟨?_, ?_, ?_, ?_, ?_, ?_, ?_, ?_⟩
  · rw [hb]; exact hw.nodupKeys
  · rw [hb]; exact hw.rootMem
  · rw [hb]; exact hc
  · rw [hb]; exact hw.idConsist
  · rw [hb]; exact hw.childClosed
  · rw [hb]; exact hw.rootParents
  · rw [hb]; exact hw.parentsUnique
  · rw [hb]
    intro k hk
    rw [hdep]
    exact hw.depthCert k hk

/-! ### The navigation commands preserve the store and land on keys -/

theorem attemptNext_ok {m : Model} (hw : Wf m) :
    ∃ m2, attemptNext m.byId.length m = some m2 ∧ m2.byId = m.byId ∧
      m2.currentId ∈ keysOf m.byId := by
  rcases hw.entry hw.currentMem with ⟨n, hlook, hid, hmem⟩
  have hmem2 : (n.id, n) ∈ m.byId := by rw [hid]; exact hmem
  have hcand : ∃ r, nextCandidate m.byId.length n m = some r ∧
      ∀ i, r = some i → i ∈ keysOf m.byId := by
    rcases hh : n.childIds.head? with _ | c
    · rcases nextSib_ok hw hmem2 with ⟨mb, hmb, hmbk⟩
      rcases mb with _ | i
      · have hnk : n.id ∈ keysOf m.byId := mem_keysOf_of_mem hmem2
        rcases depth_le_size hw hnk with ⟨d, hd, hdle⟩
        rcases @nsofa_total m hw m.byId.length n hnk d hd (by omega) with ⟨r, hr, hrk⟩
        exact ⟨r, by simp [nextCandidate, maybeFirstChildIdOf, hh, hmb, hr], hrk⟩
      · exact ⟨some i, by simp [nextCandidate, maybeFirstChildIdOf, hh, hmb], by
          intro i2 h2
          cases h2
          exact hmbk i rfl⟩
    · refine ⟨some c, by simp [nextCandidate, maybeFirstChildIdOf, hh], ?_⟩
      intro i hi
      cases hi
      exact hw.childClosed _ hmem2 _ (List.mem_of_mem_head? (hh ▸ rfl))
  rcases hcand with ⟨r, hr, hrk⟩
  rcases r with _ | i
  · exact ⟨m, by simp [attemptNext, getCurrentNode, getNodeById, hlook, hr],
      rfl, hw.currentMem⟩
  · exact ⟨{ m with currentId := i },
      by simp [attemptNext, getCurrentNode, getNodeById, hlook, hr],
      rfl, hrk i rfl⟩

theorem attemptPrev_ok {m : Model} (hw : Wf m) :
    ∃ m2, attemptPrev m.byId.length m = some m2 ∧ m2.byId = m.byId ∧
      m2.currentId ∈ keysOf m.byId := by
  rcases hw.entry hw.currentMem with ⟨n, hlook, hid, hmem⟩
  have hmem2 : (n.id, n) ∈ m.byId := by rw [hid]; exact hmem
  by_cases hroot : isRootNode n
  · exact ⟨m, by simp [attemptPrev, getCurrentNode, getNodeById, hlook, hroot],
      rfl, hw.currentMem⟩
  · rcases prevSib_ok hw hmem2 with ⟨mb, hmb, hmbk⟩
    rcases mb with _ | prevId
    · rcases hp : getIdToPidLookup m n.id with _ | pid
      · exact ⟨m, by simp [attemptPrev, getCurrentNode, getNodeById, hlook, hroot,
          hmb, maybeParentIdOf, hp], rfl, hw.currentMem⟩
      · exact ⟨{ m with currentId := pid },
          by simp [attemptPrev, getCurrentNode, getNodeById, hlook, hroot,
            hmb, maybeParentIdOf, hp],
          rfl, parentD_mem_keys hw hp⟩
    · have hpk : prevId ∈ keysOf m.byId := hmbk prevId rfl
      rcases depth_le_size hw hpk with ⟨d, hd, hdle⟩
      rcases @lastDesc_total m hw m.byId.length prevId hpk d hd (by omega)
        with ⟨r, nr, hrd, hrm, hrl, hrc⟩
      exact ⟨{ m with currentId := r },
        by simp [attemptPrev, getCurrentNode, getNodeById, hlook, hroot, hmb, hrd],
        rfl, mem_keysOf_of_mem hrm⟩

/-! ### Same-structure node rewrites preserve well-formedness -/

theorem countParents_congr_pidPairs {m m2 : Model}
    (h : pidPairsOf m2.byId = pidPairsOf m.byId) (c : String) :
    countParents c m2.byId = countParents c m.byId := by
  rw [← countPairs_pidPairs, ← countPairs_pidPairs, h]

theorem wf_setNode_same {m : Model} (hw : Wf m) {old v : Node}
    (hlook : alookup v.id m.byId = some old) (hid : v.id = old.id)
    (hch : v.childIds = old.childIds) : Wf (setNode m v) := by
  have hmemk : v.id ∈ keysOf m.byId := by
    by_contra hc
    rw [← alookup_eq_none_iff] at hc
    rw [hc] at hlook
    cases hlook
  have hkeys : keysOf (setNode m v).byId = keysOf m.byId := keysOf_aupdate_of_mem v hmemk
  have hpair : pidPairsOf (setNode m v).byId = pidPairsOf m.byId :=
    pidPairs_aupdate_same hlook hid hch
  have hpard : ∀ c, getIdToPidLookup (setNode m v) c = getIdToPidLookup m c := by
    intro c
    unfold getIdToPidLookup
    rw [hpair]
  have hcnt : ∀ c, countParents c (setNode m v).byId = countParents c m.byId :=
    countParents_congr_pidPairs hpair
  have hlen : (setNode m v).byId.length = m.byId.length :=
    length_aupdate_of_mem v hmemk
  have hold : (v.id, old) ∈ m.byId := alookup_mem hlook
  refine ⟨?_, ?_, ?_, ?_, ?_, ?_, ?_, ?_⟩
  · rw [hkeys]; exact hw.nodupKeys
  · rw [hkeys]; exact hw.rootMem
  · rw [hkeys]; exact hw.currentMem
  · intro p hp
    rcases mem_aupdate hp with h1 | h1
    · rw [h1]
    · exact hw.idConsist _ h1
  · intro p hp c hc
    rw [hkeys]
    rcases mem_aupdate hp with h1 | h1
    · rw [h1] at hc
      simp only at hc
      rw [hch] at hc
      exact hw.childClosed _ hold _ hc
    · exact hw.childClosed _ h1 _ hc
  · rw [hcnt]; exact hw.rootParents
  · intro k hk
    rw [hkeys] at hk
    rw [hcnt]
    exact hw.parentsUnique k hk
  · intro k hk
    rw [hkeys] at hk
    rw [hlen, depth_congr_all hpard]
    exact hw.depthCert k hk

/-! ### expand / collapse preserve well-formedness -/

theorem expand_ok {m : Model} (hw : Wf m) :
    ∃ m2, expand m = some m2 ∧ Wf m2 ∧ m2.byId.length = m.byId.length ∧
      keysOf m2.byId = keysOf m.byId ∧ m2.currentId = m.currentId := by
  rcases hw.entry hw.currentMem with ⟨n, hlook, hid, hmem⟩
  by_cases hce : canExpand n
  · have hlook2 : alookup ({ n with collapsed := false } : Node).id m.byId = some n := by
      show alookup n.id m.byId = some n
      rw [hid]; exact hlook
    have hnk : ({ n with collapsed := false } : Node).id ∈ keysOf m.byId := by
      show n.id ∈ keysOf m.byId
      rw [hid]; exact hw.currentMem
    refine ⟨setNode m { n with collapsed := false },
      by simp [expand, getCurrentNode, getNodeById, hlook, hce], ?_, ?_, ?_, rfl⟩
    · exact wf_setNode_same hw hlook2 rfl rfl
    · exact length_aupdate_of_mem _ hnk
    · exact keysOf_aupdate_of_mem _ hnk
  · exact ⟨m, by simp [expand, getCurrentNode, getNodeById, hlook, hce], hw,
      rfl, rfl, rfl⟩

theorem collapse_ok {m : Model} (hw : Wf m) :
    ∃ m2, collapse m = some m2 ∧ Wf m2 ∧ m2.byId.length = m.byId.length ∧
      keysOf m2.byId = keysOf m.byId ∧ m2.currentId = m.currentId := by
  rcases hw.entry hw.currentMem with ⟨n, hlook, hid, hmem⟩
  by_cases hce : canCollapse n
  · have hlook2 : alookup ({ n with collapsed := true } : Node).id m.byId = some n := by
      show alookup n.id m.byId = some n
      rw [hid]; exact hlook
    have hnk : ({ n with collapsed := true } : Node).id ∈ keysOf m.byId := by
      show n.id ∈ keysOf m.byId
      rw [hid]; exact hw.currentMem
    refine ⟨setNode m { n with collapsed := true },
      by simp [collapse, getCurrentNode, getNodeById, hlook, hce], ?_, ?_, ?_, rfl⟩
    · exact wf_setNode_same hw hlook2 rfl rfl
    · exact length_aupdate_of_mem _ hnk
    · exact keysOf_aupdate_of_mem _ hnk
  · exact ⟨m, by simp [collapse, getCurrentNode, getNodeById, hlook, hce], hw,
      rfl, rfl, rfl⟩

/-! ### Insertion of a fresh node preserves well-formedness -/

theorem countParents_aupdate_fresh {c k : String} {v : Node} {l : List (String × Node)}
    (h : k ∉ keysOf l) :
    countParents c (aupdate k v l) = countParents c l + countOcc c v.childIds := by
  induction l with
  | nil => simp [aupdate, countParents]
  | cons p t ih =>
    obtain ⟨k1, n1⟩ := p
    rw [keysOf_cons1] at h
    have hk : k1 ≠ k := fun hh => h (hh ▸ List.mem_cons_self k1 (keysOf t))
    have ht : k ∉ keysOf t := fun hh => h (List.mem_cons_of_mem _ hh)
    simp [aupdate, hk, countParents, ih ht]
    omega

theorem depth_congr_on {m m2 : Model} (P : String → Prop)
    (hP : ∀ c, P c → getIdToPidLookup m2 c = getIdToPidLookup m c)
    (hclosed : ∀ c p, P c → getIdToPidLookup m c = some p → P p) :
    ∀ f k, P k → depthOf m2 f k = depthOf m f k := by
  intro f
  induction f with
  | zero => intro k _; rfl
  | succ f ih =>
    intro k hk
    by_cases hr : k = rootNodeId
    · simp [depthOf, hr]
    · simp only [depthOf, if_neg hr, hP k hk]
      rcases hp : getIdToPidLookup m k with _ | p
      · rfl
      · show Option.map (· + 1) (depthOf m2 f p) = Option.map (· + 1) (depthOf m f p)
        rw [ih p (hclosed k p hk hp)]

/-- Registering a fresh node `newId` and inserting its id once into the childIds
    of the stored node at key `k` preserves well-formedness; the new cursor is the
    new node. -/
theorem wf_insert {m : Model} (hw : Wf m) {k : String} {old v : Node}
    (hlook : alookup k m.byId = some old) (hkid : v.id = k)
    {newId newTitle : String}
    (hfresh : newId ∉ keysOf m.byId)
    (hcnt1 : countOcc newId v.childIds = 1)
    (hcnt2 : ∀ c, c ≠ newId → countOcc c v.childIds = countOcc c old.childIds) :
    Wf { byId := aupdate newId (createNewNode newId newTitle) (aupdate k v m.byId),
         currentId := newId } := by
  have hkmem : k ∈ keysOf m.byId := by
    by_contra hc
    rw [← alookup_eq_none_iff] at hc
    rw [hc] at hlook
    cases hlook
  have hold : (k, old) ∈ m.byId := alookup_mem hlook
  have hrootk : rootNodeId ≠ newId := fun hh => hfresh (hh ▸ hw.rootMem)
  set newNode := createNewNode newId newTitle with hnewdef
  set B1 := aupdate k v m.byId with hB1
  set m2 : Model :=
    { byId := aupdate newId newNode B1, currentId := newId } with hm2
  have hkeys1 : keysOf B1 = keysOf m.byId := keysOf_aupdate_of_mem v hkmem
  have hfresh1 : newId ∉ keysOf B1 := by rw [hkeys1]; exact hfresh
  have hkeys2 : keysOf m2.byId = keysOf m.byId ++ [newId] := by
    show keysOf (aupdate newId newNode B1) = _
    rw [keysOf_aupdate_of_not_mem _ hfresh1, hkeys1]
  have hlen2 : m2.byId.length = m.byId.length + 1 := by
    show (aupdate newId newNode B1).length = _
    rw [length_aupdate_of_not_mem _ hfresh1]
    have : B1.length = m.byId.length := length_aupdate_of_mem v hkmem
    rw [this]
  -- membership of entries of m2.byId
  have hmem2 : ∀ p, p ∈ m2.byId → p = (newId, newNode) ∨ p = (k, v) ∨ p ∈ m.byId := by
    intro p hp
    rcases mem_aupdate hp with h1 | h1
    · exact Or.inl h1
    · rcases mem_aupdate h1 with h2 | h2
      · exact Or.inr (Or.inl h2)
      · exact Or.inr (Or.inr h2)
  -- the old childIds do not mention the fresh id
  have hoc : ∀ p, p ∈ m.byId → countOcc newId p.2.childIds = 0 := by
    intro p hp
    rw [countOcc_eq_zero_iff]
    intro hcmem
    exact hfresh (hw.childClosed _ hp _ hcmem)
  -- parent counts in m2
  have hcnt : ∀ c, countParents c m2.byId
      = countParents c m.byId + countOcc c v.childIds - countOcc c old.childIds := by
    intro c
    have h1 : countParents c B1 + countOcc c old.childIds
        = countParents c m.byId + countOcc c v.childIds := countParents_aupdate hlook
    have h2 : countParents c m2.byId = countParents c B1 + countOcc c newNode.childIds := by
      show countParents c (aupdate newId newNode B1) = _
      exact countParents_aupdate_fresh hfresh1
    have h3 : countOcc c newNode.childIds = 0 := rfl
    omega
  have hcnt_old : ∀ c, c ≠ newId → countParents c m2.byId = countParents c m.byId := by
    intro c hc
    rw [hcnt c, hcnt2 c hc]
    omega
  have hcnt_new : countParents newId m2.byId = 1 := by
    rw [hcnt newId, hcnt1]
    have h0 : countOcc newId old.childIds = 0 := hoc (k, old) hold
    have h1 : countParents newId m.byId = 0 := countParents_eq_zero_of_fresh hw hfresh
    omega
  -- the parent lookup is unchanged on the old keys
  have hpar_old : ∀ c, c ∈ keysOf m.byId → getIdToPidLookup m2 c = getIdToPidLookup m c := by
    intro c hc
    have hcnew : c ≠ newId := fun hh => hfresh (hh ▸ hc)
    by_cases hcr : c = rootNodeId
    · subst hcr
      rw [(parentD_eq_none_iff m2 _).mpr, (parentD_eq_none_iff m _).mpr hw.rootParents]
      rw [hcnt_old _ hcnew]
      exact hw.rootParents
    · rcases hw.parent_entry hc hcr with ⟨np, hnp, hnpmem, hnplook, hnpin⟩
      have hc2 : countParents c m2.byId = 1 := by
        rw [hcnt_old _ hcnew]
        exact hw.parentsUnique c hc hcr
      by_cases hpk : np.id = k
      · have hnpold : np = old := by
          have := alookup_eq_some_of_mem hnpmem hw.nodupKeys
          rw [hpk] at this
          rw [this] at hlook
          exact Option.some.inj hlook
        have hcv : c ∈ v.childIds := by
          apply mem_of_countOcc_pos
          rw [hcnt2 c hcnew]
          apply countOcc_pos_of_mem
          rw [← hnpold]
          exact hnpin
        have hkv2 : (k, v) ∈ m2.byId := by
          apply mem_aupdate_of_ne
          · exact mem_aupdate_self m.byId
          · exact fun hh => hfresh (hh ▸ hkmem)
        have := parentD_eq_of_count_one hc2 hkv2 hcv
        rw [this, hnp, hpk, hkid]
      · have hnp2 : (np.id, np) ∈ m2.byId := by
          apply mem_aupdate_of_ne
          · apply mem_aupdate_of_ne hnpmem
            exact hpk
          · exact fun hh => hfresh (hh ▸ mem_keysOf_of_mem hnpmem)
        have := parentD_eq_of_count_one hc2 hnp2 hnpin
        rw [this, hnp]
  -- the fresh node's parent is the rewritten node
  have hpar_new : getIdToPidLookup m2 newId = some k := by
    have hkv2 : (k, v) ∈ m2.byId := by
      apply mem_aupdate_of_ne
      · exact mem_aupdate_self m.byId
      · exact fun hh => hfresh (hh ▸ hkmem)
    have hcv : newId ∈ v.childIds := mem_of_countOcc_pos (by omega)
    have := parentD_eq_of_count_one hcnt_new hkv2 hcv
    rw [this, hkid]
  -- depths agree on the old keys
  have hdep_old : ∀ f c, c ∈ keysOf m.byId → depthOf m2 f c = depthOf m f c := by
    intro f c hc
    exact depth_congr_on (· ∈ keysOf m.byId) hpar_old
      (fun c2 p h1 h2 => parentD_mem_keys hw h2) f c hc
  constructor
  · rw [hkeys2]
    rw [List.nodup_append]
    exact ⟨hw.nodupKeys, List.nodup_singleton _, by
      intro x hx
      simp only [List.mem_singleton]
      rintro rfl
      exact hfresh hx⟩
  · rw [hkeys2]
    exact List.mem_append_left _ hw.rootMem
  · rw [hkeys2]
    exact List.mem_append_right _ (List.mem_singleton_self newId)
  · intro p hp
    rcases hmem2 p hp with h1 | h1 | h1
    · rw [h1]
      simp [hnewdef, createNewNode]
    · rw [h1]; exact hkid
    · exact hw.idConsist _ h1
  · intro p hp c hc
    rw [hkeys2]
    rcases hmem2 p hp with h1 | h1 | h1
    · rw [h1] at hc
      simp [hnewdef, createNewNode] at hc
    · rw [h1] at hc
      simp only at hc
      by_cases hcn : c = newId
      · exact List.mem_append_right _ (by simp [hcn])
      · apply List.mem_append_left
        apply hw.childClosed _ hold
        apply mem_of_countOcc_pos
        rw [← hcnt2 c hcn]
        exact countOcc_pos_of_mem hc
    · exact List.mem_append_left _ (hw.childClosed _ h1 _ hc)
  · rw [hcnt_old rootNodeId hrootk]
    exact hw.rootParents
  · intro c hc hcr
    rw [hkeys2] at hc
    rcases List.mem_append.mp hc with h1 | h1
    · rw [hcnt_old c (fun hh => hfresh (hh ▸ h1))]
      exact hw.parentsUnique c h1 hcr
    · simp at h1
      rw [h1]
      exact hcnt_new
  · intro c hc
    rw [hkeys2] at hc
    rw [hlen2]
    rcases List.mem_append.mp hc with h1 | h1
    · rcases depth_le_size hw h1 with ⟨d, hd, hdle⟩
      have := hdep_old m.byId.length c h1
      rw [hd] at this
      rw [depth_mono (Nat.le_succ m.byId.length) this]
      rfl
    · simp at h1
      subst h1
      have hnr : c ≠ rootNodeId := fun hh => hrootk hh.symm
      rw [depth_step hnr hpar_new]
      rcases depth_le_size hw hkmem with ⟨dk, hdk, hdkle⟩
      have := hdep_old m.byId.length k hkmem
      rw [hdk] at this
      rw [this]
      rfl

/-- The Add Line command succeeds on a well-formed model given a fresh id, keeps
    well-formedness, appends exactly the one new key, and moves the cursor to it. -/
theorem addNewLine_ok {m : Model} (hw : Wf m) {newId newTitle : String}
    (hfresh : newId ∉ keysOf m.byId) :
    ∃ m2, addNewLine newId newTitle m = some m2 ∧ Wf m2 ∧
      keysOf m2.byId = keysOf m.byId ++ [newId] ∧ m2.currentId = newId ∧
      m2.byId.length = m.byId.length + 1 := by
  rcases hw.entry hw.currentMem with ⟨n, hlook, hid, hmem⟩
  have hnk : n.id ∈ keysOf m.byId := by rw [hid]; exact hw.currentMem
  have hlookn : alookup n.id m.byId = some n := by rw [hid]; exact hlook
  have hoccn : countOcc newId n.childIds = 0 := by
    rw [countOcc_eq_zero_iff]
    intro hcm
    exact hfresh (hw.childClosed _ (hid ▸ hmem) _ hcm)
  by_cases hroot : isRootNode n
  · set v : Node := { n with childIds := n.childIds ++ [newId] } with hv
    have hvid : v.id = n.id := rfl
    have hlookv : alookup v.id m.byId = some n := hlookn
    have hw2 : Wf (Model.mk
        (aupdate newId (createNewNode newId newTitle) (aupdate v.id v m.byId)) newId) := by
      apply wf_insert hw hlookv rfl hfresh
      · show countOcc newId (n.childIds ++ [newId]) = 1
        rw [countOcc_append, hoccn]
        simp [countOcc]
      · intro c hc
        show countOcc c (n.childIds ++ [newId]) = countOcc c n.childIds
        rw [countOcc_append]
        have : ¬ newId = c := fun hh => hc hh.symm
        simp [countOcc, this]
    have hkeys : keysOf (aupdate newId (createNewNode newId newTitle)
        (aupdate v.id v m.byId)) = keysOf m.byId ++ [newId] := by
      have h1 : keysOf (aupdate v.id v m.byId) = keysOf m.byId :=
        keysOf_aupdate_of_mem v (hvid ▸ hnk)
      rw [keysOf_aupdate_of_not_mem _ (by rw [h1]; exact hfresh), h1]
    have hlen : (aupdate newId (createNewNode newId newTitle)
        (aupdate v.id v m.byId)).length = m.byId.length + 1 := by
      rw [length_aupdate_of_not_mem _ (by
        rw [keysOf_aupdate_of_mem v (hvid ▸ hnk)]; exact hfresh)]
      rw [length_aupdate_of_mem v (hvid ▸ hnk)]
    refine ⟨_, ?_, hw2, hkeys, rfl, hlen⟩
    simp [addNewLine, getCurrentNode, getNodeById, hlook, hroot, appendNewChild,
      setNode, createNewNode]
  · have hnr : n.id ≠ rootNodeId := by simpa [isRootNode] using hroot
    rcases hw.parent_entry hnk hnr with ⟨np, hnp, hnpmem, hnplook, hnpin⟩
    rcases findIdxOf_isSome_of_mem hnpin with ⟨idx, hidx⟩
    set v : Node := { np with childIds := insertAt (idx + 1) newId np.childIds } with hv
    have hvid : v.id = np.id := rfl
    have hnpk : np.id ∈ keysOf m.byId := mem_keysOf_of_mem hnpmem
    have hoccnp : countOcc newId np.childIds = 0 := by
      rw [countOcc_eq_zero_iff]
      intro hcm
      exact hfresh (hw.childClosed _ hnpmem _ hcm)
    have hw2 : Wf (Model.mk
        (aupdate newId (createNewNode newId newTitle) (aupdate v.id v m.byId)) newId) := by
      apply wf_insert hw (show alookup v.id m.byId = some np from hnplook) rfl hfresh
      · show countOcc newId (insertAt (idx + 1) newId np.childIds) = 1
        rw [countOcc_insertAt, hoccnp]
        simp
      · intro c hc
        show countOcc c (insertAt (idx + 1) newId np.childIds) = countOcc c np.childIds
        rw [countOcc_insertAt]
        have : ¬ newId = c := fun hh => hc hh.symm
        simp [this]
    have hkeys : keysOf (aupdate newId (createNewNode newId newTitle)
        (aupdate v.id v m.byId)) = keysOf m.byId ++ [newId] := by
      have h1 : keysOf (aupdate v.id v m.byId) = keysOf m.byId :=
        keysOf_aupdate_of_mem v (hvid ▸ hnpk)
      rw [keysOf_aupdate_of_not_mem _ (by rw [h1]; exact hfresh), h1]
    have hlen : (aupdate newId (createNewNode newId newTitle)
        (aupdate v.id v m.byId)).length = m.byId.length + 1 := by
      rw [length_aupdate_of_not_mem _ (by
        rw [keysOf_aupdate_of_mem v (hvid ▸ hnpk)]; exact hfresh)]
      rw [length_aupdate_of_mem v (hvid ▸ hnpk)]
    refine ⟨_, ?_, hw2, hkeys, rfl, hlen⟩
    simp [addNewLine, getCurrentNode, getNodeById, hlook, hroot, appendNewSiblingAfter,
      getParentOf, getParentOfId, hnp, hnplook, appendNodeIdAfterSiblingId, hidx,
      setNode, createNewNode]

/-- No stored node lists itself among its children (a self-loop would make its
    depth equal to its own successor). -/
theorem Wf.not_self_child {m : Model} (hw : Wf m) {k : String} {n : Node}
    (hm : (k, n) ∈ m.byId) : k ∉ n.childIds := by
  intro hc
  have hp : getIdToPidLookup m k = some k := hw.child_parentD hm hc
  have hk : k ∈ keysOf m.byId := mem_keysOf_of_mem hm
  rcases depth_le_size hw hk with ⟨d, hd, _⟩
  have hkr : k ≠ rootNodeId := hw.child_ne_root hm hc
  rcases depth_parent_of_depth hkr hp hd with ⟨dk, hdk, he⟩
  have := depth_unique hd hdk
  omega

theorem depth_shrink {m : Model} {f : Nat} {k : String} {d : Nat}
    (h : depthOf m f k = some d) : depthOf m (d + 1) k = some d := by
  induction f generalizing k d with
  | zero => simp [depthOf] at h
  | succ f ih =>
    by_cases hk : k = rootNodeId
    · simp [depthOf, hk] at h ⊢
      omega
    · simp only [depthOf, if_neg hk] at h
      rcases hp : getIdToPidLookup m k with _ | p
      · rw [hp] at h; cases h
      · rw [hp] at h
        simp only [Option.map_eq_some'] at h
        rcases h with ⟨d1, hd1, rfl⟩
        rw [depth_step hk hp, ih hd1]
        rfl

/-- The eligible case of `indent`: current node `cid` (not root), parent node
    `np`, previous sibling `S`.  The command succeeds, the result is the two
    explicit node rewrites, and well-formedness is preserved. -/
theorem indent_eligible {m : Model} (hw : Wf m) {n np ns : Node} {idx : Nat}
    (hlook : alookup m.currentId m.byId = some n) (hid : n.id = m.currentId)
    (hroot : ¬ isRootNode n)
    (hnp : getIdToPidLookup m n.id = some np.id)
    (hnplook : alookup np.id m.byId = some np)
    (hidx : findIdxOf n.id np.childIds = some idx) (hpos : 0 < idx)
    {S : String} (hS : nthId np.childIds (idx - 1) = some S)
    (hnslook : alookup S m.byId = some ns) :
    ∃ m2, indent m = some m2 ∧
      m2 = setNode (setNode m (removeChildId n.id np)) (appendChildIdAndExpand n.id ns) ∧
      Wf m2 ∧ keysOf m2.byId = keysOf m.byId ∧ m2.byId.length = m.byId.length ∧
      m2.currentId = m.currentId := by
  have hnpmem : (np.id, np) ∈ m.byId := alookup_mem hnplook
  have hnsmem : (S, ns) ∈ m.byId := alookup_mem hnslook
  have hnsid : ns.id = S := hw.idConsist _ hnsmem
  have hnmem : (m.currentId, n) ∈ m.byId := alookup_mem hlook
  have hnmem2 : (n.id, n) ∈ m.byId := by rw [hid]; exact hnmem
  have hck : n.id ∈ keysOf m.byId := mem_keysOf_of_mem hnmem2
  have hcin : n.id ∈ np.childIds := nthId_mem (findIdxOf_nthId hidx)
  have hcidx : nthId np.childIds idx = some n.id := findIdxOf_nthId hidx
  have hcr : n.id ≠ rootNodeId := by simpa [isRootNode] using hroot
  have hSin : S ∈ np.childIds := nthId_mem hS
  have hSk : S ∈ keysOf m.byId := hw.childClosed _ hnpmem _ hSin
  have hSne : S ≠ n.id := by
    intro hSeq
    have h2 := countOcc_two_of_nthId_ne (hSeq ▸ hS) hcidx (by omega)
    have h3 : countOcc n.id np.childIds ≤ countParents n.id m.byId :=
      countOcc_le_countParents hnpmem
    have h4 := hw.parentsUnique n.id hck hcr
    omega
  have hSnp : S ≠ np.id := by
    rintro rfl
    exact hw.not_self_child hnpmem hSin
  have hoccc : countOcc n.id np.childIds = 1 := by
    have h1 : countOcc n.id np.childIds ≤ countParents n.id m.byId :=
      countOcc_le_countParents hnpmem
    have h2 := countOcc_pos_of_mem hcin
    have h3 := hw.parentsUnique n.id hck hcr
    omega
  -- names for the rewritten nodes and models
  set np1 : Node := removeChildId n.id np with hnp1
  set ns1 : Node := appendChildIdAndExpand n.id ns with hns1
  have hnp1id : np1.id = np.id := rfl
  have hns1id : ns1.id = ns.id := rfl
  set m1 : Model := setNode m np1 with hm1
  set m2 : Model := setNode m1 ns1 with hm2
  have hnpk : np.id ∈ keysOf m.byId := mem_keysOf_of_mem hnpmem
  have hkeys1 : keysOf m1.byId = keysOf m.byId := by
    show keysOf (aupdate np1.id np1 m.byId) = _
    rw [hnp1id]
    exact keysOf_aupdate_of_mem _ hnpk
  have hlookS1 : alookup S m1.byId = some ns := by
    show alookup S (aupdate np1.id np1 m.byId) = some ns
    rw [hnp1id, alookup_aupdate_ne hSnp]
    exact hnslook
  have hkeys2 : keysOf m2.byId = keysOf m.byId := by
    show keysOf (aupdate ns1.id ns1 m1.byId) = _
    rw [hns1id, hnsid]
    rw [keysOf_aupdate_of_mem _ (by rw [hkeys1]; exact hSk)]
    exact hkeys1
  have hlen2 : m2.byId.length = m.byId.length := by
    have e1 : (keysOf m2.byId).length = (keysOf m.byId).length := by rw [hkeys2]
    simpa [keysOf] using e1
  -- the command computes exactly m2
  have hrun : indent m = some m2 := by
    have hprev : maybePrevSibIdOf n m = some (some S) := by
      simp [maybePrevSibIdOf, hroot, getParentOf, getParentOfId, hnp, getNodeById,
        hnplook, maybePrevChildId, hidx, hpos, hS]
    simp [indent, getCurrentNode, getNodeById, hlook, hroot, hprev, getParentOf,
      getParentOfId, hnp, hnplook, hm2, hm1, hlookS1]
  -- entry decomposition of m2.byId
  have hmem2 : ∀ p, p ∈ m2.byId → p = (ns.id, ns1) ∨ p = (np.id, np1) ∨ p ∈ m.byId := by
    intro p hp
    rcases mem_aupdate hp with h1 | h1
    · exact Or.inl h1
    · rcases mem_aupdate h1 with h2 | h2
      · exact Or.inr (Or.inl h2)
      · exact Or.inr (Or.inr h2)
  have hns1mem : (ns.id, ns1) ∈ m2.byId := mem_aupdate_self _
  have hnp1mem : (np.id, np1) ∈ m2.byId := by
    apply mem_aupdate_of_ne
    · exact mem_aupdate_self _
    · show np.id ≠ ns.id
      rw [hnsid]
      exact fun hh => hSnp hh.symm
  -- parent counts are unchanged
  have hcnt : ∀ c, countParents c m2.byId = countParents c m.byId := by
    intro c
    have h1 : countParents c m1.byId + countOcc c np.childIds
        = countParents c m.byId + countOcc c np1.childIds := by
      show countParents c (aupdate np1.id np1 m.byId) + _ = _
      rw [hnp1id]
      exact countParents_aupdate (by rw [← hnp1id]; exact hnplook)
    have h2 : countParents c m2.byId + countOcc c ns.childIds
        = countParents c m1.byId + countOcc c ns1.childIds := by
      show countParents c (aupdate ns1.id ns1 m1.byId) + _ = _
      rw [hns1id]
      exact countParents_aupdate (by rw [hnsid]; exact hlookS1)
    have h3 : countOcc c ns1.childIds = countOcc c ns.childIds
        + (if n.id = c then 1 else 0) := by
      show countOcc c (ns.childIds ++ [n.id]) = _
      rw [countOcc_append]
      simp [countOcc]
    by_cases hc : c = n.id
    · rw [if_pos hc.symm] at h3
      have h4 : countOcc c np1.childIds = 0 := by
        rw [hc]
        exact countOcc_removeAll_self n.id np.childIds
      have h5 : countOcc c np.childIds = 1 := by
        rw [hc]; exact hoccc
      omega
    · have h5 : ¬ n.id = c := fun hh => hc hh.symm
      rw [if_neg h5] at h3
      have h4 : countOcc c np1.childIds = countOcc c np.childIds := by
        show countOcc c (removeAll n.id np.childIds) = _
        exact countOcc_removeAll_ne hc np.childIds
      omega
  -- new parent relation
  have hpar_other : ∀ c, c ≠ n.id → getIdToPidLookup m2 c = getIdToPidLookup m c := by
    intro c hcne
    by_cases hcm : c ∈ keysOf m.byId
    · by_cases hcroot : c = rootNodeId
      · subst hcroot
        rw [(parentD_eq_none_iff _ _).mpr, (parentD_eq_none_iff _ _).mpr hw.rootParents]
        rw [hcnt]
        exact hw.rootParents
      · rcases hw.parent_entry hcm hcroot with ⟨pn, hpn, hpnmem, hpnlook, hpnin⟩
        have hc2 : countParents c m2.byId = 1 := by
          rw [hcnt]; exact hw.parentsUnique c hcm hcroot
        by_cases hpk : pn.id = np.id
        · have hpnnp : pn = np := by
            have e1 := alookup_eq_some_of_mem hpnmem hw.nodupKeys
            rw [hpk, hnplook] at e1
            exact (Option.some.inj e1).symm
          have hcv : c ∈ np1.childIds := by
            show c ∈ removeAll n.id np.childIds
            rw [mem_removeAll]
            exact ⟨by rw [← hpnnp]; exact hpnin, hcne⟩
          have := parentD_eq_of_count_one hc2 hnp1mem hcv
          rw [this, hpn, hnp1id, hpk]
        · by_cases hpks : pn.id = ns.id
          · have hpnns : pn = ns := by
              have e1 := alookup_eq_some_of_mem hpnmem hw.nodupKeys
              rw [hpks, hnsid, hnslook] at e1
              exact (Option.some.inj e1).symm
            have hcv : c ∈ ns1.childIds := by
              show c ∈ ns.childIds ++ [n.id]
              apply List.mem_append_left
              rw [← hpnns]
              exact hpnin
            have := parentD_eq_of_count_one hc2 hns1mem hcv
            rw [this, hpn, hns1id, hpks]
          · have hpnmem2 : (pn.id, pn) ∈ m2.byId := by
              apply mem_aupdate_of_ne
              · apply mem_aupdate_of_ne hpnmem
                show pn.id ≠ np1.id
                rw [hnp1id]; exact hpk
              · show pn.id ≠ ns1.id
                rw [hns1id]; exact hpks
            have := parentD_eq_of_count_one hc2 hpnmem2 hpnin
            rw [this, hpn]
    · have h0 : countParents c m.byId = 0 := countParents_eq_zero_of_fresh hw hcm
      rw [(parentD_eq_none_iff _ _).mpr, (parentD_eq_none_iff _ _).mpr h0]
      rw [hcnt]
      exact h0
  have hpar_cid : getIdToPidLookup m2 n.id = some S := by
    have hc2 : countParents n.id m2.byId = 1 := by
      rw [hcnt]; exact hw.parentsUnique n.id hck hcr
    have hcv : n.id ∈ ns1.childIds := by
      show n.id ∈ ns.childIds ++ [n.id]
      exact List.mem_append_right _ (List.mem_singleton_self _)
    have := parentD_eq_of_count_one hc2 hns1mem hcv
    rw [this, hns1id, hnsid]
  -- depths: S and the current node sit at the same depth
  have hdnp := depth_le_size hw hnpk
  rcases hdnp with ⟨dnp, hdnp, hdnple⟩
  have hdc : depthOf m m.byId.length n.id = some (dnp + 1) :=
    hw.depth_child hnpmem hcin hdnp
  have hdS : depthOf m m.byId.length S = some (dnp + 1) :=
    hw.depth_child hnpmem hSin hdnp
  have hXchainS : n.id ∉ chainOf m m.byId.length S := by
    intro hmemc
    have hself : S ∈ chainOf m m.byId.length S := chain_contains_self hdS
    have := chain_mem_inj hdS hmemc hself hdc hdS
    exact hSne this.symm
  have hdS2 : depthOf m2 m.byId.length S = some (dnp + 1) :=
    depth_reattach_out hpar_other m.byId.length S (dnp + 1) hdS hXchainS
  refine ⟨m2, hrun, rfl, ?_, hkeys2, hlen2, rfl⟩
  refine ⟨?_, ?_, ?_, ?_, ?_, ?_, ?_, ?_⟩
  · rw [hkeys2]; exact hw.nodupKeys
  · rw [hkeys2]; exact hw.rootMem
  · rw [hkeys2]
    show m.currentId ∈ keysOf m.byId
    exact hw.currentMem
  · intro p hp
    rcases hmem2 p hp with h1 | h1 | h1
    · rw [h1]; exact hns1id
    · rw [h1]; exact hnp1id
    · exact hw.idConsist _ h1
  · intro p hp c hc
    rw [hkeys2]
    rcases hmem2 p hp with h1 | h1 | h1
    · rw [h1] at hc
      simp only at hc
      rcases List.mem_append.mp hc with h2 | h2
      · exact hw.childClosed _ hnsmem _ h2
      · simp at h2
        rw [h2]; exact hck
    · rw [h1] at hc
      have hc2 : c ∈ removeAll n.id np.childIds := hc
      rw [mem_removeAll] at hc2
      exact hw.childClosed _ hnpmem _ hc2.1
    · exact hw.childClosed _ h1 _ hc
  · rw [hcnt]; exact hw.rootParents
  · intro c hc hcroot
    rw [hkeys2] at hc
    rw [hcnt]
    exact hw.parentsUnique c hc hcroot
  · intro k hk
    rw [hkeys2] at hk
    rw [hlen2]
    rcases depth_le_size hw hk with ⟨dk, hdk, hdkle⟩
    by_cases hX : n.id ∈ chainOf m m.byId.length k
    · have hSchain : S ∉ chainOf m m.byId.length k := by
        intro hmemc
        have := chain_mem_inj hdk hmemc hX hdS hdc
        exact hSne this
      have hbound : dk + 2 ≤ m.byId.length := depth_le_size_extra hw hk hSk hdk hSchain
      rcases depth_reattach_in hcr hpar_other hpar_cid hdc hdS2 dk k hdk hX
        with ⟨f2, hf2⟩
      have hval : dk - (dnp + 1) + (dnp + 1) + 1 = dk + 1 := by
        have : dnp + 1 ≤ dk := by
          rcases chain_mem_depth hdk hX with ⟨dx, hdx, hlex⟩
          have := depth_unique hdx hdc
          omega
        omega
      rw [hval] at hf2
      have := depth_mono (by omega : dk + 1 + 1 ≤ m.byId.length) (depth_shrink hf2)
      rw [this]
      rfl
    · have := depth_reattach_out hpar_other m.byId.length k dk hdk hX
      rw [this]
      rfl

theorem countOcc_two_entries_le {c k1 k2 : String} {n1 n2 : Node}
    {l : List (String × Node)} (h1 : (k1, n1) ∈ l) (h2 : (k2, n2) ∈ l)
    (hne : k1 ≠ k2) :
    countOcc c n1.childIds + countOcc c n2.childIds ≤ countParents c l := by
  induction l with
  | nil => simp at h1
  | cons p t ih =>
    obtain ⟨k0, n0⟩ := p
    rcases List.mem_cons.mp h1 with e1 | e1
    · have hk1 : k1 = k0 := congrArg Prod.fst e1
      have hn1 : n1 = n0 := congrArg Prod.snd e1
      rcases List.mem_cons.mp h2 with e2 | e2
      · have hk2 : k2 = k0 := congrArg Prod.fst e2
        exact absurd (hk1.trans hk2.symm) hne
      · have := countOcc_le_countParents (c := by exact c) e2
        show _ ≤ countOcc c n0.childIds + countParents c t
        rw [hn1]
        omega
    · rcases List.mem_cons.mp h2 with e2 | e2
      · have hn2 : n2 = n0 := congrArg Prod.snd e2
        have := countOcc_le_countParents (c := by exact c) e1
        show _ ≤ countOcc c n0.childIds + countParents c t
        rw [hn2]
        omega
      · have := ih e1 e2
        show _ ≤ countOcc c n0.childIds + countParents c t
        omega

/-- The eligible case of `outdent`: current node (not root), parent `np` (not
    root), grandparent `gp`.  The command succeeds with the two explicit node
    rewrites, preserving well-formedness. -/
theorem outdent_eligible {m : Model} (hw : Wf m) {n np gp : Node} {oidx : Nat}
    (hlook : alookup m.currentId m.byId = some n) (hid : n.id = m.currentId)
    (hroot : ¬ isRootNode n)
    (hnp : getIdToPidLookup m n.id = some np.id)
    (hnplook : alookup np.id m.byId = some np)
    (hnin : n.id ∈ np.childIds)
    (hproot : ¬ isRootNode np)
    (hgp : getIdToPidLookup m np.id = some gp.id)
    (hgplook : alookup gp.id m.byId = some gp)
    (hnpin : np.id ∈ gp.childIds)
    (hoidx : findIdxOf np.id gp.childIds = some oidx) :
    ∃ m2, outdent m = some m2 ∧
      m2 = setNode (setNode m (removeChildId n.id np))
        { gp with childIds := insertAt (oidx + 1) n.id gp.childIds } ∧
      Wf m2 ∧ keysOf m2.byId = keysOf m.byId ∧ m2.byId.length = m.byId.length ∧
      m2.currentId = m.currentId := by
  have hnpmem : (np.id, np) ∈ m.byId := alookup_mem hnplook
  have hgpmem : (gp.id, gp) ∈ m.byId := alookup_mem hgplook
  have hnmem : (m.currentId, n) ∈ m.byId := alookup_mem hlook
  have hnmem2 : (n.id, n) ∈ m.byId := by rw [hid]; exact hnmem
  have hck : n.id ∈ keysOf m.byId := mem_keysOf_of_mem hnmem2
  have hcr : n.id ≠ rootNodeId := by simpa [isRootNode] using hroot
  have hnpr : np.id ≠ rootNodeId := by simpa [isRootNode] using hproot
  have hnpk : np.id ∈ keysOf m.byId := mem_keysOf_of_mem hnpmem
  have hgpk : gp.id ∈ keysOf m.byId := mem_keysOf_of_mem hgpmem
  have hgpnp : gp.id ≠ np.id := by
    intro he
    have e1 : alookup np.id m.byId = some gp := by rw [← he]; exact hgplook
    rw [hnplook] at e1
    have : np = gp := Option.some.inj e1
    subst this
    exact hw.not_self_child hnpmem hnpin
  have hoccc : countOcc n.id np.childIds = 1 := by
    have h1 : countOcc n.id np.childIds ≤ countParents n.id m.byId :=
      countOcc_le_countParents hnpmem
    have h2 := countOcc_pos_of_mem hnin
    have h3 := hw.parentsUnique n.id hck hcr
    omega
  have hoccgp : countOcc n.id gp.childIds = 0 := by
    have h1 := countOcc_two_entries_le (c := by exact n.id) hnpmem hgpmem
      (fun hh => hgpnp hh.symm)
    have h3 := hw.parentsUnique n.id hck hcr
    omega
  have hgpn : gp.id ≠ n.id := by
    intro he
    have : n.id ∈ keysOf m.byId := hck
    have e1 : alookup n.id m.byId = some gp := by rw [← he]; exact hgplook
    rw [hid] at e1
    rw [hlook] at e1
    have : n = gp := Option.some.inj e1
    -- n = gp: then n.id = gp.id and np.id ∈ n.childIds; but n's parent is np,
    -- so the depths disagree
    subst this
    -- now np.id ∈ n.childIds and n.id ∈ np.childIds: a 2-cycle
    rcases depth_le_size hw hnpk with ⟨dnp, hdnp, _⟩
    have hd1 : depthOf m m.byId.length n.id = some (dnp + 1) :=
      hw.depth_child hnpmem hnin hdnp
    have hd2 : depthOf m m.byId.length np.id = some (dnp + 1 + 1) :=
      hw.depth_child (by rw [he] at hgpmem; exact hgpmem) hnpin hd1
    have := depth_unique hdnp hd2
    omega
  -- names
  set np1 : Node := removeChildId n.id np with hnp1
  set v : Node := { gp with childIds := insertAt (oidx + 1) n.id gp.childIds } with hv
  have hnp1id : np1.id = np.id := rfl
  have hvid : v.id = gp.id := rfl
  set m1 : Model := setNode m np1 with hm1
  set m2 : Model := setNode m1 v with hm2
  have hkeys1 : keysOf m1.byId = keysOf m.byId := by
    show keysOf (aupdate np1.id np1 m.byId) = _
    rw [hnp1id]
    exact keysOf_aupdate_of_mem _ hnpk
  have hlookgp1 : alookup gp.id m1.byId = some gp := by
    show alookup gp.id (aupdate np1.id np1 m.byId) = some gp
    rw [hnp1id, alookup_aupdate_ne hgpnp]
    exact hgplook
  have hkeys2 : keysOf m2.byId = keysOf m.byId := by
    show keysOf (aupdate v.id v m1.byId) = _
    rw [hvid]
    rw [keysOf_aupdate_of_mem _ (by rw [hkeys1]; exact hgpk)]
    exact hkeys1
  have hlen2 : m2.byId.length = m.byId.length := by
    have e1 : (keysOf m2.byId).length = (keysOf m.byId).length := by rw [hkeys2]
    simpa [keysOf] using e1
  -- the command computes exactly m2
  have hrun : outdent m = some m2 := by
    have hgpar : getParentOf n m = some np := by
      simp [getParentOf, getParentOfId, hnp, getNodeById, hnplook]
    have hgpar2 : getParentOf np m = some gp := by
      simp [getParentOf, getParentOfId, hgp, getNodeById, hgplook]
    simp [outdent, getCurrentNode, getNodeById, hlook, hroot, hgpar, hproot,
      hgpar2, hm2, hm1, hlookgp1, hoidx]
  -- entry decomposition
  have hmem2 : ∀ p, p ∈ m2.byId → p = (gp.id, v) ∨ p = (np.id, np1) ∨ p ∈ m.byId := by
    intro p hp
    rcases mem_aupdate hp with h1 | h1
    · exact Or.inl h1
    · rcases mem_aupdate h1 with h2 | h2
      · exact Or.inr (Or.inl h2)
      · exact Or.inr (Or.inr h2)
  have hvmem : (gp.id, v) ∈ m2.byId := mem_aupdate_self _
  have hnp1mem : (np.id, np1) ∈ m2.byId := by
    apply mem_aupdate_of_ne
    · exact mem_aupdate_self _
    · show np.id ≠ gp.id
      exact fun hh => hgpnp hh.symm
  -- parent counts unchanged
  have hcnt : ∀ c, countParents c m2.byId = countParents c m.byId := by
    intro c
    have h1 : countParents c m1.byId + countOcc c np.childIds
        = countParents c m.byId + countOcc c np1.childIds := by
      show countParents c (aupdate np1.id np1 m.byId) + _ = _
      rw [hnp1id]
      exact countParents_aupdate hnplook
    have h2 : countParents c m2.byId + countOcc c gp.childIds
        = countParents c m1.byId + countOcc c v.childIds := by
      show countParents c (aupdate v.id v m1.byId) + _ = _
      rw [hvid]
      exact countParents_aupdate hlookgp1
    have h3 : countOcc c v.childIds = countOcc c gp.childIds
        + (if n.id = c then 1 else 0) := by
      show countOcc c (insertAt (oidx + 1) n.id gp.childIds) = _
      rw [countOcc_insertAt]
    by_cases hc : c = n.id
    · rw [if_pos hc.symm] at h3
      have h4 : countOcc c np1.childIds = 0 := by
        rw [hc]
        exact countOcc_removeAll_self n.id np.childIds
      have h5 : countOcc c np.childIds = 1 := by
        rw [hc]; exact hoccc
      omega
    · have h5 : ¬ n.id = c := fun hh => hc hh.symm
      rw [if_neg h5] at h3
      have h4 : countOcc c np1.childIds = countOcc c np.childIds := by
        show countOcc c (removeAll n.id np.childIds) = _
        exact countOcc_removeAll_ne hc np.childIds
      omega
  -- new parent relation
  have hpar_other : ∀ c, c ≠ n.id → getIdToPidLookup m2 c = getIdToPidLookup m c := by
    intro c hcne
    by_cases hcm : c ∈ keysOf m.byId
    · by_cases hcroot : c = rootNodeId
      · subst hcroot
        rw [(parentD_eq_none_iff _ _).mpr, (parentD_eq_none_iff _ _).mpr hw.rootParents]
        rw [hcnt]
        exact hw.rootParents
      · rcases hw.parent_entry hcm hcroot with ⟨pn, hpn, hpnmem, hpnlook, hpnin⟩
        have hc2 : countParents c m2.byId = 1 := by
          rw [hcnt]; exact hw.parentsUnique c hcm hcroot
        by_cases hpk : pn.id = np.id
        · have hpnnp : pn = np := by
            have e1 := alookup_eq_some_of_mem hpnmem hw.nodupKeys
            rw [hpk, hnplook] at e1
            exact (Option.some.inj e1).symm
          have hcv : c ∈ np1.childIds := by
            show c ∈ removeAll n.id np.childIds
            rw [mem_removeAll]
            exact ⟨by rw [← hpnnp]; exact hpnin, hcne⟩
          have := parentD_eq_of_count_one hc2 hnp1mem hcv
          rw [this, hpn, hnp1id, hpk]
        · by_cases hpkg : pn.id = gp.id
          · have hpngp : pn = gp := by
              have e1 := alookup_eq_some_of_mem hpnmem hw.nodupKeys
              rw [hpkg, hgplook] at e1
              exact (Option.some.inj e1).symm
            have hcv : c ∈ v.childIds := by
              show c ∈ insertAt (oidx + 1) n.id gp.childIds
              rw [mem_insertAt]
              exact Or.inr (by rw [← hpngp]; exact hpnin)
            have := parentD_eq_of_count_one hc2 hvmem hcv
            rw [this, hpn, hvid, hpkg]
          · have hpnmem2 : (pn.id, pn) ∈ m2.byId := by
              apply mem_aupdate_of_ne
              · apply mem_aupdate_of_ne hpnmem
                show pn.id ≠ np1.id
                rw [hnp1id]; exact hpk
              · show pn.id ≠ v.id
                rw [hvid]; exact hpkg
            have := parentD_eq_of_count_one hc2 hpnmem2 hpnin
            rw [this, hpn]
    · have h0 : countParents c m.byId = 0 := countParents_eq_zero_of_fresh hw hcm
      rw [(parentD_eq_none_iff _ _).mpr, (parentD_eq_none_iff _ _).mpr h0]
      rw [hcnt]
      exact h0
  have hpar_cid : getIdToPidLookup m2 n.id = some gp.id := by
    have hc2 : countParents n.id m2.byId = 1 := by
      rw [hcnt]; exact hw.parentsUnique n.id hck hcr
    have hcv : n.id ∈ v.childIds := by
      show n.id ∈ insertAt (oidx + 1) n.id gp.childIds
      rw [mem_insertAt]
      exact Or.inl rfl
    have := parentD_eq_of_count_one hc2 hvmem hcv
    rw [this, hvid]
  -- depths
  rcases depth_le_size hw hnpk with ⟨dnp, hdnp, hdnple⟩
  have hdc : depthOf m m.byId.length n.id = some (dnp + 1) :=
    hw.depth_child hnpmem hnin hdnp
  rcases depth_parent_of_depth hnpr hgp hdnp with ⟨dgp, hdgp, hdnpe⟩
  have hXchainG : n.id ∉ chainOf m m.byId.length gp.id := by
    intro hmemc
    rcases chain_mem_depth hdgp hmemc with ⟨dx, hdx, hlex⟩
    have := depth_unique hdx hdc
    omega
  have hdG2 : depthOf m2 m.byId.length gp.id = some dgp :=
    depth_reattach_out hpar_other m.byId.length gp.id dgp hdgp hXchainG
  refine ⟨m2, hrun, rfl, ?_, hkeys2, hlen2, rfl⟩
  refine ⟨?_, ?_, ?_, ?_, ?_, ?_, ?_, ?_⟩
  · rw [hkeys2]; exact hw.nodupKeys
  · rw [hkeys2]; exact hw.rootMem
  · rw [hkeys2]
    show m.currentId ∈ keysOf m.byId
    exact hw.currentMem
  · intro p hp
    rcases hmem2 p hp with h1 | h1 | h1
    · subst h1; rfl
    · subst h1; rfl
    · exact hw.idConsist _ h1
  · intro p hp c hc
    rw [hkeys2]
    rcases hmem2 p hp with h1 | h1 | h1
    · rw [h1] at hc
      have hc2 : c ∈ insertAt (oidx + 1) n.id gp.childIds := hc
      rw [mem_insertAt] at hc2
      rcases hc2 with h2 | h2
      · rw [h2]; exact hck
      · exact hw.childClosed _ hgpmem _ h2
    · rw [h1] at hc
      have hc2 : c ∈ removeAll n.id np.childIds := hc
      rw [mem_removeAll] at hc2
      exact hw.childClosed _ hnpmem _ hc2.1
    · exact hw.childClosed _ h1 _ hc
  · rw [hcnt]; exact hw.rootParents
  · intro c hc hcroot
    rw [hkeys2] at hc
    rw [hcnt]
    exact hw.parentsUnique c hc hcroot
  · intro k hk
    rw [hkeys2] at hk
    rw [hlen2]
    rcases depth_le_size hw hk with ⟨dk, hdk, hdkle⟩
    by_cases hX : n.id ∈ chainOf m m.byId.length k
    · rcases depth_reattach_in hcr hpar_other hpar_cid hdc hdG2 dk k hdk hX
        with ⟨f2, hf2⟩
      have hle : dnp + 1 ≤ dk := by
        rcases chain_mem_depth hdk hX with ⟨dx, hdx, hlex⟩
        have := depth_unique hdx hdc
        omega
      have hval : dk - (dnp + 1) + dgp + 1 = dk - 1 := by omega
      rw [hval] at hf2
      have hmv : dk - 1 + 1 ≤ m.byId.length := by omega
      have := depth_mono hmv (depth_shrink hf2)
      rw [this]
      rfl
    · have := depth_reattach_out hpar_other m.byId.length k dk hdk hX
      rw [this]
      rfl

/-! ### Total command lemmas -/

theorem indent_ok {m : Model} (hw : Wf m) :
    ∃ m2, indent m = some m2 ∧ Wf m2 ∧ keysOf m2.byId = keysOf m.byId ∧
      m2.byId.length = m.byId.length ∧ m2.currentId = m.currentId := by
  rcases hw.entry hw.currentMem with ⟨n, hlook, hid, hmem⟩
  by_cases hroot : isRootNode n
  · exact ⟨m, by simp [indent, getCurrentNode, getNodeById, hlook, hroot],
      hw, rfl, rfl, rfl⟩
  · have hnr : n.id ≠ rootNodeId := by simpa [isRootNode] using hroot
    have hnk : n.id ∈ keysOf m.byId := by rw [hid]; exact hw.currentMem
    rcases hw.parent_entry hnk hnr with ⟨np, hnp, hnpmem, hnplook, hnin⟩
    rcases findIdxOf_isSome_of_mem hnin with ⟨idx, hidx⟩
    by_cases hpos : 0 < idx
    · have hlt : idx - 1 < np.childIds.length := by
        have := nthId_lt_length (findIdxOf_nthId hidx)
        omega
      rcases nthId_isSome_of_lt hlt with ⟨S, hS⟩
      have hSk : S ∈ keysOf m.byId := hw.childClosed _ hnpmem _ (nthId_mem hS)
      rcases hw.entry hSk with ⟨ns, hnslook, hnsid, hnsmem⟩
      rcases indent_eligible hw hlook hid hroot hnp hnplook hidx hpos hS hnslook
        with ⟨m2, hrun, _, hwf, hkeys, hlen, hcur⟩
      exact ⟨m2, hrun, hwf, hkeys, hlen, hcur⟩
    · have hprev : maybePrevSibIdOf n m = some none := by
        simp [maybePrevSibIdOf, hroot, getParentOf, getParentOfId, hnp, getNodeById,
          hnplook, maybePrevChildId, hidx, hpos]
      exact ⟨m, by simp [indent, getCurrentNode, getNodeById, hlook, hroot, hprev],
        hw, rfl, rfl, rfl⟩

theorem outdent_ok {m : Model} (hw : Wf m) :
    ∃ m2, outdent m = some m2 ∧ Wf m2 ∧ keysOf m2.byId = keysOf m.byId ∧
      m2.byId.length = m.byId.length ∧ m2.currentId = m.currentId := by
  rcases hw.entry hw.currentMem with ⟨n, hlook, hid, hmem⟩
  by_cases hroot : isRootNode n
  · exact ⟨m, by simp [outdent, getCurrentNode, getNodeById, hlook, hroot],
      hw, rfl, rfl, rfl⟩
  · have hnr : n.id ≠ rootNodeId := by simpa [isRootNode] using hroot
    have hnk : n.id ∈ keysOf m.byId := by rw [hid]; exact hw.currentMem
    rcases hw.parent_entry hnk hnr with ⟨np, hnp, hnpmem, hnplook, hnin⟩
    have hgpar : getParentOf n m = some np := by
      simp [getParentOf, getParentOfId, hnp, getNodeById, hnplook]
    by_cases hproot : isRootNode np
    · exact ⟨m, by simp [outdent, getCurrentNode, getNodeById, hlook, hroot,
        hgpar, hproot], hw, rfl, rfl, rfl⟩
    · have hnpr : np.id ≠ rootNodeId := by simpa [isRootNode] using hproot
      have hnpk : np.id ∈ keysOf m.byId := mem_keysOf_of_mem hnpmem
      rcases hw.parent_entry hnpk hnpr with ⟨gp, hgp, hgpmem, hgplook, hnpin⟩
      rcases findIdxOf_isSome_of_mem hnpin with ⟨oidx, hoidx⟩
      rcases outdent_eligible hw hlook hid hroot hnp hnplook hnin hproot hgp
        hgplook hnpin hoidx with ⟨m2, hrun, _, hwf, hkeys, hlen, hcur⟩
      exact ⟨m2, hrun, hwf, hkeys, hlen, hcur⟩

/-- Every valid command succeeds on a well-formed model and preserves
    well-formedness. -/
theorem applyCmd_ok {m : Model} (hw : Wf m) (c : Cmd) (hv : validCmd c m = true) :
    ∃ m2, applyCmd c m = some m2 ∧ Wf m2 := by
  cases c with
  | addLine newId newTitle =>
    have hfresh : newId ∉ keysOf m.byId := by
      simp [validCmd] at hv
      exact hv.2
    rcases addNewLine_ok hw hfresh with ⟨m2, hrun, hwf, _, _, _⟩
    exact ⟨m2, hrun, hwf⟩
  | moveNext =>
    rcases attemptNext_ok hw with ⟨m2, hrun, hb, hc⟩
    exact ⟨m2, hrun, wf_of_same_byId hw hb hc⟩
  | movePrev =>
    rcases attemptPrev_ok hw with ⟨m2, hrun, hb, hc⟩
    exact ⟨m2, hrun, wf_of_same_byId hw hb hc⟩
  | indentCmd =>
    rcases indent_ok hw with ⟨m2, hrun, hwf, _, _, _⟩
    exact ⟨m2, hrun, hwf⟩
  | outdentCmd =>
    rcases outdent_ok hw with ⟨m2, hrun, hwf, _, _, _⟩
    exact ⟨m2, hrun, hwf⟩
  | expandCmd =>
    rcases expand_ok hw with ⟨m2, hrun, hwf, _, _, _⟩
    exact ⟨m2, hrun, hwf⟩
  | collapseCmd =>
    rcases collapse_ok hw with ⟨m2, hrun, hwf, _, _, _⟩
    exact ⟨m2, hrun, hwf⟩

theorem wf_initial : Wf createInitialModel :=
  ⟨by decide, by decide, by decide, by decide, by decide, by decide, by decide,
    by decide⟩

/-- Running any valid command sequence from a well-formed model keeps the model
    well-formed. -/
theorem goodRun_wf : ∀ cmds (m m2 : Model), Wf m → goodRun cmds m = some m2 → Wf m2 := by
  intro cmds
  induction cmds with
  | nil =>
    intro m m2 hw h
    simp [goodRun] at h
    rw [← h]
    exact hw
  | cons c cs ih =>
    intro m m2 hw h
    simp only [goodRun] at h
    by_cases hv : validCmd c m
    · rw [if_pos hv] at h
      rcases applyCmd_ok hw c hv with ⟨m1, hrun, hwf1⟩
      rw [hrun] at h
      exact ih m1 m2 hwf1 h
    · rw [if_neg hv] at h
      cases h

/-! ### From well-formedness to the claimed rooted-acyclic properties -/

theorem wf_reaches_aux {m : Model} (hw : Wf m) :
    ∀ d k, depthOf m m.byId.length k = some d → ReachesFromRoot m k := by
  intro d
  induction d with
  | zero =>
    intro k h
    have := depth_zero_root h
    rw [this]
    exact Relation.ReflTransGen.refl
  | succ d ih =>
    intro k h
    have hk : k ≠ rootNodeId := by
      intro he
      subst he
      rcases hq : m.byId.length with _ | q
      · rw [hq] at h; simp [depthOf] at h
      · rw [hq] at h
        simp [depthOf] at h
    rcases hq : m.byId.length with _ | q
    · rw [hq] at h; simp [depthOf] at h
    · rw [hq] at h
      simp only [depthOf, if_neg hk] at h
      rcases hp : getIdToPidLookup m k with _ | p
      · rw [hp] at h; cases h
      · rw [hp] at h
        simp only [Option.map_eq_some'] at h
        rcases h with ⟨d1, hd1, hd1e⟩
        have hdd : d1 = d := by omega
        rw [hdd] at hd1
        have hdp : depthOf m m.byId.length p = some d := by
          rw [hq]; exact depth_mono (Nat.le_succ q) hd1
        have hreach := ih p hdp
        rcases parentD_some_mem hp with ⟨q2, hq2, hin2, hid2⟩
        have hkey2 := hw.idConsist _ hq2
        have hedge : childEdge m p k := by
          refine ⟨q2.2, ?_, hin2⟩
          have : (q2.2.id, q2.2) ∈ m.byId := by
            rw [hkey2]; exact hq2
          rw [← hid2]
          exact alookup_eq_some_of_mem this hw.nodupKeys
        exact Relation.ReflTransGen.tail hreach hedge

theorem wf_reaches {m : Model} (hw : Wf m) {k : String} (hk : k ∈ keysOf m.byId) :
    ReachesFromRoot m k := by
  rcases depth_le_size hw hk with ⟨d, hd, _⟩
  exact wf_reaches_aux hw d k hd

theorem edge_depth_succ {m : Model} (hw : Wf m) {a b : String}
    (he : childEdge m a b) :
    ∃ da, depthOf m m.byId.length a = some da ∧
      depthOf m m.byId.length b = some (da + 1) := by
  rcases he with ⟨n, hlook, hin⟩
  have hmem : (a, n) ∈ m.byId := alookup_mem hlook
  have hak : a ∈ keysOf m.byId := mem_keysOf_of_mem hmem
  rcases depth_le_size hw hak with ⟨da, hda, _⟩
  exact ⟨da, hda, hw.depth_child hmem hin hda⟩

theorem transGen_depth_lt {m : Model} (hw : Wf m) {a b : String}
    (h : Relation.TransGen (childEdge m) a b) :
    ∃ da db, depthOf m m.byId.length a = some da ∧
      depthOf m m.byId.length b = some db ∧ da < db := by
  induction h with
  | single he =>
    rcases edge_depth_succ hw he with ⟨da, hda, hdb⟩
    exact ⟨da, da + 1, hda, hdb, by omega⟩
  | tail hab hbc ih =>
    rcases ih with ⟨da, db, hda, hdb, hlt⟩
    rcases edge_depth_succ hw hbc with ⟨db2, hdb2, hdc⟩
    have := depth_unique hdb hdb2
    exact ⟨da, db2 + 1, hda, hdc, by omega⟩

theorem wf_acyclic {m : Model} (hw : Wf m) : AcyclicChildren m := by
  intro k hk
  rcases transGen_depth_lt hw hk with ⟨da, db, hda, hdb, hlt⟩
  have := depth_unique hda hdb
  omega

/-- C1: for every finite sequence of the commands addLine (with a fresh,
    non-empty id, as nanoid guarantees), moveNext, movePrev, indent, outdent,
    expand, collapse applied from the initial model (root only, cursor on root),
    the model reached after the commands satisfies: every id in any node's
    childIds is a key of byId, currentId is a key of byId, every non-root key
    has exactly one parent occurrence while the root has none, every key is
    reachable from the root along child edges, and the child graph is acyclic.
    Since the command list is universally quantified, this holds after each
    command of a sequence (apply the theorem to each prefix). -/
theorem C1_invariant_preservation (cmds : List Cmd) (m2 : Model)
    (h : goodRun cmds createInitialModel = some m2) :
    (∀ p ∈ m2.byId, ∀ c ∈ p.2.childIds, c ∈ keysOf m2.byId) ∧
    m2.currentId ∈ keysOf m2.byId ∧
    (∀ k ∈ keysOf m2.byId, k ≠ rootNodeId → countParents k m2.byId = 1) ∧
    countParents rootNodeId m2.byId = 0 ∧
    (∀ k ∈ keysOf m2.byId, ReachesFromRoot m2 k) ∧
    AcyclicChildren m2 := by
  have hw2 : Wf m2 := goodRun_wf cmds createInitialModel m2 wf_initial h
  exact ⟨hw2.childClosed, hw2.currentMem, hw2.parentsUnique, hw2.rootParents,
    fun k hk => wf_reaches hw2 hk, wf_acyclic hw2⟩

/-- Witness for C1 at the concrete run addLine "idA", addLine "idB", indent. -/
theorem C1_invariant_preservation_witness :
    (∀ p ∈ c1Model.byId, ∀ c ∈ p.2.childIds, c ∈ keysOf c1Model.byId) ∧
    c1Model.currentId ∈ keysOf c1Model.byId ∧
    (∀ k ∈ keysOf c1Model.byId, k ≠ rootNodeId → countParents k c1Model.byId = 1) ∧
    countParents rootNodeId c1Model.byId = 0 ∧
    (∀ k ∈ keysOf c1Model.byId, ReachesFromRoot c1Model k) ∧
    AcyclicChildren c1Model :=
  C1_invariant_preservation
    [Cmd.addLine "idA" "ta", Cmd.addLine "idB" "tb", Cmd.indentCmd]
    c1Model (by decide)

/-- concrete well-formed model shared by the witnesses -/
theorem wf_c1Model : Wf c1Model :=
  ⟨by decide, by decide, by decide, by decide, by decide, by decide, by decide,
    by decide⟩

/-- C10: on every well-formed model (the tree invariant), the two recursive
    traversal helpers terminate: `getLastDescendentIdOrSelf` reaches a childless
    node within `byId.length` steps, and `maybeNextSibOfFirstAncestor` finishes
    its upward walk within `byId.length` steps (fuel `byId.length` is never
    exhausted, so the JavaScript recursions terminate). -/
theorem C10_traversal_termination {m : Model} (hw : Wf m) {k : String} {n : Node}
    (hmem : (k, n) ∈ m.byId) :
    (∃ r nr, getLastDescendentIdOrSelf m.byId.length k m = some r ∧
       alookup r m.byId = some nr ∧ nr.childIds = []) ∧
    (∃ r, maybeNextSibOfFirstAncestor m.byId.length n m = some r) := by
  have hk : k ∈ keysOf m.byId := mem_keysOf_of_mem hmem
  have hid : n.id = k := hw.idConsist _ hmem
  rcases depth_le_size hw hk with ⟨d, hd, hdle⟩
  constructor
  · rcases @lastDesc_total m hw m.byId.length k hk d hd (by omega)
      with ⟨r, nr, hr, _, hlr, hcr⟩
    exact ⟨r, nr, hr, hlr, hcr⟩
  · have hnk : n.id ∈ keysOf m.byId := by rw [hid]; exact hk
    have hnd : depthOf m m.byId.length n.id = some d := by rw [hid]; exact hd
    rcases @nsofa_total m hw m.byId.length n hnk d hnd (by omega) with ⟨r, hr, _⟩
    exact ⟨r, hr⟩

/-- Witness for C10 on a concrete three-node model, at the node "idA". -/
theorem C10_traversal_termination_witness :
    ("idA", Node.mk "idA" "ta" false ["idB"]) ∈ c1Model.byId ∧
    ((∃ r nr, getLastDescendentIdOrSelf c1Model.byId.length "idA" c1Model = some r ∧
        alookup r c1Model.byId = some nr ∧ nr.childIds = []) ∧
     (∃ r, maybeNextSibOfFirstAncestor c1Model.byId.length
        (Node.mk "idA" "ta" false ["idB"]) c1Model = some r)) :=
  ⟨by decide, C10_traversal_termination wf_c1Model (by decide)⟩

theorem wf_c7Model : Wf c7Model :=
  ⟨by decide, by decide, by decide, by decide, by decide, by decide, by decide,
    by decide⟩

/-- C7: `expand` leaves the model unchanged unless the current node has children
    and is collapsed, in which case exactly its collapsed flag becomes false;
    `collapse` is symmetric; after a successful call the current node's collapsed
    flag is the negation of its pre-call value. -/
theorem C7_collapse_gating {m : Model} (hw : Wf m) {n : Node}
    (hlook : alookup m.currentId m.byId = some n) :
    ((n.childIds = [] ∨ n.collapsed = false) → expand m = some m) ∧
    (n.childIds ≠ [] → n.collapsed = true →
      ∃ m2, expand m = some m2 ∧
        alookup m.currentId m2.byId = some { n with collapsed := false } ∧
        ({ n with collapsed := false } : Node).collapsed = (!n.collapsed)) ∧
    ((n.childIds = [] ∨ n.collapsed = true) → collapse m = some m) ∧
    (n.childIds ≠ [] → n.collapsed = false →
      ∃ m2, collapse m = some m2 ∧
        alookup m.currentId m2.byId = some { n with collapsed := true } ∧
        ({ n with collapsed := true } : Node).collapsed = (!n.collapsed)) := by
  have hmem : (m.currentId, n) ∈ m.byId := alookup_mem hlook
  have hid : n.id = m.currentId := hw.idConsist _ hmem
  refine ⟨?_, ?_, ?_, ?_⟩
  · intro h
    have hce : canExpand n = false := by
      rcases h with h | h
      · simp [canExpand, hasChildren, h]
      · simp [canExpand, h]
    simp [expand, getCurrentNode, getNodeById, hlook, hce]
  · intro h1 h2
    have hce : canExpand n = true := by
      have : 0 < n.childIds.length := by
        rcases hc : n.childIds with _ | _
        · exact absurd hc h1
        · simp [hc]
      simp [canExpand, hasChildren, this, h2]
    refine ⟨setNode m { n with collapsed := false },
      by simp [expand, getCurrentNode, getNodeById, hlook, hce], ?_, by simp [h2]⟩
    show alookup m.currentId
      (aupdate ({ n with collapsed := false } : Node).id { n with collapsed := false }
        m.byId) = _
    have : ({ n with collapsed := false } : Node).id = m.currentId := hid
    rw [this]
    exact alookup_aupdate_self _ _ _
  · intro h
    have hce : canCollapse n = false := by
      rcases h with h | h
      · simp [canCollapse, hasChildren, h]
      · simp [canCollapse, h]
    simp [collapse, getCurrentNode, getNodeById, hlook, hce]
  · intro h1 h2
    have hce : canCollapse n = true := by
      have : 0 < n.childIds.length := by
        rcases hc : n.childIds with _ | _
        · exact absurd hc h1
        · simp [hc]
      simp [canCollapse, hasChildren, this, h2]
    refine ⟨setNode m { n with collapsed := true },
      by simp [collapse, getCurrentNode, getNodeById, hlook, hce], ?_, by simp [h2]⟩
    show alookup m.currentId
      (aupdate ({ n with collapsed := true } : Node).id { n with collapsed := true }
        m.byId) = _
    have : ({ n with collapsed := true } : Node).id = m.currentId := hid
    rw [this]
    exact alookup_aupdate_self _ _ _

/-- Witness for C7 on a concrete model whose current node "idA" has a child and
    is not collapsed (so `collapse` flips it and `expand` is a no-op). -/
theorem C7_collapse_gating_witness :
    alookup c7Model.currentId c7Model.byId = some (Node.mk "idA" "ta" false ["idB"]) ∧
    (((Node.mk "idA" "ta" false ["idB"]).childIds = [] ∨
        (Node.mk "idA" "ta" false ["idB"]).collapsed = false) →
      expand c7Model = some c7Model) ∧
    ((Node.mk "idA" "ta" false ["idB"]).childIds ≠ [] →
      (Node.mk "idA" "ta" false ["idB"]).collapsed = true →
      ∃ m2, expand c7Model = some m2 ∧
        alookup c7Model.currentId m2.byId
          = some { Node.mk "idA" "ta" false ["idB"] with collapsed := false } ∧
        ({ Node.mk "idA" "ta" false ["idB"] with collapsed := false } : Node).collapsed
          = (!(Node.mk "idA" "ta" false ["idB"]).collapsed)) ∧
    (((Node.mk "idA" "ta" false ["idB"]).childIds = [] ∨
        (Node.mk "idA" "ta" false ["idB"]).collapsed = true) →
      collapse c7Model = some c7Model) ∧
    ((Node.mk "idA" "ta" false ["idB"]).childIds ≠ [] →
      (Node.mk "idA" "ta" false ["idB"]).collapsed = false →
      ∃ m2, collapse c7Model = some m2 ∧
        alookup c7Model.currentId m2.byId
          = some { Node.mk "idA" "ta" false ["idB"] with collapsed := true } ∧
        ({ Node.mk "idA" "ta" false ["idB"] with collapsed := true } : Node).collapsed
          = (!(Node.mk "idA" "ta" false ["idB"]).collapsed)) :=
  ⟨by decide, C7_collapse_gating wf_c7Model (by decide)⟩

/-- Detailed effect of Add Line: beside well-formedness, the precise store
    rewrites (root case: append to the root's childIds; otherwise: splice right
    after the current id in the parent's childIds), with every other key left
    untouched. -/
theorem addNewLine_spec {m : Model} (hw : Wf m) {newId newTitle : String}
    (hfresh : newId ∉ keysOf m.byId) {n : Node}
    (hlook : alookup m.currentId m.byId = some n) :
    ∃ m2, addNewLine newId newTitle m = some m2 ∧ Wf m2 ∧
      keysOf m2.byId = keysOf m.byId ++ [newId] ∧
      m2.byId.length = m.byId.length + 1 ∧
      m2.currentId = newId ∧
      alookup newId m2.byId = some (createNewNode newId newTitle) ∧
      ((isRootNode n = true ∧
          alookup n.id m2.byId
            = some (Node.mk n.id n.title n.collapsed (n.childIds ++ [newId])) ∧
          (∀ k, k ≠ newId → k ≠ n.id → alookup k m2.byId = alookup k m.byId)) ∨
       (isRootNode n = false ∧
          ∃ np idx, getIdToPidLookup m n.id = some np.id ∧
            alookup np.id m.byId = some np ∧
            findIdxOf n.id np.childIds = some idx ∧
            alookup np.id m2.byId
              = some (Node.mk np.id np.title np.collapsed
                  (insertAt (idx + 1) newId np.childIds)) ∧
            (∀ k, k ≠ newId → k ≠ np.id → alookup k m2.byId = alookup k m.byId))) := by
  rcases addNewLine_ok hw hfresh with ⟨m2x, hrunx, hwfx, hkeysx, hcurx, hlenx⟩
  have hid : n.id = m.currentId := hw.idConsist _ (alookup_mem hlook)
  have hnk : n.id ∈ keysOf m.byId := by rw [hid]; exact hw.currentMem
  by_cases hroot : isRootNode n
  · set v : Node := { n with childIds := n.childIds ++ [newId] } with hv
    set m2 : Model := Model.mk
      (aupdate newId (createNewNode newId newTitle) (aupdate v.id v m.byId)) newId
      with hm2def
    have hrun : addNewLine newId newTitle m = some m2 := by
      simp [addNewLine, getCurrentNode, getNodeById, hlook, hroot, appendNewChild,
        setNode, createNewNode, hm2def, hv]
    have hm2e : m2 = m2x := by
      rw [hrun] at hrunx
      exact Option.some.inj hrunx
    have hvidn : v.id = n.id := rfl
    have hnne : n.id ≠ newId := fun hh => hfresh (hh ▸ hnk)
    refine ⟨m2, hrun, hm2e ▸ hwfx, hm2e ▸ hkeysx, hm2e ▸ hlenx, rfl, ?_, ?_⟩
    · show alookup newId (aupdate newId (createNewNode newId newTitle)
        (aupdate v.id v m.byId)) = _
      exact alookup_aupdate_self _ _ _
    · refine Or.inl ⟨hroot, ?_, ?_⟩
      · show alookup n.id (aupdate newId (createNewNode newId newTitle)
          (aupdate v.id v m.byId)) = _
        have e1 : alookup n.id (aupdate newId (createNewNode newId newTitle)
            (aupdate v.id v m.byId)) = alookup n.id (aupdate v.id v m.byId) :=
          alookup_aupdate_ne hnne _ _
        have e2 : alookup v.id (aupdate v.id v m.byId) = some v :=
          alookup_aupdate_self _ _ _
        exact e1.trans e2
      · intro k hk1 hk2
        show alookup k (aupdate newId (createNewNode newId newTitle)
          (aupdate v.id v m.byId)) = _
        have e1 : alookup k (aupdate newId (createNewNode newId newTitle)
            (aupdate v.id v m.byId)) = alookup k (aupdate v.id v m.byId) :=
          alookup_aupdate_ne hk1 _ _
        have e2 : alookup k (aupdate v.id v m.byId) = alookup k m.byId :=
          alookup_aupdate_ne (show k ≠ v.id from hk2) _ _
        exact e1.trans e2
  · have hnr : n.id ≠ rootNodeId := by simpa [isRootNode] using hroot
    rcases hw.parent_entry hnk hnr with ⟨np, hnp, hnpmem, hnplook, hnpin⟩
    rcases findIdxOf_isSome_of_mem hnpin with ⟨idx, hidx⟩
    set v : Node := { np with childIds := insertAt (idx + 1) newId np.childIds } with hv
    set m2 : Model := Model.mk
      (aupdate newId (createNewNode newId newTitle) (aupdate v.id v m.byId)) newId
      with hm2def
    have hrun : addNewLine newId newTitle m = some m2 := by
      simp [addNewLine, getCurrentNode, getNodeById, hlook, hroot,
        appendNewSiblingAfter, getParentOf, getParentOfId, hnp, hnplook,
        appendNodeIdAfterSiblingId, hidx, setNode, createNewNode, hm2def, hv]
    have hm2e : m2 = m2x := by
      rw [hrun] at hrunx
      exact Option.some.inj hrunx
    have hvidn : v.id = np.id := rfl
    have hnpk : np.id ∈ keysOf m.byId := mem_keysOf_of_mem hnpmem
    have hnpne : np.id ≠ newId := fun hh => hfresh (hh ▸ hnpk)
    refine ⟨m2, hrun, hm2e ▸ hwfx, hm2e ▸ hkeysx, hm2e ▸ hlenx, rfl, ?_, ?_⟩
    · show alookup newId (aupdate newId (createNewNode newId newTitle)
        (aupdate v.id v m.byId)) = _
      exact alookup_aupdate_self _ _ _
    · refine Or.inr ⟨by simpa [isRootNode] using hroot, np, idx, hnp, hnplook, hidx,
        ?_, ?_⟩
      · show alookup np.id (aupdate newId (createNewNode newId newTitle)
          (aupdate v.id v m.byId)) = _
        have e1 : alookup np.id (aupdate newId (createNewNode newId newTitle)
            (aupdate v.id v m.byId)) = alookup np.id (aupdate v.id v m.byId) :=
          alookup_aupdate_ne hnpne _ _
        have e2 : alookup v.id (aupdate v.id v m.byId) = some v :=
          alookup_aupdate_self _ _ _
        exact e1.trans e2
      · intro k hk1 hk2
        show alookup k (aupdate newId (createNewNode newId newTitle)
          (aupdate v.id v m.byId)) = _
        have e1 : alookup k (aupdate newId (createNewNode newId newTitle)
            (aupdate v.id v m.byId)) = alookup k (aupdate v.id v m.byId) :=
          alookup_aupdate_ne hk1 _ _
        have e2 : alookup k (aupdate v.id v m.byId) = alookup k m.byId :=
          alookup_aupdate_ne (show k ≠ v.id from hk2) _ _
        exact e1.trans e2

/-- C6: on a well-formed model, Add Line with a fresh id registers exactly one
    new node in byId (the new key is appended, nothing else is added): if the
    cursor is on the root the new id goes to the end of the root's childIds,
    otherwise it is spliced into the parent's childIds right after the current
    id; the cursor moves to the new id.  No other command changes the key set
    of byId. -/
theorem C6_addLine {m : Model} (hw : Wf m) (newId newTitle : String)
    (hfresh : newId ∉ keysOf m.byId) {n : Node}
    (hlook : alookup m.currentId m.byId = some n) :
    (∃ m2, addNewLine newId newTitle m = some m2 ∧
      keysOf m2.byId = keysOf m.byId ++ [newId] ∧
      alookup newId m2.byId = some (createNewNode newId newTitle) ∧
      m2.currentId = newId ∧
      ((isRootNode n = true ∧
          alookup n.id m2.byId
            = some (Node.mk n.id n.title n.collapsed (n.childIds ++ [newId]))) ∨
       (isRootNode n = false ∧
          ∃ np idx, getIdToPidLookup m n.id = some np.id ∧
            alookup np.id m.byId = some np ∧
            findIdxOf n.id np.childIds = some idx ∧
            alookup np.id m2.byId
              = some (Node.mk np.id np.title np.collapsed
                  (insertAt (idx + 1) newId np.childIds))))) ∧
    (∀ c : Cmd, (∀ i t, c ≠ Cmd.addLine i t) →
      ∀ m3, applyCmd c m = some m3 → keysOf m3.byId = keysOf m.byId) := by
  constructor
  · rcases addNewLine_spec hw hfresh hlook
      with ⟨m2, hrun, _, hkeys, _, hcur, hnew, hcase⟩
    refine ⟨m2, hrun, hkeys, hnew, hcur, ?_⟩
    rcases hcase with ⟨h1, h2, _⟩ | ⟨h1, np, idx, h2, h3, h4, h5, _⟩
    · exact Or.inl ⟨h1, h2⟩
    · exact Or.inr ⟨h1, np, idx, h2, h3, h4, h5⟩
  · intro c hc m3 hm3
    cases c with
    | addLine i t => exact absurd rfl (hc i t)
    | moveNext =>
      rcases attemptNext_ok hw with ⟨m2, hrun, hb, _⟩
      have : m3 = m2 := by
        have := hm3
        rw [show applyCmd Cmd.moveNext m = attemptNext m.byId.length m from rfl,
          hrun] at this
        exact (Option.some.inj this).symm
      rw [this, hb]
    | movePrev =>
      rcases attemptPrev_ok hw with ⟨m2, hrun, hb, _⟩
      have : m3 = m2 := by
        have := hm3
        rw [show applyCmd Cmd.movePrev m = attemptPrev m.byId.length m from rfl,
          hrun] at this
        exact (Option.some.inj this).symm
      rw [this, hb]
    | indentCmd =>
      rcases indent_ok hw with ⟨m2, hrun, _, hkeys, _, _⟩
      have : m3 = m2 := by
        have := hm3
        rw [show applyCmd Cmd.indentCmd m = indent m from rfl, hrun] at this
        exact (Option.some.inj this).symm
      rw [this, hkeys]
    | outdentCmd =>
      rcases outdent_ok hw with ⟨m2, hrun, _, hkeys, _, _⟩
      have : m3 = m2 := by
        have := hm3
        rw [show applyCmd Cmd.outdentCmd m = outdent m from rfl, hrun] at this
        exact (Option.some.inj this).symm
      rw [this, hkeys]
    | expandCmd =>
      rcases expand_ok hw with ⟨m2, hrun, _, _, hkeys, _⟩
      have : m3 = m2 := by
        have := hm3
        rw [show applyCmd Cmd.expandCmd m = expand m from rfl, hrun] at this
        exact (Option.some.inj this).symm
      rw [this, hkeys]
    | collapseCmd =>
      rcases collapse_ok hw with ⟨m2, hrun, _, _, hkeys, _⟩
      have : m3 = m2 := by
        have := hm3
        rw [show applyCmd Cmd.collapseCmd m = collapse m from rfl, hrun] at this
        exact (Option.some.inj this).symm
      rw [this, hkeys]

/-- Witness for C6 at the concrete model `c1Model` with fresh id "idC". -/
theorem C6_addLine_witness :
    "idC" ∉ keysOf c1Model.byId ∧
    alookup c1Model.currentId c1Model.byId = some (Node.mk "idB" "tb" false []) ∧
    ((∃ m2, addNewLine "idC" "tc" c1Model = some m2 ∧
      keysOf m2.byId = keysOf c1Model.byId ++ ["idC"] ∧
      alookup "idC" m2.byId = some (createNewNode "idC" "tc") ∧
      m2.currentId = "idC" ∧
      ((isRootNode (Node.mk "idB" "tb" false []) = true ∧
          alookup (Node.mk "idB" "tb" false []).id m2.byId
            = some (Node.mk (Node.mk "idB" "tb" false []).id
                (Node.mk "idB" "tb" false []).title
                (Node.mk "idB" "tb" false []).collapsed
                ((Node.mk "idB" "tb" false []).childIds ++ ["idC"]))) ∨
       (isRootNode (Node.mk "idB" "tb" false []) = false ∧
          ∃ np idx, getIdToPidLookup c1Model (Node.mk "idB" "tb" false []).id
              = some np.id ∧
            alookup np.id c1Model.byId = some np ∧
            findIdxOf (Node.mk "idB" "tb" false []).id np.childIds = some idx ∧
            alookup np.id m2.byId
              = some (Node.mk np.id np.title np.collapsed
                  (insertAt (idx + 1) "idC" np.childIds))))) ∧
    (∀ c : Cmd, (∀ i t, c ≠ Cmd.addLine i t) →
      ∀ m3, applyCmd c c1Model = some m3 → keysOf m3.byId = keysOf c1Model.byId)) :=
  ⟨by decide, by decide, C6_addLine wf_c1Model "idC" "tc" (by decide) (by decide)⟩

theorem wf_c8Model : Wf c8Model :=
  ⟨by decide, by decide, by decide, by decide, by decide, by decide, by decide,
    by decide⟩

/-- C8 counterexample: on the well-formed model `c8Model` (cursor on "pB", whose
    previous sibling "pA" is collapsed), `indent` rewrites "pA"'s collapsed flag
    from true to false — so indent is a writer of `collapsed`, refuting the claim
    that expand and collapse are the only ones. -/
theorem C8_counterexample :
    Wf c8Model ∧
    indent c8Model = some c8Result ∧
    (alookup "pA" c8Model.byId).map Node.collapsed = some true ∧
    (alookup "pA" c8Result.byId).map Node.collapsed = some false :=
  ⟨wf_c8Model, by decide, by decide, by decide⟩

/-- C8 amended: among the seven commands, expand, collapse and indent are the
    only writers of `collapsed`: addLine, moveNext, movePrev and outdent leave
    the collapsed field of every stored node unchanged (addLine, for every
    pre-existing key). -/
theorem C8_collapsed_frame {m : Model} (hw : Wf m) :
    (∀ m2, attemptNext m.byId.length m = some m2 →
      ∀ k, (alookup k m2.byId).map Node.collapsed
        = (alookup k m.byId).map Node.collapsed) ∧
    (∀ m2, attemptPrev m.byId.length m = some m2 →
      ∀ k, (alookup k m2.byId).map Node.collapsed
        = (alookup k m.byId).map Node.collapsed) ∧
    (∀ newId newTitle m2, newId ∉ keysOf m.byId →
      addNewLine newId newTitle m = some m2 →
      ∀ k, k ∈ keysOf m.byId →
        (alookup k m2.byId).map Node.collapsed
          = (alookup k m.byId).map Node.collapsed) ∧
    (∀ m2, outdent m = some m2 →
      ∀ k, (alookup k m2.byId).map Node.collapsed
        = (alookup k m.byId).map Node.collapsed) := by
  refine ⟨?_, ?_, ?_, ?_⟩
  · intro m2 hm2 k
    rcases attemptNext_ok hw with ⟨m2x, hrun, hb, _⟩
    rw [hrun] at hm2
    rw [← Option.some.inj hm2, hb]
  · intro m2 hm2 k
    rcases attemptPrev_ok hw with ⟨m2x, hrun, hb, _⟩
    rw [hrun] at hm2
    rw [← Option.some.inj hm2, hb]
  · intro newId newTitle m2 hfresh hm2 k hk
    rcases hw.entry hw.currentMem with ⟨n, hlook, hid, hmem⟩
    rcases addNewLine_spec hw hfresh hlook
      with ⟨m2x, hrun, _, _, _, _, _, hcase⟩
    rw [hrun] at hm2
    have hkne : k ≠ newId := fun hh => hfresh (hh ▸ hk)
    rw [← Option.some.inj hm2]
    rcases hcase with ⟨_, h2, hframe⟩ | ⟨_, np, idx, _, h3, _, h5, hframe⟩
    · by_cases hkn : k = n.id
      · rw [hkn, h2]
        have : alookup n.id m.byId = some n := by
          rw [hid]; exact hlook
        rw [this]
        rfl
      · rw [hframe k hkne hkn]
    · by_cases hkn : k = np.id
      · rw [hkn, h5, h3]
        rfl
      · rw [hframe k hkne hkn]
  · intro m2 hm2 k
    rcases hw.entry hw.currentMem with ⟨n, hlook, hid, hmem⟩
    by_cases hroot : isRootNode n
    · have : outdent m = some m := by
        simp [outdent, getCurrentNode, getNodeById, hlook, hroot]
      rw [this] at hm2
      rw [← Option.some.inj hm2]
    · have hnr : n.id ≠ rootNodeId := by simpa [isRootNode] using hroot
      have hnk : n.id ∈ keysOf m.byId := by rw [hid]; exact hw.currentMem
      rcases hw.parent_entry hnk hnr with ⟨np, hnp, hnpmem, hnplook, hnin⟩
      have hgpar : getParentOf n m = some np := by
        simp [getParentOf, getParentOfId, hnp, getNodeById, hnplook]
      by_cases hproot : isRootNode np
      · have : outdent m = some m := by
          simp [outdent, getCurrentNode, getNodeById, hlook, hroot, hgpar, hproot]
        rw [this] at hm2
        rw [← Option.some.inj hm2]
      · have hnpr : np.id ≠ rootNodeId := by simpa [isRootNode] using hproot
        have hnpk : np.id ∈ keysOf m.byId := mem_keysOf_of_mem hnpmem
        rcases hw.parent_entry hnpk hnpr with ⟨gp, hgp, hgpmem, hgplook, hnpin⟩
        rcases findIdxOf_isSome_of_mem hnpin with ⟨oidx, hoidx⟩
        rcases outdent_eligible hw hlook hid hroot hnp hnplook hnin hproot hgp
          hgplook hnpin hoidx with ⟨m2x, hrun, hm2x, _, _, _, _⟩
        rw [hrun] at hm2
        rw [← Option.some.inj hm2, hm2x]
        have hgpnp : gp.id ≠ np.id := by
          intro he
          have e1 : alookup np.id m.byId = some gp := by rw [← he]; exact hgplook
          rw [hnplook] at e1
          have e2 : np = gp := Option.some.inj e1
          subst e2
          exact hw.not_self_child hnpmem hnpin
        set np1 : Node := removeChildId n.id np with hnp1
        set v : Node := { gp with childIds := insertAt (oidx + 1) n.id gp.childIds }
          with hv
        by_cases hkg : k = gp.id
        · have e1 : alookup k (setNode (setNode m np1) v).byId = some v := by
            show alookup k (aupdate v.id v (setNode m np1).byId) = some v
            rw [show k = v.id from hkg]
            exact alookup_aupdate_self _ _ _
          rw [e1, hkg, hgplook]
          rfl
        · have e1 : alookup k (setNode (setNode m np1) v).byId
              = alookup k (setNode m np1).byId := by
            show alookup k (aupdate v.id v (setNode m np1).byId) = _
            exact alookup_aupdate_ne (show k ≠ v.id from hkg) _ _
          rw [e1]
          by_cases hkp : k = np.id
          · have e2 : alookup k (setNode m np1).byId = some np1 := by
              show alookup k (aupdate np1.id np1 m.byId) = some np1
              rw [show k = np1.id from hkp]
              exact alookup_aupdate_self _ _ _
            rw [e2, hkp, hnplook]
            rfl
          · have e2 : alookup k (setNode m np1).byId = alookup k m.byId := by
              show alookup k (aupdate np1.id np1 m.byId) = _
              exact alookup_aupdate_ne (show k ≠ np1.id from hkp) _ _
            rw [e2]

/-- Witness for the amended C8 at the concrete model `c8Model`. -/
theorem C8_collapsed_frame_witness :
    (∀ m2, attemptNext c8Model.byId.length c8Model = some m2 →
      ∀ k, (alookup k m2.byId).map Node.collapsed
        = (alookup k c8Model.byId).map Node.collapsed) ∧
    (∀ m2, attemptPrev c8Model.byId.length c8Model = some m2 →
      ∀ k, (alookup k m2.byId).map Node.collapsed
        = (alookup k c8Model.byId).map Node.collapsed) ∧
    (∀ newId newTitle m2, newId ∉ keysOf c8Model.byId →
      addNewLine newId newTitle c8Model = some m2 →
      ∀ k, k ∈ keysOf c8Model.byId →
        (alookup k m2.byId).map Node.collapsed
          = (alookup k c8Model.byId).map Node.collapsed) ∧
    (∀ m2, outdent c8Model = some m2 →
      ∀ k, (alookup k m2.byId).map Node.collapsed
        = (alookup k c8Model.byId).map Node.collapsed) :=
  C8_collapsed_frame wf_c8Model

/-- If the derived lookup sends `c` to `p` and `p`'s node is `np`, then `c` is
    among `np`'s children. -/
theorem parentD_child_mem {m : Model} (hw : Wf m) {c p : String} {np : Node}
    (hp : getIdToPidLookup m c = some p) (hlookp : alookup p m.byId = some np) :
    c ∈ np.childIds := by
  rcases parentD_some_mem hp with ⟨q, hq, hin, hidq⟩
  have hk := hw.idConsist _ hq
  have e : q.1 = p := hk.symm.trans hidq
  have e2 : alookup q.1 m.byId = some q.2 :=
    alookup_eq_some_of_mem (show (q.1, q.2) ∈ m.byId from hq) hw.nodupKeys
  rw [e, hlookp] at e2
  have : np = q.2 := Option.some.inj e2
  rw [this]
  exact hin

/-- C4: `indent` is a no-op when the cursor is on the root or the current node
    has no previous sibling (index 0 in its parent); otherwise it removes the
    current id from the old parent's childIds, appends it as the last element of
    the previous sibling's childIds, forces the previous sibling's collapsed
    flag to false, leaves every other node and the cursor unchanged. -/
theorem C4_indent {m : Model} (hw : Wf m) {n : Node}
    (hlook : alookup m.currentId m.byId = some n) :
    (isRootNode n = true → indent m = some m) ∧
    (∀ np idx, isRootNode n = false →
      getIdToPidLookup m n.id = some np.id → alookup np.id m.byId = some np →
      findIdxOf n.id np.childIds = some idx → idx = 0 →
      indent m = some m) ∧
    (∀ np idx S ns, isRootNode n = false →
      getIdToPidLookup m n.id = some np.id → alookup np.id m.byId = some np →
      findIdxOf n.id np.childIds = some idx → 0 < idx →
      nthId np.childIds (idx - 1) = some S → alookup S m.byId = some ns →
      ∃ m2, indent m = some m2 ∧
        alookup np.id m2.byId
          = some (Node.mk np.id np.title np.collapsed (removeAll n.id np.childIds)) ∧
        alookup S m2.byId
          = some (Node.mk S ns.title false (ns.childIds ++ [n.id])) ∧
        (∀ k, k ≠ np.id → k ≠ S → alookup k m2.byId = alookup k m.byId) ∧
        m2.currentId = m.currentId) := by
  have hid : n.id = m.currentId := hw.idConsist _ (alookup_mem hlook)
  refine ⟨?_, ?_, ?_⟩
  · intro hroot
    simp [indent, getCurrentNode, getNodeById, hlook, hroot]
  · intro np idx hroot hnp hnplook hidx hidx0
    have hprev : maybePrevSibIdOf n m = some none := by
      simp [maybePrevSibIdOf, hroot, getParentOf, getParentOfId, hnp, getNodeById,
        hnplook, maybePrevChildId, hidx, hidx0]
    simp [indent, getCurrentNode, getNodeById, hlook, hroot, hprev]
  · intro np idx S ns hroot hnp hnplook hidx hpos hS hnslook
    rcases indent_eligible hw hlook hid (by simp [hroot]) hnp hnplook hidx hpos hS
      hnslook
      with ⟨m2, hrun, hm2, _, _, _, hcur⟩
    have hnsid : ns.id = S := hw.idConsist _ (alookup_mem hnslook)
    have hSnp : S ≠ np.id := by
      rintro rfl
      exact hw.not_self_child (alookup_mem hnplook) (nthId_mem hS)
    set np1 : Node := removeChildId n.id np with hnp1
    set ns1 : Node := appendChildIdAndExpand n.id ns with hns1
    refine ⟨m2, hrun, ?_, ?_, ?_, hcur⟩
    · rw [hm2]
      have e1 : alookup np.id (setNode (setNode m np1) ns1).byId
          = alookup np.id (setNode m np1).byId := by
        show alookup np.id (aupdate ns1.id ns1 (setNode m np1).byId) = _
        refine alookup_aupdate_ne ?_ _ _
        show np.id ≠ ns.id
        rw [hnsid]
        exact fun hh => hSnp hh.symm
      have e2 : alookup np1.id (aupdate np1.id np1 m.byId) = some np1 :=
        alookup_aupdate_self _ _ _
      exact e1.trans e2
    · rw [hm2]
      have e1 : alookup ns1.id (aupdate ns1.id ns1 (setNode m np1).byId) = some ns1 :=
        alookup_aupdate_self _ _ _
      have e2 : alookup S (setNode (setNode m np1) ns1).byId = some ns1 := by
        show alookup S (aupdate ns1.id ns1 (setNode m np1).byId) = some ns1
        have eid : ns1.id = S := hnsid
        rw [← eid]
        exact e1
      rw [e2]
      show some (Node.mk ns.id ns.title false (ns.childIds ++ [n.id])) = _
      rw [hnsid]
    · intro k hk1 hk2
      rw [hm2]
      have e1 : alookup k (setNode (setNode m np1) ns1).byId
          = alookup k (setNode m np1).byId := by
        show alookup k (aupdate ns1.id ns1 (setNode m np1).byId) = _
        refine alookup_aupdate_ne ?_ _ _
        show k ≠ ns.id
        rw [hnsid]
        exact hk2
      have e2 : alookup k (setNode m np1).byId = alookup k m.byId := by
        show alookup k (aupdate np1.id np1 m.byId) = _
        exact alookup_aupdate_ne (show k ≠ np1.id from hk1) _ _
      exact e1.trans e2

/-- Witness for C4 on `c8Model`: cursor "pB" has previous sibling "pA". -/
theorem C4_indent_witness :
    alookup c8Model.currentId c8Model.byId = some (Node.mk "pB" "u" false []) ∧
    ((isRootNode (Node.mk "pB" "u" false []) = true → indent c8Model = some c8Model) ∧
     (∀ np idx, isRootNode (Node.mk "pB" "u" false []) = false →
       getIdToPidLookup c8Model (Node.mk "pB" "u" false []).id = some np.id →
       alookup np.id c8Model.byId = some np →
       findIdxOf (Node.mk "pB" "u" false []).id np.childIds = some idx → idx = 0 →
       indent c8Model = some c8Model) ∧
     (∀ np idx S ns, isRootNode (Node.mk "pB" "u" false []) = false →
       getIdToPidLookup c8Model (Node.mk "pB" "u" false []).id = some np.id →
       alookup np.id c8Model.byId = some np →
       findIdxOf (Node.mk "pB" "u" false []).id np.childIds = some idx → 0 < idx →
       nthId np.childIds (idx - 1) = some S → alookup S c8Model.byId = some ns →
       ∃ m2, indent c8Model = some m2 ∧
         alookup np.id m2.byId
           = some (Node.mk np.id np.title np.collapsed
               (removeAll (Node.mk "pB" "u" false []).id np.childIds)) ∧
         alookup S m2.byId
           = some (Node.mk S ns.title false
               (ns.childIds ++ [(Node.mk "pB" "u" false []).id])) ∧
         (∀ k, k ≠ np.id → k ≠ S → alookup k m2.byId = alookup k c8Model.byId) ∧
         m2.currentId = c8Model.currentId)) :=
  ⟨by decide, C4_indent wf_c8Model (by decide)⟩

/-- C5: `outdent` is a no-op when the cursor is on the root or the current
    node's parent is the root; otherwise it removes the current id from the
    parent's childIds and splices it into the grandparent's childIds right
    after the parent's position, leaving every other node and the cursor
    unchanged. -/
theorem C5_outdent {m : Model} (hw : Wf m) {n : Node}
    (hlook : alookup m.currentId m.byId = some n) :
    (isRootNode n = true → outdent m = some m) ∧
    (∀ np, isRootNode n = false →
      getIdToPidLookup m n.id = some np.id → alookup np.id m.byId = some np →
      isRootNode np = true → outdent m = some m) ∧
    (∀ np gp oidx, isRootNode n = false →
      getIdToPidLookup m n.id = some np.id → alookup np.id m.byId = some np →
      isRootNode np = false →
      getIdToPidLookup m np.id = some gp.id → alookup gp.id m.byId = some gp →
      findIdxOf np.id gp.childIds = some oidx →
      ∃ m2, outdent m = some m2 ∧
        alookup np.id m2.byId
          = some (Node.mk np.id np.title np.collapsed (removeAll n.id np.childIds)) ∧
        alookup gp.id m2.byId
          = some (Node.mk gp.id gp.title gp.collapsed
              (insertAt (oidx + 1) n.id gp.childIds)) ∧
        (∀ k, k ≠ np.id → k ≠ gp.id → alookup k m2.byId = alookup k m.byId) ∧
        m2.currentId = m.currentId) := by
  have hid : n.id = m.currentId := hw.idConsist _ (alookup_mem hlook)
  refine ⟨?_, ?_, ?_⟩
  · intro hroot
    simp [outdent, getCurrentNode, getNodeById, hlook, hroot]
  · intro np hroot hnp hnplook hproot
    have hgpar : getParentOf n m = some np := by
      simp [getParentOf, getParentOfId, hnp, getNodeById, hnplook]
    simp [outdent, getCurrentNode, getNodeById, hlook, hroot, hgpar, hproot]
  · intro np gp oidx hroot hnp hnplook hproot hgp hgplook hoidx
    have hnin : n.id ∈ np.childIds := parentD_child_mem hw hnp hnplook
    have hnpin : np.id ∈ gp.childIds := parentD_child_mem hw hgp hgplook
    rcases outdent_eligible hw hlook hid (by simp [hroot]) hnp hnplook hnin
      (by simp [hproot]) hgp hgplook hnpin hoidx
      with ⟨m2, hrun, hm2, _, _, _, hcur⟩
    have hgpnp : gp.id ≠ np.id := by
      intro he
      have e1 : alookup np.id m.byId = some gp := by rw [← he]; exact hgplook
      rw [hnplook] at e1
      have e2 : np = gp := Option.some.inj e1
      subst e2
      exact hw.not_self_child (alookup_mem hnplook) hnpin
    set np1 : Node := removeChildId n.id np with hnp1
    set v : Node := { gp with childIds := insertAt (oidx + 1) n.id gp.childIds }
      with hv
    refine ⟨m2, hrun, ?_, ?_, ?_, hcur⟩
    · rw [hm2]
      have e1 : alookup np.id (setNode (setNode m np1) v).byId
          = alookup np.id (setNode m np1).byId := by
        show alookup np.id (aupdate v.id v (setNode m np1).byId) = _
        refine alookup_aupdate_ne ?_ _ _
        show np.id ≠ gp.id
        exact fun hh => hgpnp hh.symm
      have e2 : alookup np1.id (aupdate np1.id np1 m.byId) = some np1 :=
        alookup_aupdate_self _ _ _
      exact e1.trans e2
    · rw [hm2]
      show alookup gp.id (aupdate v.id v (setNode m np1).byId) = _
      have e1 : alookup v.id (aupdate v.id v (setNode m np1).byId) = some v :=
        alookup_aupdate_self _ _ _
      exact e1
    · intro k hk1 hk2
      rw [hm2]
      have e1 : alookup k (setNode (setNode m np1) v).byId
          = alookup k (setNode m np1).byId := by
        show alookup k (aupdate v.id v (setNode m np1).byId) = _
        exact alookup_aupdate_ne (show k ≠ v.id from hk2) _ _
      have e2 : alookup k (setNode m np1).byId = alookup k m.byId := by
        show alookup k (aupdate np1.id np1 m.byId) = _
        exact alookup_aupdate_ne (show k ≠ np1.id from hk1) _ _
      exact e1.trans e2

/-- Witness for C5 on `c1Model`: cursor "idB" sits below "idA" below the root. -/
theorem C5_outdent_witness :
    alookup c1Model.currentId c1Model.byId = some (Node.mk "idB" "tb" false []) ∧
    ((isRootNode (Node.mk "idB" "tb" false []) = true →
        outdent c1Model = some c1Model) ∧
     (∀ np, isRootNode (Node.mk "idB" "tb" false []) = false →
       getIdToPidLookup c1Model (Node.mk "idB" "tb" false []).id = some np.id →
       alookup np.id c1Model.byId = some np →
       isRootNode np = true → outdent c1Model = some c1Model) ∧
     (∀ np gp oidx, isRootNode (Node.mk "idB" "tb" false []) = false →
       getIdToPidLookup c1Model (Node.mk "idB" "tb" false []).id = some np.id →
       alookup np.id c1Model.byId = some np →
       isRootNode np = false →
       getIdToPidLookup c1Model np.id = some gp.id →
       alookup gp.id c1Model.byId = some gp →
       findIdxOf np.id gp.childIds = some oidx →
       ∃ m2, outdent c1Model = some m2 ∧
         alookup np.id m2.byId
           = some (Node.mk np.id np.title np.collapsed
               (removeAll (Node.mk "idB" "tb" false []).id np.childIds)) ∧
         alookup gp.id m2.byId
           = some (Node.mk gp.id gp.title gp.collapsed
               (insertAt (oidx + 1) (Node.mk "idB" "tb" false []).id gp.childIds)) ∧
         (∀ k, k ≠ np.id → k ≠ gp.id → alookup k m2.byId = alookup k c1Model.byId) ∧
         m2.currentId = c1Model.currentId)) :=
  ⟨by decide, C5_outdent wf_c1Model (by decide)⟩

theorem removeAll_of_not_mem {x : String} {l : List String} (h : x ∉ l) :
    removeAll x l = l := by
  induction l with
  | nil => rfl
  | cons y t ih =>
    have hy : ¬ y = x := fun hh => h (by rw [hh]; exact List.mem_cons_self _ _)
    simp only [removeAll, if_neg hy]
    rw [ih (fun hm => h (List.mem_cons_of_mem _ hm))]

theorem removeAll_append (x : String) (l1 l2 : List String) :
    removeAll x (l1 ++ l2) = removeAll x l1 ++ removeAll x l2 := by
  induction l1 with
  | nil => rfl
  | cons y t ih =>
    by_cases h : y = x <;> simp [removeAll, h, ih]

/-- Removing the unique occurrence of `x` and re-inserting it at the same index
    restores the original list. -/
theorem insertAt_removeAll {x : String} {l : List String} {i : Nat}
    (hn : nthId l i = some x) (hc : countOcc x l = 1) :
    insertAt i x (removeAll x l) = l := by
  induction l generalizing i with
  | nil => simp [nthId] at hn
  | cons y t ih =>
    cases i with
    | zero =>
      simp [nthId] at hn
      subst hn
      rw [countOcc_cons, if_pos rfl] at hc
      have hnm : y ∉ t := (countOcc_eq_zero_iff y t).mp (by omega)
      have e : removeAll y (y :: t) = t := by
        show (if y = y then removeAll y t else y :: removeAll y t) = t
        rw [if_pos rfl, removeAll_of_not_mem hnm]
      show insertAt 0 y (removeAll y (y :: t)) = y :: t
      rw [e]
      rfl
    | succ i =>
      have hnt : nthId t i = some x := hn
      by_cases hy : y = x
      · exfalso
        have hpos := countOcc_pos_of_mem (nthId_mem hnt)
        rw [countOcc_cons, if_pos hy] at hc
        omega
      · rw [countOcc_cons, if_neg hy] at hc
        simp only [removeAll, if_neg hy]
        show y :: insertAt i x (removeAll x t) = y :: t
        rw [ih hnt (by omega)]

/-- Entries strictly before the unique occurrence of `x` keep their index after
    `removeAll x`. -/
theorem nthId_removeAll_lt {x : String} {l : List String} {i j : Nat}
    (hn : nthId l i = some x) (hc : countOcc x l = 1) (hj : j < i) :
    nthId (removeAll x l) j = nthId l j := by
  induction l generalizing i j with
  | nil => simp [nthId] at hn
  | cons y t ih =>
    cases i with
    | zero => omega
    | succ i =>
      have hnt : nthId t i = some x := hn
      by_cases hy : y = x
      · exfalso
        have hpos := countOcc_pos_of_mem (nthId_mem hnt)
        rw [countOcc_cons, if_pos hy] at hc
        omega
      · rw [countOcc_cons, if_neg hy] at hc
        simp only [removeAll, if_neg hy]
        cases j with
        | zero => rfl
        | succ j =>
          show nthId (removeAll x t) j = nthId t j
          exact ih hnt (by omega) (by omega)

/-- C3: on an indent-eligible well-formed model (current node has a previous
    sibling), `indent` followed by `outdent` restores the current node's
    original parent entirely — the parent's childIds list, hence the node's
    position among its prior neighbors, is exactly as before — restores the
    cursor, and leaves every node other than the old parent and the previous
    sibling unchanged (the previous sibling keeps its restored childIds but its
    collapsed flag is forced to false by indent). -/
theorem C3_indent_outdent_inverse {m : Model} (hw : Wf m) {n np ns : Node}
    {idx : Nat} {S : String}
    (hlook : alookup m.currentId m.byId = some n)
    (hroot : isRootNode n = false)
    (hnp : getIdToPidLookup m n.id = some np.id)
    (hnplook : alookup np.id m.byId = some np)
    (hidx : findIdxOf n.id np.childIds = some idx)
    (hpos : 0 < idx)
    (hS : nthId np.childIds (idx - 1) = some S)
    (hnslook : alookup S m.byId = some ns) :
    ∃ m2 m3, indent m = some m2 ∧ outdent m2 = some m3 ∧
      getIdToPidLookup m3 n.id = some np.id ∧
      alookup np.id m3.byId = some np ∧
      alookup S m3.byId = some (Node.mk S ns.title false ns.childIds) ∧
      (∀ k, k ≠ np.id → k ≠ S → alookup k m3.byId = alookup k m.byId) ∧
      m3.currentId = m.currentId := by
  have hid : n.id = m.currentId := hw.idConsist _ (alookup_mem hlook)
  have hnidx : nthId np.childIds idx = some n.id := findIdxOf_nthId hidx
  have hnmem : n.id ∈ np.childIds := nthId_mem hnidx
  have hnnp : n.id ≠ np.id :=
    fun he => hw.not_self_child (alookup_mem hnplook) (he ▸ hnmem)
  have hSmem : S ∈ np.childIds := nthId_mem hS
  have hSkeys : S ∈ keysOf m.byId := hw.childClosed _ (alookup_mem hnplook) _ hSmem
  have hnkeys : n.id ∈ keysOf m.byId := by rw [hid]; exact hw.currentMem
  have hnroot : n.id ≠ rootNodeId := by simpa [isRootNode] using hroot
  have hcPn : countParents n.id m.byId = 1 := hw.parentsUnique _ hnkeys hnroot
  have hcount_n : countOcc n.id np.childIds = 1 := by
    have h1 : countOcc n.id np.childIds ≤ countParents n.id m.byId :=
      countOcc_le_countParents (alookup_mem hnplook)
    have h2 := countOcc_pos_of_mem hnmem
    omega
  have hSn : S ≠ n.id := by
    intro he
    subst he
    have h2 := countOcc_two_of_nthId_ne hS hnidx (by omega)
    omega
  have hSnp : S ≠ np.id :=
    fun he => hw.not_self_child (alookup_mem hnplook) (he ▸ hSmem)
  have hSroot : S ≠ rootNodeId := by
    intro he
    subst he
    have h1 : countOcc rootNodeId np.childIds ≤ countParents rootNodeId m.byId :=
      countOcc_le_countParents (alookup_mem hnplook)
    have h2 : 0 < countOcc rootNodeId np.childIds := countOcc_pos_of_mem hSmem
    rw [hw.rootParents] at h1
    omega
  have hcPS : countParents S m.byId = 1 := hw.parentsUnique _ hSkeys hSroot
  have hcount_S : countOcc S np.childIds = 1 := by
    have h1 : countOcc S np.childIds ≤ countParents S m.byId :=
      countOcc_le_countParents (alookup_mem hnplook)
    have h2 := countOcc_pos_of_mem hSmem
    omega
  have hnsid : ns.id = S := hw.idConsist _ (alookup_mem hnslook)
  have hnotin_ns : n.id ∉ ns.childIds := by
    intro he
    have h1 : countOcc n.id np.childIds + countOcc n.id ns.childIds
        ≤ countParents n.id m.byId :=
      countOcc_two_entries_le (alookup_mem hnplook) (alookup_mem hnslook)
        (fun hh => hSnp hh.symm)
    have h2 := countOcc_pos_of_mem he
    omega
  rcases indent_eligible hw hlook hid (by simp [hroot]) hnp hnplook hidx hpos hS
    hnslook with ⟨m2, hrun2, hm2, hwf2, hkeys2, _, hcur2⟩
  set np1 : Node := removeChildId n.id np with hnp1
  set ns1 : Node := appendChildIdAndExpand n.id ns with hns1
  have hnp1_m2 : alookup np.id m2.byId = some np1 := by
    rw [hm2]
    have e1 : alookup np.id (setNode (setNode m np1) ns1).byId
        = alookup np.id (setNode m np1).byId := by
      show alookup np.id (aupdate ns1.id ns1 (setNode m np1).byId) = _
      refine alookup_aupdate_ne ?_ _ _
      show np.id ≠ ns.id
      rw [hnsid]
      exact fun hh => hSnp hh.symm
    have e2 : alookup np1.id (aupdate np1.id np1 m.byId) = some np1 :=
      alookup_aupdate_self _ _ _
    exact e1.trans e2
  have hns1_m2 : alookup S m2.byId = some ns1 := by
    rw [hm2]
    have e1 : alookup ns1.id (aupdate ns1.id ns1 (setNode m np1).byId) = some ns1 :=
      alookup_aupdate_self _ _ _
    show alookup S (aupdate ns1.id ns1 (setNode m np1).byId) = some ns1
    have eid : ns1.id = S := hnsid
    rw [← eid]
    exact e1
  have hframe2 : ∀ k, k ≠ np.id → k ≠ S → alookup k m2.byId = alookup k m.byId := by
    intro k hk1 hk2
    rw [hm2]
    have e1 : alookup k (setNode (setNode m np1) ns1).byId
        = alookup k (setNode m np1).byId := by
      show alookup k (aupdate ns1.id ns1 (setNode m np1).byId) = _
      refine alookup_aupdate_ne ?_ _ _
      show k ≠ ns.id
      rw [hnsid]
      exact hk2
    have e2 : alookup k (setNode m np1).byId = alookup k m.byId := by
      show alookup k (aupdate np1.id np1 m.byId) = _
      exact alookup_aupdate_ne (show k ≠ np1.id from hk1) _ _
    exact e1.trans e2
  have hn_m2 : alookup n.id m2.byId = some n := by
    rw [hframe2 n.id hnnp (fun hh => hSn hh.symm), hid]
    exact hlook
  have hlook2 : alookup m2.currentId m2.byId = some n := by
    rw [hcur2, ← hid]
    exact hn_m2
  have hid2 : n.id = m2.currentId := by rw [hcur2]; exact hid
  have hm2mem_np : (np.id, np1) ∈ m2.byId := alookup_mem hnp1_m2
  have hm2mem_ns : (S, ns1) ∈ m2.byId := alookup_mem hns1_m2
  have hnkeys2 : n.id ∈ keysOf m2.byId := by rw [hkeys2]; exact hnkeys
  have hSkeys2 : S ∈ keysOf m2.byId := by rw [hkeys2]; exact hSkeys
  have hcP2n : countParents n.id m2.byId = 1 := hwf2.parentsUnique _ hnkeys2 hnroot
  have hcP2S : countParents S m2.byId = 1 := hwf2.parentsUnique _ hSkeys2 hSroot
  have hnin_ns1 : n.id ∈ ns1.childIds := by
    show n.id ∈ ns.childIds ++ [n.id]
    simp
  have hp2n : getIdToPidLookup m2 n.id = some ns1.id :=
    parentD_eq_of_count_one hcP2n hm2mem_ns hnin_ns1
  have hSin_np1 : S ∈ np1.childIds := by
    show S ∈ removeAll n.id np.childIds
    refine mem_of_countOcc_pos ?_
    rw [countOcc_removeAll_ne hSn]
    exact countOcc_pos_of_mem hSmem
  have hgp2 : getIdToPidLookup m2 S = some np1.id :=
    parentD_eq_of_count_one hcP2S hm2mem_np hSin_np1
  have eid1 : ns1.id = S := hnsid
  have hproot2 : ¬ isRootNode ns1 := by
    intro hb
    have hbb : ns1.id = rootNodeId := by simpa [isRootNode] using hb
    exact hSroot (eid1 ▸ hbb)
  have hnplook2 : alookup ns1.id m2.byId = some ns1 := by rw [eid1]; exact hns1_m2
  have hgp2x : getIdToPidLookup m2 ns1.id = some np1.id := by rw [eid1]; exact hgp2
  have hgplook2 : alookup np1.id m2.byId = some np1 := hnp1_m2
  have hnpin2 : ns1.id ∈ np1.childIds := by rw [eid1]; exact hSin_np1
  have hoidx2 : findIdxOf ns1.id np1.childIds = some (idx - 1) := by
    rw [eid1]
    show findIdxOf S (removeAll n.id np.childIds) = some (idx - 1)
    refine findIdxOf_eq_some_of_unique ?_ ?_
    · rw [nthId_removeAll_lt hnidx hcount_n (by omega)]
      exact hS
    · rw [countOcc_removeAll_ne hSn]
      exact hcount_S
  rcases outdent_eligible hwf2 hlook2 hid2 (by simp [hroot]) hp2n hnplook2 hnin_ns1
    hproot2 hgp2x hgplook2 hnpin2 hoidx2
    with ⟨m3, hrun3, hm3, hwf3, hkeys3, _, hcur3⟩
  set ns2 : Node := removeChildId n.id ns1 with hns2
  set npR : Node := { np1 with childIds := insertAt (idx - 1 + 1) n.id np1.childIds }
    with hnpRdef
  have hins : insertAt (idx - 1 + 1) n.id (removeAll n.id np.childIds)
      = np.childIds := by
    have e2 : idx - 1 + 1 = idx := by omega
    rw [e2]
    exact insertAt_removeAll hnidx hcount_n
  have hnpR : npR = np := by
    rw [hnpRdef]
    show Node.mk np.id np.title np.collapsed
      (insertAt (idx - 1 + 1) n.id (removeAll n.id np.childIds)) = np
    rw [hins]
  have hrmS : removeAll n.id (ns.childIds ++ [n.id]) = ns.childIds := by
    rw [removeAll_append, removeAll_of_not_mem hnotin_ns]
    simp [removeAll]
  have ha : alookup np.id m3.byId = some np := by
    rw [hm3]
    have e1 : alookup npR.id (aupdate npR.id npR (setNode m2 ns2).byId) = some npR :=
      alookup_aupdate_self _ _ _
    have e2 : alookup np.id (setNode (setNode m2 ns2) npR).byId = some npR := by
      show alookup np.id (aupdate npR.id npR (setNode m2 ns2).byId) = some npR
      exact e1
    rw [e2, hnpR]
  have hb : alookup S m3.byId = some (Node.mk S ns.title false ns.childIds) := by
    rw [hm3]
    have e1 : alookup S (setNode (setNode m2 ns2) npR).byId
        = alookup S (setNode m2 ns2).byId := by
      show alookup S (aupdate npR.id npR (setNode m2 ns2).byId) = _
      refine alookup_aupdate_ne ?_ _ _
      show S ≠ np.id
      exact hSnp
    have e2 : alookup ns2.id (aupdate ns2.id ns2 m2.byId) = some ns2 :=
      alookup_aupdate_self _ _ _
    have e3 : alookup S (setNode m2 ns2).byId = some ns2 := by
      show alookup S (aupdate ns2.id ns2 m2.byId) = some ns2
      have eid2 : ns2.id = S := hnsid
      rw [← eid2]
      exact e2
    rw [e1, e3]
    show some (Node.mk ns.id ns.title false (removeAll n.id (ns.childIds ++ [n.id])))
      = _
    rw [hrmS, hnsid]
  have hnkeys3 : n.id ∈ keysOf m3.byId := by rw [hkeys3, hkeys2]; exact hnkeys
  have hcP3n : countParents n.id m3.byId = 1 := hwf3.parentsUnique _ hnkeys3 hnroot
  have hc : getIdToPidLookup m3 n.id = some np.id :=
    parentD_eq_of_count_one hcP3n (alookup_mem ha) hnmem
  have hd : ∀ k, k ≠ np.id → k ≠ S → alookup k m3.byId = alookup k m.byId := by
    intro k hk1 hk2
    rw [hm3]
    have e1 : alookup k (setNode (setNode m2 ns2) npR).byId
        = alookup k (setNode m2 ns2).byId := by
      show alookup k (aupdate npR.id npR (setNode m2 ns2).byId) = _
      exact alookup_aupdate_ne (show k ≠ np.id from hk1) _ _
    have e2 : alookup k (setNode m2 ns2).byId = alookup k m2.byId := by
      show alookup k (aupdate ns2.id ns2 m2.byId) = _
      refine alookup_aupdate_ne ?_ _ _
      show k ≠ ns.id
      rw [hnsid]
      exact hk2
    rw [e1, e2]
    exact hframe2 k hk1 hk2
  exact ⟨m2, m3, hrun2, hrun3, hc, ha, hb, hd, hcur3.trans hcur2⟩

/-- Witness for C3 on `c8Model`: indenting "pB" under "pA" and outdenting
    restores the root's children list ["pA", "pB"]. -/
theorem C3_indent_outdent_inverse_witness :
    alookup c8Model.currentId c8Model.byId = some (Node.mk "pB" "u" false []) ∧
    (∃ m2 m3, indent c8Model = some m2 ∧ outdent m2 = some m3 ∧
      getIdToPidLookup m3 "pB" = some "id_root" ∧
      alookup "id_root" m3.byId
        = some (Node.mk "id_root" "Root" false ["pA", "pB"]) ∧
      alookup "pA" m3.byId = some (Node.mk "pA" "t" false []) ∧
      (∀ k, k ≠ "id_root" → k ≠ "pA" →
        alookup k m3.byId = alookup k c8Model.byId) ∧
      m3.currentId = c8Model.currentId) :=
  ⟨by decide,
    @C3_indent_outdent_inverse c8Model wf_c8Model (Node.mk "pB" "u" false [])
      (Node.mk "id_root" "Root" false ["pA", "pB"]) (Node.mk "pA" "t" true [])
      1 "pA" (by decide) (by decide) (by decide) (by decide) (by decide)
      (by decide) (by decide) (by decide)⟩

theorem lastElem_of_nthId {l : List String} {j : Nat} {x : String}
    (h : nthId l j = some x) (hj : j + 1 = l.length) : lastElem l = some x := by
  induction l generalizing j with
  | nil => simp [nthId] at h
  | cons y t ih =>
    cases t with
    | nil =>
      have hj0 : j = 0 := by simp at hj; omega
      subst hj0
      simp [nthId] at h
      simp [lastElem, h]
    | cons z t2 =>
      cases j with
      | zero => simp [List.length_cons] at hj
      | succ j =>
        show lastElem (z :: t2) = some x
        refine ih h ?_
        simp [List.length_cons] at hj ⊢
        omega

theorem head?_eq_nthId_zero (l : List String) : l.head? = nthId l 0 := by
  cases l <;> rfl

theorem lastDesc_succ (f : Nat) (k : String) (m : Model) :
    getLastDescendentIdOrSelf (f + 1) k m
      = (getNodeById k m).bind fun n =>
        match lastElem n.childIds with
        | none => some k
        | some c => getLastDescendentIdOrSelf f c m := rfl

theorem nsofa_succ (f : Nat) (n : Node) (m : Model) :
    maybeNextSibOfFirstAncestor (f + 1) n m
      = match maybeParentIdOf n m with
        | none => some none
        | some pid =>
          (getNodeById pid m).bind fun parent =>
          (maybeNextSibIdOf parent m).bind fun mb =>
          match mb with
          | some i => some (some i)
          | none => maybeNextSibOfFirstAncestor f parent m := rfl

/-- More fuel never changes a successful `getLastDescendentIdOrSelf` run. -/
theorem lastDesc_mono {m : Model} : ∀ (g g2 : Nat) (k r : String),
    getLastDescendentIdOrSelf g k m = some r → g ≤ g2 →
    getLastDescendentIdOrSelf g2 k m = some r := by
  intro g
  induction g with
  | zero => intro g2 k r hg; simp [getLastDescendentIdOrSelf] at hg
  | succ f ih =>
    intro g2 k r hg hle
    rcases g2 with _ | f2
    · omega
    rw [lastDesc_succ] at hg
    rw [lastDesc_succ]
    rcases hx : getNodeById k m with _ | nd
    · rw [hx] at hg
      simp at hg
    · rw [hx] at hg
      simp only [Option.some_bind] at hg ⊢
      rcases hc : lastElem nd.childIds with _ | c
      · rw [hc] at hg
        exact hg
      · rw [hc] at hg
        exact ih f2 c r hg (by omega)

/-- More fuel never changes a successful `maybeNextSibOfFirstAncestor` run. -/
theorem nsofa_mono {m : Model} : ∀ (g g2 : Nat) (n : Node) (r : Option String),
    maybeNextSibOfFirstAncestor g n m = some r → g ≤ g2 →
    maybeNextSibOfFirstAncestor g2 n m = some r := by
  intro g
  induction g with
  | zero => intro g2 n r hg; simp [maybeNextSibOfFirstAncestor] at hg
  | succ f ih =>
    intro g2 n r hg hle
    rcases g2 with _ | f2
    · omega
    rw [nsofa_succ] at hg
    rw [nsofa_succ]
    rcases hp : maybeParentIdOf n m with _ | pid
    · rw [hp] at hg
      exact hg
    · rw [hp] at hg
      have hg2 : ((getNodeById pid m).bind fun parent =>
          (maybeNextSibIdOf parent m).bind fun mb =>
          match mb with
          | some i => some (some i)
          | none => maybeNextSibOfFirstAncestor f parent m) = some r := hg
      show ((getNodeById pid m).bind fun parent =>
          (maybeNextSibIdOf parent m).bind fun mb =>
          match mb with
          | some i => some (some i)
          | none => maybeNextSibOfFirstAncestor f2 parent m) = some r
      rcases hx : getNodeById pid m with _ | parent
      · rw [hx] at hg2
        simp at hg2
      · rw [hx] at hg2
        simp only [Option.some_bind] at hg2 ⊢
        rcases hmb : maybeNextSibIdOf parent m with _ | mb
        · rw [hmb] at hg2
          simp at hg2
        · rw [hmb] at hg2
          simp only [Option.some_bind] at hg2 ⊢
          rcases mb with _ | i
          · exact ih f2 parent r hg2 (by omega)
          · exact hg2

theorem getNodeById_congr {m m2 : Model} (h : m2.byId = m.byId) (k : String) :
    getNodeById k m2 = getNodeById k m := by
  unfold getNodeById
  rw [h]

theorem getParentOf_congr {m m2 : Model} (h : m2.byId = m.byId) (n : Node) :
    getParentOf n m2 = getParentOf n m := by
  unfold getParentOf getParentOfId
  rw [parentD_byId_congr h]
  simp only [getNodeById_congr h]

theorem maybeParentIdOf_congr {m m2 : Model} (h : m2.byId = m.byId) (n : Node) :
    maybeParentIdOf n m2 = maybeParentIdOf n m := by
  unfold maybeParentIdOf
  exact parentD_byId_congr h n.id

theorem nextSib_congr {m m2 : Model} (h : m2.byId = m.byId) (n : Node) :
    maybeNextSibIdOf n m2 = maybeNextSibIdOf n m := by
  unfold maybeNextSibIdOf
  rw [getParentOf_congr h]

theorem prevSib_congr {m m2 : Model} (h : m2.byId = m.byId) (n : Node) :
    maybePrevSibIdOf n m2 = maybePrevSibIdOf n m := by
  unfold maybePrevSibIdOf
  rw [getParentOf_congr h]

theorem nsofa_congr {m m2 : Model} (h : m2.byId = m.byId) :
    ∀ (fuel : Nat) (n : Node),
      maybeNextSibOfFirstAncestor fuel n m2 = maybeNextSibOfFirstAncestor fuel n m := by
  intro fuel
  induction fuel with
  | zero => intro n; rfl
  | succ f ih =>
    intro n
    rw [nsofa_succ, nsofa_succ, maybeParentIdOf_congr h]
    rcases hp : maybeParentIdOf n m with _ | pid
    · rfl
    · show ((getNodeById pid m2).bind fun parent =>
          (maybeNextSibIdOf parent m2).bind fun mb =>
          match mb with
          | some i => some (some i)
          | none => maybeNextSibOfFirstAncestor f parent m2)
        = ((getNodeById pid m).bind fun parent =>
          (maybeNextSibIdOf parent m).bind fun mb =>
          match mb with
          | some i => some (some i)
          | none => maybeNextSibOfFirstAncestor f parent m)
      rw [getNodeById_congr h]
      rcases hx : getNodeById pid m with _ | parent
      · rfl
      · simp only [Option.some_bind]
        rw [nextSib_congr h]
        rcases hmb : maybeNextSibIdOf parent m with _ | mb
        · rfl
        · simp only [Option.some_bind]
          rcases mb with _ | i
          · exact ih parent
          · rfl

theorem lastDesc_congr {m m2 : Model} (h : m2.byId = m.byId) :
    ∀ (fuel : Nat) (k : String),
      getLastDescendentIdOrSelf fuel k m2 = getLastDescendentIdOrSelf fuel k m := by
  intro fuel
  induction fuel with
  | zero => intro k; rfl
  | succ f ih =>
    intro k
    rw [lastDesc_succ, lastDesc_succ, getNodeById_congr h]
    rcases hx : getNodeById k m with _ | nd
    · rfl
    simp only [Option.some_bind]
    rcases hc : lastElem nd.childIds with _ | c
    · rfl
    · exact ih c

theorem nextCandidate_congr {m m2 : Model} (h : m2.byId = m.byId)
    (fuel : Nat) (n : Node) :
    nextCandidate fuel n m2 = nextCandidate fuel n m := by
  unfold nextCandidate
  rcases hh : maybeFirstChildIdOf n with _ | c
  · rw [nextSib_congr h]
    rcases hmb : maybeNextSibIdOf n m with _ | mb
    · rfl
    simp only [Option.some_bind]
    rcases mb with _ | i
    · exact nsofa_congr h fuel n
    · rfl
  · rfl

theorem isRootNode_false_of_ne {n : Node} {k : String} (hid : n.id = k)
    (h : k ≠ rootNodeId) : isRootNode n = false := by
  have : decide (n.id = rootNodeId) = false := decide_eq_false (by rw [hid]; exact h)
  exact this

/-- Facts about any id stored in some node's childIds list of a well-formed
    model: it is a key, not the root, occurs once in that list, has exactly one
    parent overall, and the derived lookup resolves it to that node. -/
theorem child_facts {m : Model} (hw : Wf m) {np : Node}
    (hnpmem : (np.id, np) ∈ m.byId) {x : String} (hx : x ∈ np.childIds) :
    x ∈ keysOf m.byId ∧ x ≠ rootNodeId ∧ countOcc x np.childIds = 1 ∧
    countParents x m.byId = 1 ∧ getIdToPidLookup m x = some np.id := by
  have hk : x ∈ keysOf m.byId := hw.childClosed _ hnpmem _ hx
  have hr : x ≠ rootNodeId := by
    intro he
    subst he
    have h1 : countOcc rootNodeId np.childIds ≤ countParents rootNodeId m.byId :=
      countOcc_le_countParents hnpmem
    have h2 : 0 < countOcc rootNodeId np.childIds := countOcc_pos_of_mem hx
    rw [hw.rootParents] at h1
    omega
  have hcp : countParents x m.byId = 1 := hw.parentsUnique _ hk hr
  have hco : countOcc x np.childIds = 1 := by
    have h1 : countOcc x np.childIds ≤ countParents x m.byId :=
      countOcc_le_countParents hnpmem
    have h2 := countOcc_pos_of_mem hx
    omega
  exact ⟨hk, hr, hco, hcp, parentD_eq_of_count_one hcp hnpmem hx⟩

theorem lastDesc_childless {m : Model} {k : String} {n : Node}
    (hk : alookup k m.byId = some n) (hc : n.childIds = []) {f : Nat}
    (hf : 0 < f) : getLastDescendentIdOrSelf f k m = some k := by
  rcases f with _ | f2
  · omega
  · rw [lastDesc_succ]
    rw [show getNodeById k m = some n from hk]
    simp only [Option.some_bind]
    rw [show lastElem n.childIds = none from by rw [hc]; rfl]

/-- A node whose `maybeNextSibIdOf` answers "no next sibling" is the last child
    of its parent. -/
theorem nextSib_none_last {m : Model} {n P : Node}
    (hroot : isRootNode n = false)
    (hgp : getParentOf n m = some P)
    (hnsn : maybeNextSibIdOf n m = some none) :
    lastElem P.childIds = some n.id := by
  unfold maybeNextSibIdOf at hnsn
  rw [if_neg (by simp [hroot])] at hnsn
  rw [hgp] at hnsn
  simp only [Option.some_bind] at hnsn
  unfold maybeNextChildId at hnsn
  rcases hj : findIdxOf n.id P.childIds with _ | j
  · rw [hj] at hnsn; simp at hnsn
  · rw [hj] at hnsn
    have hnsn2 : (if j + 1 < P.childIds.length
        then some (nthId P.childIds (j + 1)) else some none) = some none := hnsn
    by_cases hlt : j + 1 < P.childIds.length
    · rw [if_pos hlt] at hnsn2
      rcases nthId_isSome_of_lt hlt with ⟨y, hy⟩
      rw [hy] at hnsn2
      simp at hnsn2
    · have hjl := nthId_lt_length (findIdxOf_nthId hj)
      exact lastElem_of_nthId (findIdxOf_nthId hj) (by omega)

/-- Inverting a successful `maybeNextSibIdOf ... = some (some t)` into parent
    and index data. -/
theorem nextSib_some_facts {m : Model} (hw : Wf m) {n : Node} {t : String}
    (h : maybeNextSibIdOf n m = some (some t)) :
    ∃ np j, (np.id, np) ∈ m.byId ∧ getIdToPidLookup m n.id = some np.id ∧
      alookup np.id m.byId = some np ∧
      findIdxOf n.id np.childIds = some j ∧ nthId np.childIds (j + 1) = some t := by
  by_cases hroot : isRootNode n
  · simp [maybeNextSibIdOf, hroot] at h
  · unfold maybeNextSibIdOf at h
    rw [if_neg hroot] at h
    rcases hgp : getParentOf n m with _ | P
    · rw [hgp] at h; simp at h
    · rw [hgp] at h
      simp only [Option.some_bind] at h
      unfold getParentOf getParentOfId at hgp
      rcases hp : getIdToPidLookup m n.id with _ | pid
      · rw [hp] at hgp; simp at hgp
      · rw [hp] at hgp
        simp only [Option.some_bind] at hgp
        have hPmem : (pid, P) ∈ m.byId := alookup_mem hgp
        have hPid : P.id = pid := hw.idConsist _ hPmem
        have hPmem2 : (P.id, P) ∈ m.byId := by rw [hPid]; exact hPmem
        have hPlook : alookup P.id m.byId = some P := by rw [hPid]; exact hgp
        have hp2 : getIdToPidLookup m n.id = some P.id := by rw [hPid]; exact hp
        unfold maybeNextChildId at h
        rcases hj : findIdxOf n.id P.childIds with _ | j
        · rw [hj] at h; simp at h
        · rw [hj] at h
          have h2 : (if j + 1 < P.childIds.length
              then some (nthId P.childIds (j + 1)) else some none)
              = some (some t) := h
          by_cases hlt : j + 1 < P.childIds.length
          · rw [if_pos hlt] at h2
            have ht : nthId P.childIds (j + 1) = some t := by simpa using h2
            exact ⟨P, j, hPmem2, by rw [hPid], hPlook, hj, ht⟩
          · rw [if_neg hlt] at h2
            simp at h2

/-- From a next sibling `t` of `x` (at index `j`), the node stored at `t` sees
    `x` as its previous sibling. -/
theorem next_prev_sibling {m : Model} (hw : Wf m) {np : Node} {x t : String}
    {j : Nat} (hnpmem : (np.id, np) ∈ m.byId)
    (hjx : findIdxOf x np.childIds = some j)
    (hjt : nthId np.childIds (j + 1) = some t) :
    ∃ nt, alookup t m.byId = some nt ∧ nt.id = t ∧ t ≠ rootNodeId ∧
      getIdToPidLookup m t = some np.id ∧
      maybePrevSibIdOf nt m = some (some x) := by
  have htmem : t ∈ np.childIds := nthId_mem hjt
  rcases child_facts hw hnpmem htmem with ⟨htk, htroot, htco, _, htp⟩
  rcases hw.entry htk with ⟨nt, htlook, htid, _⟩
  have hfid_t : findIdxOf t np.childIds = some (j + 1) :=
    findIdxOf_eq_some_of_unique hjt htco
  have hntroot : isRootNode nt = false := isRootNode_false_of_ne htid htroot
  have hnplook : alookup np.id m.byId = some np :=
    alookup_eq_some_of_mem hnpmem hw.nodupKeys
  refine ⟨nt, htlook, htid, htroot, htp, ?_⟩
  have hj1 : j + 1 - 1 = j := by omega
  simp [maybePrevSibIdOf, hntroot, getParentOf, getParentOfId, htid, htp,
    getNodeById, hnplook, maybePrevChildId, hfid_t, hj1, findIdxOf_nthId hjx]

/-- Analysis of a successful `maybeNextSibOfFirstAncestor` run from a node with
    no next sibling: some ancestor `A` has next sibling `t`, and the last
    descendant of `A` is the last descendant of the starting node. -/
theorem nsofa_inverse {m : Model} (hw : Wf m) :
    ∀ (fuel : Nat) (n : Node) (t : String), (n.id, n) ∈ m.byId →
      maybeNextSibIdOf n m = some none →
      maybeNextSibOfFirstAncestor fuel n m = some (some t) →
      ∃ A : Node, (A.id, A) ∈ m.byId ∧
        maybeNextSibIdOf A m = some (some t) ∧
        ∀ g r, getLastDescendentIdOrSelf g n.id m = some r →
          getLastDescendentIdOrSelf (g + fuel) A.id m = some r := by
  intro fuel
  induction fuel with
  | zero => intro n t _ _ hns; simp [maybeNextSibOfFirstAncestor] at hns
  | succ f ih =>
    intro n t hnmem hnsn hns
    rw [nsofa_succ] at hns
    rcases hp : maybeParentIdOf n m with _ | pid
    · rw [hp] at hns; simp at hns
    · rw [hp] at hns
      have hns2 : ((getNodeById pid m).bind fun parent =>
          (maybeNextSibIdOf parent m).bind fun mb =>
          match mb with
          | some i => some (some i)
          | none => maybeNextSibOfFirstAncestor f parent m) = some (some t) := hns
      have hpk : pid ∈ keysOf m.byId := parentD_mem_keys hw hp
      rcases hw.entry hpk with ⟨P, hplook, hpid, hpmem⟩
      rw [show getNodeById pid m = some P from hplook] at hns2
      simp only [Option.some_bind] at hns2
      have hpmem2 : (P.id, P) ∈ m.byId := by rw [hpid]; exact hpmem
      have hgp : getParentOf n m = some P := by
        simp [getParentOf, getParentOfId,
          show getIdToPidLookup m n.id = some pid from hp, getNodeById, hplook]
      have hroot : isRootNode n = false := by
        rcases hbb : isRootNode n
        · rfl
        · exfalso
          have hnr : n.id = rootNodeId := by simpa [isRootNode] using hbb
          have hroot0 := hw.parentD_root
          rw [← hnr] at hroot0
          rw [show getIdToPidLookup m n.id = some pid from hp] at hroot0
          cases hroot0
      have hlast : lastElem P.childIds = some n.id := nextSib_none_last hroot hgp hnsn
      have hPlook : alookup P.id m.byId = some P := by rw [hpid]; exact hplook
      rcases hmb : maybeNextSibIdOf P m with _ | mb
      · rw [hmb] at hns2; simp at hns2
      · rw [hmb] at hns2
        simp only [Option.some_bind] at hns2
        rcases mb with _ | i
        · have hns3 : maybeNextSibOfFirstAncestor f P m = some (some t) := hns2
          rcases ih P t hpmem2 hmb hns3 with ⟨A, hAmem, hAns, hALD⟩
          refine ⟨A, hAmem, hAns, ?_⟩
          intro g r hld
          have hstep : getLastDescendentIdOrSelf (g + 1) P.id m = some r := by
            rw [lastDesc_succ]
            rw [show getNodeById P.id m = some P from hPlook]
            simp only [Option.some_bind]
            rw [hlast]
            exact hld
          have h4 := hALD (g + 1) r hstep
          have he : g + 1 + f = g + (f + 1) := by omega
          rw [he] at h4
          exact h4
        · have hti : i = t := by
            have h5 : some (some i) = some (some t) := hns2
            simpa using h5
          subst hti
          refine ⟨P, hpmem2, hmb, ?_⟩
          intro g r hld
          have he : g + (f + 1) = (g + f) + 1 := by omega
          rw [he, lastDesc_succ]
          rw [show getNodeById P.id m = some P from hPlook]
          simp only [Option.some_bind]
          rw [hlast]
          exact lastDesc_mono g (g + f) n.id r hld (by omega)

/-- Walking to the last descendant preserves the pending "next in pre-order"
    answer: the landing node is childless and its next-sibling-or-ancestor
    search yields the same id the starting node's search would. -/
theorem lastDesc_next {m : Model} (hw : Wf m) :
    ∀ (fuel : Nat) (S : String) (nS : Node) (d : String) (g : Nat) (i : String),
      alookup S m.byId = some nS →
      getLastDescendentIdOrSelf fuel S m = some d →
      (maybeNextSibIdOf nS m = some (some i) ∨
        (maybeNextSibIdOf nS m = some none ∧
          maybeNextSibOfFirstAncestor g nS m = some (some i))) →
      ∃ nd, alookup d m.byId = some nd ∧ nd.childIds = [] ∧
        (maybeNextSibIdOf nd m = some (some i) ∨
          (maybeNextSibIdOf nd m = some none ∧
            maybeNextSibOfFirstAncestor (g + fuel) nd m = some (some i))) := by
  intro fuel
  induction fuel with
  | zero => intro S nS d g i _ hld; simp [getLastDescendentIdOrSelf] at hld
  | succ f ih =>
    intro S nS d g i hS hld hH
    rw [lastDesc_succ] at hld
    rw [show getNodeById S m = some nS from hS] at hld
    simp only [Option.some_bind] at hld
    rcases hc : lastElem nS.childIds with _ | c
    · rw [hc] at hld
      have hdS : S = d := by simpa using hld
      subst hdS
      refine ⟨nS, hS, (lastElem_eq_none_iff _).mp hc, ?_⟩
      rcases hH with hl | ⟨hn1, hn2⟩
      · exact Or.inl hl
      · exact Or.inr ⟨hn1, nsofa_mono g (g + (f + 1)) nS (some i) hn2 (by omega)⟩
    · rw [hc] at hld
      have hSmem : (S, nS) ∈ m.byId := alookup_mem hS
      have hSid : nS.id = S := hw.idConsist _ hSmem
      have hSmem2 : (nS.id, nS) ∈ m.byId := by rw [hSid]; exact hSmem
      have hcmem : c ∈ nS.childIds := lastElem_mem hc
      rcases child_facts hw hSmem2 hcmem with ⟨hck, hcroot, hcco, _, hcp⟩
      rcases hw.entry hck with ⟨nc, hclook, hcid, _⟩
      have hnth : nthId nS.childIds (nS.childIds.length - 1) = some c :=
        lastElem_nthId hc
      have hlen : 0 < nS.childIds.length := by
        have := nthId_lt_length hnth
        omega
      have hfc : findIdxOf c nS.childIds = some (nS.childIds.length - 1) :=
        findIdxOf_eq_some_of_unique hnth hcco
      have hncroot : isRootNode nc = false := isRootNode_false_of_ne hcid hcroot
      have hnSlook : alookup nS.id m.byId = some nS := by rw [hSid]; exact hS
      have hnsc : maybeNextSibIdOf nc m = some none := by
        have hif : ¬ (nS.childIds.length - 1 + 1 < nS.childIds.length) := by omega
        simp [maybeNextSibIdOf, hncroot, getParentOf, getParentOfId, hcid, hcp,
          getNodeById, hnSlook, maybeNextChildId, hfc, hif]
      have hnso : maybeNextSibOfFirstAncestor (g + 1) nc m = some (some i) := by
        rw [nsofa_succ]
        rw [show maybeParentIdOf nc m = some nS.id from by
          show getIdToPidLookup m nc.id = some nS.id
          rw [hcid]
          exact hcp]
        show ((getNodeById nS.id m).bind fun parent =>
            (maybeNextSibIdOf parent m).bind fun mb =>
            match mb with
            | some i2 => some (some i2)
            | none => maybeNextSibOfFirstAncestor g parent m) = some (some i)
        rw [show getNodeById nS.id m = some nS from hnSlook]
        simp only [Option.some_bind]
        rcases hH with hl | ⟨hn1, hn2⟩
        · rw [hl]
          rfl
        · rw [hn1]
          simp only [Option.some_bind]
          exact hn2
      rcases ih c nc d (g + 1) i hclook hld (Or.inr ⟨hnsc, hnso⟩)
        with ⟨nd, h1, h2, h3⟩
      refine ⟨nd, h1, h2, ?_⟩
      have he : g + 1 + f = g + (f + 1) := by omega
      rw [he] at h3
      exact h3

/-- C2: from a non-root current node, moveNext followed by movePrev restores
    the cursor whenever the pre-order successor exists (the candidate chain of
    attemptNext yields an id; otherwise attemptNext already leaves the model
    unchanged), and movePrev followed by moveNext always restores the cursor.
    byId is untouched by both commands, so collapse state is unchanged between
    the calls. -/
theorem C2_move_inverse {m : Model} (hw : Wf m) {n : Node}
    (hlook : alookup m.currentId m.byId = some n)
    (hroot : isRootNode n = false) :
    (∀ t, nextCandidate m.byId.length n m = some (some t) →
      ∃ m2 m3, attemptNext m.byId.length m = some m2 ∧
        attemptPrev m2.byId.length m2 = some m3 ∧
        m2.currentId = t ∧ m2.byId = m.byId ∧ m3.currentId = m.currentId) ∧
    (∃ m2 m3, attemptPrev m.byId.length m = some m2 ∧
      attemptNext m2.byId.length m2 = some m3 ∧
      m2.byId = m.byId ∧ m3.currentId = m.currentId) := by
  have hid : n.id = m.currentId := hw.idConsist _ (alookup_mem hlook)
  have hmem : (n.id, n) ∈ m.byId := by rw [hid]; exact alookup_mem hlook
  have hnroot : n.id ≠ rootNodeId := by simpa [isRootNode] using hroot
  have hnlook : alookup n.id m.byId = some n := by rw [hid]; exact hlook
  constructor
  · intro t hcand
    have hnext : attemptNext m.byId.length m = some { m with currentId := t } := by
      show (getCurrentNode m).bind _ = _
      rw [show getCurrentNode m = some n from hlook]
      simp only [Option.some_bind]
      rw [hcand]
      rfl
    refine ⟨{ m with currentId := t }, { m with currentId := n.id },
      hnext, ?_, rfl, rfl, hid⟩
    rcases hh : maybeFirstChildIdOf n with _ | c
    · -- current node is childless
      have hempty : n.childIds = [] := by
        have h5 : n.childIds.head? = none := hh
        cases hcc : n.childIds with
        | nil => rfl
        | cons a l => rw [hcc] at h5; simp at h5
      have hcand2 : ((maybeNextSibIdOf n m).bind fun mb =>
          match mb with
          | some i => some (some i)
          | none => maybeNextSibOfFirstAncestor m.byId.length n m)
          = some (some t) := by
        have h6 := hcand
        unfold nextCandidate at h6
        rw [hh] at h6
        exact h6
      rcases hmb : maybeNextSibIdOf n m with _ | mb
      · rw [hmb] at hcand2; simp at hcand2
      · rw [hmb] at hcand2
        simp only [Option.some_bind] at hcand2
        rcases mb with _ | i
        · -- the successor came from an ancestor's next sibling
          have hnso : maybeNextSibOfFirstAncestor m.byId.length n m
              = some (some t) := hcand2
          rcases nsofa_inverse hw m.byId.length n t hmem hmb hnso
            with ⟨A, hAmem, hAns, hALD⟩
          rcases nextSib_some_facts hw hAns with ⟨PA, jA, hPAmem, _, _, hjA, hjAt⟩
          rcases next_prev_sibling hw hPAmem hjA hjAt
            with ⟨nt, htlook, htid, htroot2, _, hmp⟩
          have hntroot : isRootNode nt = false := isRootNode_false_of_ne htid htroot2
          have hAk : A.id ∈ keysOf m.byId := mem_keysOf_of_mem hAmem
          rcases depth_le_size hw hAk with ⟨dA, hdA, hdAle⟩
          rcases lastDesc_total hw hAk hdA
            (show m.byId.length - dA ≤ m.byId.length from by omega)
            with ⟨r, nr, hr, _, _, _⟩
          have hld1 : getLastDescendentIdOrSelf 1 n.id m = some n.id :=
            lastDesc_childless hnlook hempty (by omega)
          have hldA := hALD 1 n.id hld1
          have hrn : r = n.id := by
            have h7 := lastDesc_mono m.byId.length (1 + m.byId.length) A.id r hr
              (by omega)
            rw [hldA] at h7
            exact (Option.some.inj h7).symm
          have hrEq : getLastDescendentIdOrSelf m.byId.length A.id m = some n.id := by
            rw [← hrn]
            exact hr
          show (getCurrentNode { m with currentId := t }).bind _ = _
          rw [show getCurrentNode { m with currentId := t } = some nt from htlook]
          simp only [Option.some_bind]
          rw [if_neg (by simp [hntroot])]
          rw [show maybePrevSibIdOf nt { m with currentId := t }
            = some (some A.id) from
            (prevSib_congr (show ({ m with currentId := t } : Model).byId = m.byId
              from rfl) nt).trans hmp]
          simp only [Option.some_bind]
          show (getLastDescendentIdOrSelf m.byId.length A.id
              { m with currentId := t }).map (fun d => Model.mk m.byId d)
            = some (Model.mk m.byId n.id)
          rw [show getLastDescendentIdOrSelf m.byId.length A.id
              { m with currentId := t } = some n.id from
            (lastDesc_congr (show ({ m with currentId := t } : Model).byId = m.byId
              from rfl) m.byId.length A.id).trans hrEq]
          rfl
        · -- the successor is the direct next sibling
          have hit : i = t := by
            have h8 : some (some i) = some (some t) := hcand2
            simpa using h8
          subst hit
          rcases nextSib_some_facts hw hmb with ⟨np, j, hnpmem, _, _, hj, hjt⟩
          rcases next_prev_sibling hw hnpmem hj hjt
            with ⟨nt, htlook, htid, htroot2, _, hmp⟩
          have hntroot : isRootNode nt = false := isRootNode_false_of_ne htid htroot2
          have hFpos : 0 < m.byId.length := List.length_pos_of_mem hmem
          have hldn : getLastDescendentIdOrSelf m.byId.length n.id m = some n.id :=
            lastDesc_childless hnlook hempty hFpos
          show (getCurrentNode { m with currentId := i }).bind _ = _
          rw [show getCurrentNode { m with currentId := i } = some nt from htlook]
          simp only [Option.some_bind]
          rw [if_neg (by simp [hntroot])]
          rw [show maybePrevSibIdOf nt { m with currentId := i }
            = some (some n.id) from
            (prevSib_congr (show ({ m with currentId := i } : Model).byId = m.byId
              from rfl) nt).trans hmp]
          simp only [Option.some_bind]
          show (getLastDescendentIdOrSelf m.byId.length n.id
              { m with currentId := i }).map (fun d => Model.mk m.byId d)
            = some (Model.mk m.byId n.id)
          rw [show getLastDescendentIdOrSelf m.byId.length n.id
              { m with currentId := i } = some n.id from
            (lastDesc_congr (show ({ m with currentId := i } : Model).byId = m.byId
              from rfl) m.byId.length n.id).trans hldn]
          rfl
    · -- current node has a first child
      have hct : c = t := by
        unfold nextCandidate at hcand
        rw [hh] at hcand
        simpa using hcand
      subst hct
      have hn0 : nthId n.childIds 0 = some c := by
        rw [← head?_eq_nthId_zero]
        exact hh
      have htmem : c ∈ n.childIds := nthId_mem hn0
      rcases child_facts hw hmem htmem with ⟨htk, htroot2, htco, _, htp⟩
      rcases hw.entry htk with ⟨nt, htlook, htid, _⟩
      have hfid : findIdxOf c n.childIds = some 0 :=
        findIdxOf_eq_some_of_unique hn0 htco
      have hntroot : isRootNode nt = false := isRootNode_false_of_ne htid htroot2
      have hmp : maybePrevSibIdOf nt m = some none := by
        simp [maybePrevSibIdOf, hntroot, getParentOf, getParentOfId, htid, htp,
          getNodeById, hnlook, maybePrevChildId, hfid]
      show (getCurrentNode { m with currentId := c }).bind _ = _
      rw [show getCurrentNode { m with currentId := c } = some nt from htlook]
      simp only [Option.some_bind]
      rw [if_neg (by simp [hntroot])]
      rw [show maybePrevSibIdOf nt { m with currentId := c }
        = some none from
        (prevSib_congr (show ({ m with currentId := c } : Model).byId = m.byId
          from rfl) nt).trans hmp]
      simp only [Option.some_bind]
      rw [show maybeParentIdOf nt { m with currentId := c } = some n.id from
        (maybeParentIdOf_congr (show ({ m with currentId := c } : Model).byId
            = m.byId from rfl) nt).trans
          (show maybeParentIdOf nt m = some n.id from by
            show getIdToPidLookup m nt.id = some n.id
            rw [htid]
            exact htp)]
  · rcases hw.parent_entry (mem_keysOf_of_mem hmem) hnroot
      with ⟨np, hp, hnpmem, hnplook, hpin⟩
    rcases findIdxOf_isSome_of_mem hpin with ⟨idx, hidx⟩
    rcases Nat.eq_zero_or_pos idx with hidx0 | hpos
    · subst hidx0
      have hmp : maybePrevSibIdOf n m = some none := by
        simp [maybePrevSibIdOf, hroot, getParentOf, getParentOfId, hp, getNodeById,
          hnplook, maybePrevChildId, hidx]
      have hprev : attemptPrev m.byId.length m
          = some { m with currentId := np.id } := by
        show (getCurrentNode m).bind _ = _
        rw [show getCurrentNode m = some n from hlook]
        simp only [Option.some_bind]
        rw [if_neg (by simp [hroot])]
        rw [hmp]
        simp only [Option.some_bind]
        rw [show maybeParentIdOf n m = some np.id from hp]
      have hfc0 : maybeFirstChildIdOf np = some n.id := by
        show np.childIds.head? = some n.id
        rw [head?_eq_nthId_zero]
        exact findIdxOf_nthId hidx
      have hcand2 : nextCandidate m.byId.length np m = some (some n.id) := by
        unfold nextCandidate
        rw [hfc0]
      have hnext : attemptNext ({ m with currentId := np.id } : Model).byId.length
          { m with currentId := np.id } = some (Model.mk m.byId n.id) := by
        show (getCurrentNode { m with currentId := np.id }).bind _ = _
        rw [show getCurrentNode { m with currentId := np.id } = some np from hnplook]
        simp only [Option.some_bind]
        rw [show nextCandidate ({ m with currentId := np.id } : Model).byId.length np
            { m with currentId := np.id } = some (some n.id) from
          (nextCandidate_congr (show ({ m with currentId := np.id } : Model).byId
            = m.byId from rfl) _ np).trans hcand2]
        rfl
      exact ⟨{ m with currentId := np.id }, Model.mk m.byId n.id, hprev, hnext,
        rfl, hid⟩
    · have hlt2 : idx - 1 < np.childIds.length := by
        have := nthId_lt_length (findIdxOf_nthId hidx)
        omega
      rcases nthId_isSome_of_lt hlt2 with ⟨S, hS⟩
      have hmp : maybePrevSibIdOf n m = some (some S) := by
        simp [maybePrevSibIdOf, hroot, getParentOf, getParentOfId, hp, getNodeById,
          hnplook, maybePrevChildId, hidx, hpos, hS]
      have hSmem' : S ∈ np.childIds := nthId_mem hS
      rcases child_facts hw hnpmem hSmem' with ⟨hSk, hSroot, hSco, _, hSp⟩
      rcases hw.entry hSk with ⟨nS, hSlook, hSid, _⟩
      rcases depth_le_size hw hSk with ⟨dS, hdS, _⟩
      rcases lastDesc_total hw hSk hdS
        (show m.byId.length - dS ≤ m.byId.length from by omega)
        with ⟨r, nr, hr, _, _, _⟩
      have hprev : attemptPrev m.byId.length m = some (Model.mk m.byId r) := by
        show (getCurrentNode m).bind _ = _
        rw [show getCurrentNode m = some n from hlook]
        simp only [Option.some_bind]
        rw [if_neg (by simp [hroot])]
        rw [hmp]
        simp only [Option.some_bind]
        show (getLastDescendentIdOrSelf m.byId.length S m).map
          (fun d => Model.mk m.byId d) = some (Model.mk m.byId r)
        rw [hr]
        rfl
      have hfS : findIdxOf S np.childIds = some (idx - 1) :=
        findIdxOf_eq_some_of_unique hS hSco
      have hltS : idx - 1 + 1 < np.childIds.length := by
        have := nthId_lt_length (findIdxOf_nthId hidx)
        omega
      have hnSroot : isRootNode nS = false := isRootNode_false_of_ne hSid hSroot
      have hnsS : maybeNextSibIdOf nS m = some (some n.id) := by
        have he1 : idx - 1 + 1 = idx := by omega
        have hidxlt : idx < np.childIds.length := by omega
        simp [maybeNextSibIdOf, hnSroot, getParentOf, getParentOfId, hSid, hSp,
          getNodeById, hnplook, maybeNextChildId, hfS, hltS, he1, hidxlt,
          findIdxOf_nthId hidx]
      rcases lastDesc_next hw m.byId.length S nS r 0 n.id hSlook hr (Or.inl hnsS)
        with ⟨nd, hndlook, hndempty, hH3⟩
      have hcand2 : nextCandidate m.byId.length nd m = some (some n.id) := by
        unfold nextCandidate
        rw [show maybeFirstChildIdOf nd = none from by
          show nd.childIds.head? = none
          rw [hndempty]
          rfl]
        rcases hH3 with hl | ⟨hn1, hn2⟩
        · rw [hl]
          rfl
        · rw [hn1]
          simp only [Option.some_bind]
          rw [show (0 : Nat) + m.byId.length = m.byId.length from by omega] at hn2
          exact hn2
      have hnext : attemptNext (Model.mk m.byId r).byId.length (Model.mk m.byId r)
          = some (Model.mk m.byId n.id) := by
        show (getCurrentNode (Model.mk m.byId r)).bind _ = _
        rw [show getCurrentNode (Model.mk m.byId r) = some nd from hndlook]
        simp only [Option.some_bind]
        rw [show nextCandidate (Model.mk m.byId r).byId.length nd (Model.mk m.byId r)
            = some (some n.id) from
          (nextCandidate_congr (show (Model.mk m.byId r).byId = m.byId from rfl)
            _ nd).trans hcand2]
        rfl
      exact ⟨Model.mk m.byId r, Model.mk m.byId n.id, hprev, hnext, rfl, hid⟩

/-- Witness for C2 on `c7Model` (cursor "idA", child "idB"): moveNext descends
    to the first child and movePrev climbs back; movePrev and moveNext also
    invert. -/
theorem C2_move_inverse_witness :
    alookup c7Model.currentId c7Model.byId
      = some (Node.mk "idA" "ta" false ["idB"]) ∧
    ((∀ t, nextCandidate c7Model.byId.length (Node.mk "idA" "ta" false ["idB"])
        c7Model = some (some t) →
      ∃ m2 m3, attemptNext c7Model.byId.length c7Model = some m2 ∧
        attemptPrev m2.byId.length m2 = some m3 ∧
        m2.currentId = t ∧ m2.byId = c7Model.byId ∧
        m3.currentId = c7Model.currentId) ∧
     (∃ m2 m3, attemptPrev c7Model.byId.length c7Model = some m2 ∧
       attemptNext m2.byId.length m2 = some m3 ∧
       m2.byId = c7Model.byId ∧ m3.currentId = c7Model.currentId)) :=
  ⟨by decide, @C2_move_inverse c7Model wf_c7Model (Node.mk "idA" "ta" false ["idB"])
    (by decide) (by decide)⟩

theorem alookup_shape : ∀ (l1 l2 : List (String × Node)),
    l1.map entryShape = l2.map entryShape → ∀ k,
    (alookup k l1).map (fun n => (n.id, n.title, n.childIds))
      = (alookup k l2).map (fun n => (n.id, n.title, n.childIds)) := by
  intro l1
  induction l1 with
  | nil =>
    intro l2 hB k
    cases l2 with
    | nil => rfl
    | cons q s => simp at hB
  | cons p t ih =>
    intro l2 hB k
    cases l2 with
    | nil => simp at hB
    | cons q s =>
      obtain ⟨k1, n1⟩ := p
      obtain ⟨k2, n2⟩ := q
      simp only [List.map_cons, List.cons.injEq] at hB
      obtain ⟨hpq, hts⟩ := hB
      have hk12 : k1 = k2 := congrArg (fun x => x.1) hpq
      have hid : n1.id = n2.id := congrArg (fun x => x.2.1) hpq
      have htl : n1.title = n2.title := congrArg (fun x => x.2.2.1) hpq
      have hch : n1.childIds = n2.childIds := congrArg (fun x => x.2.2.2) hpq
      by_cases hk : k1 = k
      · rw [show alookup k ((k1, n1) :: t) = some n1 from by simp [alookup, hk]]
        rw [show alookup k ((k2, n2) :: s) = some n2 from by
          simp [alookup, hk12 ▸ hk]]
        simp [hid, htl, hch]
      · rw [show alookup k ((k1, n1) :: t) = alookup k t from by simp [alookup, hk]]
        rw [show alookup k ((k2, n2) :: s) = alookup k s from by
          simp [alookup, hk12 ▸ hk]]
        exact ih s hts k

theorem pidPairs_shape : ∀ (l1 l2 : List (String × Node)),
    l1.map entryShape = l2.map entryShape →
    pidPairsOf l1 = pidPairsOf l2 := by
  intro l1
  induction l1 with
  | nil =>
    intro l2 hB
    cases l2 with
    | nil => rfl
    | cons q s => simp at hB
  | cons p t ih =>
    intro l2 hB
    cases l2 with
    | nil => simp at hB
    | cons q s =>
      obtain ⟨k1, n1⟩ := p
      obtain ⟨k2, n2⟩ := q
      simp only [List.map_cons, List.cons.injEq] at hB
      obtain ⟨hpq, hts⟩ := hB
      have hid : n1.id = n2.id := congrArg (fun x => x.2.1) hpq
      have hch : n1.childIds = n2.childIds := congrArg (fun x => x.2.2.2) hpq
      show childPairs n1 ++ pidPairsOf t = childPairs n2 ++ pidPairsOf s
      rw [ih s hts]
      unfold childPairs
      rw [hid, hch]

theorem parentD_shape {m1 m2 : Model}
    (hB : m1.byId.map entryShape = m2.byId.map entryShape) (c : String) :
    getIdToPidLookup m1 c = getIdToPidLookup m2 c := by
  unfold getIdToPidLookup
  rw [pidPairs_shape m1.byId m2.byId hB]

theorem nextSib_shape {m1 m2 : Model}
    (hB : m1.byId.map entryShape = m2.byId.map entryShape)
    {n1 n2 : Node} (hid : n1.id = n2.id) (hch : n1.childIds = n2.childIds) :
    maybeNextSibIdOf n1 m1 = maybeNextSibIdOf n2 m2 := by
  unfold maybeNextSibIdOf
  rw [show isRootNode n1 = isRootNode n2 from by unfold isRootNode; rw [hid]]
  by_cases hr : isRootNode n2
  · rw [if_pos hr, if_pos hr]
  · rw [if_neg hr, if_neg hr]
    show ((getParentOf n1 m1).bind fun parent => maybeNextChildId n1.id parent)
      = ((getParentOf n2 m2).bind fun parent => maybeNextChildId n2.id parent)
    unfold getParentOf getParentOfId
    rw [show getIdToPidLookup m1 n1.id = getIdToPidLookup m2 n2.id from by
      rw [hid]; exact parentD_shape hB n2.id]
    rcases hp : getIdToPidLookup m2 n2.id with _ | pid
    · rfl
    · show ((alookup pid m1.byId).bind fun parent => maybeNextChildId n1.id parent)
        = ((alookup pid m2.byId).bind fun parent => maybeNextChildId n2.id parent)
      have hal := alookup_shape m1.byId m2.byId hB pid
      rcases h1 : alookup pid m1.byId with _ | P1 <;>
        rcases h2 : alookup pid m2.byId with _ | P2
      · rfl
      · rw [h1, h2] at hal; simp at hal
      · rw [h1, h2] at hal; simp at hal
      · rw [h1, h2] at hal
        simp only [Option.map_some'] at hal
        have hal2 : (P1.id, P1.title, P1.childIds) = (P2.id, P2.title, P2.childIds) :=
          Option.some.inj hal
        have hchP : P1.childIds = P2.childIds := congrArg (fun x => x.2.2) hal2
        simp only [Option.some_bind]
        unfold maybeNextChildId
        rw [hid, hchP]

theorem prevSib_shape {m1 m2 : Model}
    (hB : m1.byId.map entryShape = m2.byId.map entryShape)
    {n1 n2 : Node} (hid : n1.id = n2.id) (hch : n1.childIds = n2.childIds) :
    maybePrevSibIdOf n1 m1 = maybePrevSibIdOf n2 m2 := by
  unfold maybePrevSibIdOf
  rw [show isRootNode n1 = isRootNode n2 from by unfold isRootNode; rw [hid]]
  by_cases hr : isRootNode n2
  · rw [if_pos hr, if_pos hr]
  · rw [if_neg hr, if_neg hr]
    show ((getParentOf n1 m1).bind fun parent => maybePrevChildId n1.id parent)
      = ((getParentOf n2 m2).bind fun parent => maybePrevChildId n2.id parent)
    unfold getParentOf getParentOfId
    rw [show getIdToPidLookup m1 n1.id = getIdToPidLookup m2 n2.id from by
      rw [hid]; exact parentD_shape hB n2.id]
    rcases hp : getIdToPidLookup m2 n2.id with _ | pid
    · rfl
    · show ((alookup pid m1.byId).bind fun parent => maybePrevChildId n1.id parent)
        = ((alookup pid m2.byId).bind fun parent => maybePrevChildId n2.id parent)
      have hal := alookup_shape m1.byId m2.byId hB pid
      rcases h1 : alookup pid m1.byId with _ | P1 <;>
        rcases h2 : alookup pid m2.byId with _ | P2
      · rfl
      · rw [h1, h2] at hal; simp at hal
      · rw [h1, h2] at hal; simp at hal
      · rw [h1, h2] at hal
        simp only [Option.map_some'] at hal
        have hal2 : (P1.id, P1.title, P1.childIds) = (P2.id, P2.title, P2.childIds) :=
          Option.some.inj hal
        have hchP : P1.childIds = P2.childIds := congrArg (fun x => x.2.2) hal2
        simp only [Option.some_bind]
        unfold maybePrevChildId
        rw [hid, hchP]

theorem nsofa_shape {m1 m2 : Model}
    (hB : m1.byId.map entryShape = m2.byId.map entryShape) :
    ∀ (fuel : Nat) (n1 n2 : Node), n1.id = n2.id → n1.childIds = n2.childIds →
      maybeNextSibOfFirstAncestor fuel n1 m1
        = maybeNextSibOfFirstAncestor fuel n2 m2 := by
  intro fuel
  induction fuel with
  | zero => intro n1 n2 _ _; rfl
  | succ f ih =>
    intro n1 n2 hid hch
    rw [nsofa_succ, nsofa_succ]
    rw [show maybeParentIdOf n1 m1 = maybeParentIdOf n2 m2 from by
      unfold maybeParentIdOf; rw [hid]; exact parentD_shape hB n2.id]
    rcases hp : maybeParentIdOf n2 m2 with _ | pid
    · rfl
    · show ((alookup pid m1.byId).bind fun parent =>
          (maybeNextSibIdOf parent m1).bind fun mb =>
          match mb with
          | some i => some (some i)
          | none => maybeNextSibOfFirstAncestor f parent m1)
        = ((alookup pid m2.byId).bind fun parent =>
          (maybeNextSibIdOf parent m2).bind fun mb =>
          match mb with
          | some i => some (some i)
          | none => maybeNextSibOfFirstAncestor f parent m2)
      have hal := alookup_shape m1.byId m2.byId hB pid
      rcases h1 : alookup pid m1.byId with _ | P1 <;>
        rcases h2 : alookup pid m2.byId with _ | P2
      · rfl
      · rw [h1, h2] at hal; simp at hal
      · rw [h1, h2] at hal; simp at hal
      · rw [h1, h2] at hal
        simp only [Option.map_some'] at hal
        have hal2 : (P1.id, P1.title, P1.childIds) = (P2.id, P2.title, P2.childIds) :=
          Option.some.inj hal
        have hidP : P1.id = P2.id := congrArg (fun x => x.1) hal2
        have hchP : P1.childIds = P2.childIds := congrArg (fun x => x.2.2) hal2
        simp only [Option.some_bind]
        rw [nextSib_shape hB hidP hchP]
        rcases hmb : maybeNextSibIdOf P2 m2 with _ | mb
        · rfl
        · simp only [Option.some_bind]
          rcases mb with _ | i
          · exact ih P1 P2 hidP hchP
          · rfl

theorem lastDesc_shape {m1 m2 : Model}
    (hB : m1.byId.map entryShape = m2.byId.map entryShape) :
    ∀ (fuel : Nat) (k : String),
      getLastDescendentIdOrSelf fuel k m1 = getLastDescendentIdOrSelf fuel k m2 := by
  intro fuel
  induction fuel with
  | zero => intro k; rfl
  | succ f ih =>
    intro k
    rw [lastDesc_succ, lastDesc_succ]
    have hal := alookup_shape m1.byId m2.byId hB k
    show ((alookup k m1.byId).bind fun n =>
        match lastElem n.childIds with
        | none => some k
        | some c => getLastDescendentIdOrSelf f c m1)
      = ((alookup k m2.byId).bind fun n =>
        match lastElem n.childIds with
        | none => some k
        | some c => getLastDescendentIdOrSelf f c m2)
    rcases h1 : alookup k m1.byId with _ | P1 <;>
      rcases h2 : alookup k m2.byId with _ | P2
    · rfl
    · rw [h1, h2] at hal; simp at hal
    · rw [h1, h2] at hal; simp at hal
    · rw [h1, h2] at hal
      simp only [Option.map_some'] at hal
      have hal2 : (P1.id, P1.title, P1.childIds) = (P2.id, P2.title, P2.childIds) :=
        Option.some.inj hal
      have hchP : P1.childIds = P2.childIds := congrArg (fun x => x.2.2) hal2
      simp only [Option.some_bind]
      rw [hchP]
      rcases hc : lastElem P2.childIds with _ | c
      · rfl
      · exact ih c

theorem nextCandidate_shape {m1 m2 : Model}
    (hB : m1.byId.map entryShape = m2.byId.map entryShape) (fuel : Nat)
    {n1 n2 : Node} (hid : n1.id = n2.id) (hch : n1.childIds = n2.childIds) :
    nextCandidate fuel n1 m1 = nextCandidate fuel n2 m2 := by
  unfold nextCandidate
  rw [show maybeFirstChildIdOf n1 = maybeFirstChildIdOf n2 from by
    unfold maybeFirstChildIdOf; rw [hch]]
  rcases hh : maybeFirstChildIdOf n2 with _ | c
  · rw [nextSib_shape hB hid hch]
    rcases hmb : maybeNextSibIdOf n2 m2 with _ | mb
    · rfl
    · simp only [Option.some_bind]
      rcases mb with _ | i
      · exact nsofa_shape hB fuel n1 n2 hid hch
      · rfl
  · rfl

theorem attemptNext_shape {m1 m2 : Model} (hC : m1.currentId = m2.currentId)
    (hB : m1.byId.map entryShape = m2.byId.map entryShape) :
    (attemptNext m1.byId.length m1).map Model.currentId
      = (attemptNext m2.byId.length m2).map Model.currentId := by
  have hal := alookup_shape m1.byId m2.byId hB m1.currentId
  show (((alookup m1.currentId m1.byId).bind fun n =>
      (nextCandidate m1.byId.length n m1).bind fun maybeId =>
      match maybeId with
      | some i => some { m1 with currentId := i }
      | none => some m1).map Model.currentId)
    = (((alookup m2.currentId m2.byId).bind fun n =>
      (nextCandidate m2.byId.length n m2).bind fun maybeId =>
      match maybeId with
      | some i => some { m2 with currentId := i }
      | none => some m2).map Model.currentId)
  rw [← hC]
  rcases h1 : alookup m1.currentId m1.byId with _ | n1 <;>
    rcases h2 : alookup m1.currentId m2.byId with _ | n2
  · rfl
  · rw [h1, h2] at hal; simp at hal
  · rw [h1, h2] at hal; simp at hal
  · rw [h1, h2] at hal
    simp only [Option.map_some'] at hal
    have hal2 : (n1.id, n1.title, n1.childIds) = (n2.id, n2.title, n2.childIds) :=
      Option.some.inj hal
    have hid : n1.id = n2.id := congrArg (fun x => x.1) hal2
    have hch : n1.childIds = n2.childIds := congrArg (fun x => x.2.2) hal2
    simp only [Option.some_bind]
    rw [show nextCandidate m1.byId.length n1 m1
        = nextCandidate m2.byId.length n2 m2 from by
      rw [show m1.byId.length = m2.byId.length from by
        have h3 := congrArg List.length hB
        simpa using h3]
      exact nextCandidate_shape hB _ hid hch]
    rcases hcand : nextCandidate m2.byId.length n2 m2 with _ | mb
    · rfl
    · simp only [Option.some_bind]
      rcases mb with _ | i
      · show some m1.currentId = some m2.currentId
        rw [hC]
      · rfl

theorem attemptPrev_shape {m1 m2 : Model} (hC : m1.currentId = m2.currentId)
    (hB : m1.byId.map entryShape = m2.byId.map entryShape) :
    (attemptPrev m1.byId.length m1).map Model.currentId
      = (attemptPrev m2.byId.length m2).map Model.currentId := by
  have hal := alookup_shape m1.byId m2.byId hB m1.currentId
  show (((alookup m1.currentId m1.byId).bind fun n =>
      if isRootNode n then some m1 else
      (maybePrevSibIdOf n m1).bind fun mp =>
      match mp with
      | some prevId =>
        (getLastDescendentIdOrSelf m1.byId.length prevId m1).map fun d =>
          { m1 with currentId := d }
      | none =>
        match maybeParentIdOf n m1 with
        | some pid => some { m1 with currentId := pid }
        | none => some m1).map Model.currentId)
    = (((alookup m2.currentId m2.byId).bind fun n =>
      if isRootNode n then some m2 else
      (maybePrevSibIdOf n m2).bind fun mp =>
      match mp with
      | some prevId =>
        (getLastDescendentIdOrSelf m2.byId.length prevId m2).map fun d =>
          { m2 with currentId := d }
      | none =>
        match maybeParentIdOf n m2 with
        | some pid => some { m2 with currentId := pid }
        | none => some m2).map Model.currentId)
  rw [← hC]
  rcases h1 : alookup m1.currentId m1.byId with _ | n1 <;>
    rcases h2 : alookup m1.currentId m2.byId with _ | n2
  · rfl
  · rw [h1, h2] at hal; simp at hal
  · rw [h1, h2] at hal; simp at hal
  · rw [h1, h2] at hal
    simp only [Option.map_some'] at hal
    have hal2 : (n1.id, n1.title, n1.childIds) = (n2.id, n2.title, n2.childIds) :=
      Option.some.inj hal
    have hid : n1.id = n2.id := congrArg (fun x => x.1) hal2
    have hch : n1.childIds = n2.childIds := congrArg (fun x => x.2.2) hal2
    simp only [Option.some_bind]
    rw [show isRootNode n1 = isRootNode n2 from by unfold isRootNode; rw [hid]]
    by_cases hr : isRootNode n2
    · rw [if_pos hr, if_pos hr]
      show some m1.currentId = some m2.currentId
      rw [hC]
    · rw [if_neg hr, if_neg hr]
      rw [prevSib_shape hB hid hch]
      rcases hmp : maybePrevSibIdOf n2 m2 with _ | mp
      · rfl
      · simp only [Option.some_bind]
        rcases mp with _ | prevId
        · rw [show maybeParentIdOf n1 m1 = maybeParentIdOf n2 m2 from by
            unfold maybeParentIdOf; rw [hid]; exact parentD_shape hB n2.id]
          rcases hpp : maybeParentIdOf n2 m2 with _ | pid
          · show some m1.currentId = some m2.currentId
            rw [hC]
          · rfl
        · show ((getLastDescendentIdOrSelf m1.byId.length prevId m1).map
              (fun d => Model.mk m1.byId d)).map Model.currentId
            = ((getLastDescendentIdOrSelf m2.byId.length prevId m2).map
              (fun d => Model.mk m2.byId d)).map Model.currentId
          rw [show getLastDescendentIdOrSelf m1.byId.length prevId m1
              = getLastDescendentIdOrSelf m2.byId.length prevId m2 from by
            rw [show m1.byId.length = m2.byId.length from by
              have h3 := congrArg List.length hB
              simpa using h3]
            exact lastDesc_shape hB _ prevId]
          rcases hld : getLastDescendentIdOrSelf m2.byId.length prevId m2 with _ | d
          · rfl
          · rfl

/-- C9: moveNext and movePrev never read the collapsed flag: on two well-formed
    models identical except in collapse state (same keys, ids, titles, childIds
    in the same order, same currentId), both runs succeed and land the cursor on
    the same id — navigation never skips the children of a collapsed node. -/
theorem C9_collapse_insensitive {m1 m2 : Model} (hw : Wf m1)
    (he : CollapseEquiv m1 m2) :
    (∃ r1 r2, attemptNext m1.byId.length m1 = some r1 ∧
      attemptNext m2.byId.length m2 = some r2 ∧ r1.currentId = r2.currentId) ∧
    (∃ r1 r2, attemptPrev m1.byId.length m1 = some r1 ∧
      attemptPrev m2.byId.length m2 = some r2 ∧ r1.currentId = r2.currentId) := by
  obtain ⟨hC, hB⟩ := he
  constructor
  · rcases attemptNext_ok hw with ⟨r1, hr1, _, _⟩
    have hmap := attemptNext_shape hC hB
    rw [hr1] at hmap
    rcases h2 : attemptNext m2.byId.length m2 with _ | r2
    · rw [h2] at hmap; simp at hmap
    · rw [h2] at hmap
      simp only [Option.map_some'] at hmap
      exact ⟨r1, r2, hr1, rfl, Option.some.inj hmap⟩
  · rcases attemptPrev_ok hw with ⟨r1, hr1, _, _⟩
    have hmap := attemptPrev_shape hC hB
    rw [hr1] at hmap
    rcases h2 : attemptPrev m2.byId.length m2 with _ | r2
    · rw [h2] at hmap; simp at hmap
    · rw [h2] at hmap
      simp only [Option.map_some'] at hmap
      exact ⟨r1, r2, hr1, rfl, Option.some.inj hmap⟩

/-- Witness for C9: `c8Model` and `c9Model` differ only in "pA"'s collapsed
    flag; navigation agrees on both. -/
theorem C9_collapse_insensitive_witness :
    CollapseEquiv c8Model c9Model ∧
    ((∃ r1 r2, attemptNext c8Model.byId.length c8Model = some r1 ∧
       attemptNext c9Model.byId.length c9Model = some r2 ∧
       r1.currentId = r2.currentId) ∧
     (∃ r1 r2, attemptPrev c8Model.byId.length c8Model = some r1 ∧
       attemptPrev c9Model.byId.length c9Model = some r2 ∧
       r1.currentId = r2.currentId)) :=
  ⟨⟨by decide, by decide⟩,
    C9_collapse_insensitive wf_c8Model ⟨by decide, by decide⟩⟩

end Ingrid
